import Mathlib

/-!
# Fuse-Filebase-Manager: a verification development

A shallow embedding of the storage core of the repository
(`bitmap.c`, `blocks.c`, `inode.c`, `directory.c`, `storage.c`) and theorems
about it.

Conventions of the embedding.

* A byte is a `Nat` (below 256 wherever it comes out of a C object); a C string
  is the list of its bytes before the terminating NUL.
* A C `int` is an `Int`; where the source converts between integer types the
  conversion is written out (`toI32`, `toU64`).
* Module globals (`inodes`, `block_data`, `block_bitmap`, the backing file behind
  `fd`) are the fields of `State`; every operation takes the state and returns
  the new one next to its C return value.
* `none` stands for undefined behaviour of the C program (a NULL dereference, a
  `memcpy` that leaves the block image) or for `exit(1)`.
* `storage.c` passes `(directory_t *)get_inode(..)` to the directory functions:
  the directory they work on is the memory of the inode table itself.  The
  directory functions are therefore defined on raw memory (a list of bytes
  starting at the `directory_t *`), and `inodes_bytes` / `bytes_inodes` give the
  object representation of the table for the usual Linux ABI: 4-byte
  little-endian two's complement `int`, `sizeof(inode_t) = 16`,
  `sizeof(directory_entry_t) = 32` (27 name bytes, one padding byte, `inum` at
  offset 28), `offsetof(directory_t, entries) = 4`.
-/

namespace Nufs

/-! ## Constants -/

/-- The constant `BLOCK_SIZE` of blocks.h. -/
def BLOCK_SIZE : Nat := 4096
/-- The constant `BLOCK_COUNT` of blocks.h. -/
def BLOCK_COUNT : Nat := 256
/-- The constant `INODE_COUNT` of inode.h. -/
def INODE_COUNT : Nat := 128
/-- The constant `MAX_ENTRIES` of directory.h. -/
def MAX_ENTRIES : Nat := 32
/-- The constant `MAX_NAME_LEN` of directory.h. -/
def MAX_NAME_LEN : Nat := 27

/-- The value of `ENOENT` in the Linux `errno.h`. -/
def ENOENT : Int := 2
/-- The value of `EIO` in the Linux `errno.h`. -/
def EIO : Int := 5
/-- The value of `EEXIST` in the Linux `errno.h`. -/
def EEXIST : Int := 17
/-- The value of `ENOTDIR` in the Linux `errno.h`. -/
def ENOTDIR : Int := 20
/-- The value of `ENOSPC` in the Linux `errno.h`. -/
def ENOSPC : Int := 28
/-- The value of `ENOTEMPTY` in the Linux `errno.h`. -/
def ENOTEMPTY : Int := 39

/-- The mask `S_IFMT` of `sys/stat.h` (octal 0170000). -/
def S_IFMT : Nat := 0o170000
/-- The bit `S_IFDIR` of `sys/stat.h` (octal 0040000). -/
def S_IFDIR : Nat := 0o040000

/-! ## Integer conversions -/

/-- Conversion to a 64-bit unsigned integer (`size_t`, `unsigned long`). -/
def toU64 (x : Int) : Nat := (x % 18446744073709551616).toNat

/-- Conversion to a 32-bit unsigned integer; the bit pattern of an `int`. -/
def toU32 (x : Int) : Nat := (x % 4294967296).toNat

/-- Conversion to `int`: the 32-bit two's complement value with the same low 32 bits. -/
def toI32 (x : Int) : Int :=
  if toU32 x < 2147483648 then (toU32 x : Int) else (toU32 x : Int) - 4294967296

/-- The macro `S_ISDIR(m)`: `(m & S_IFMT) == S_IFDIR`. -/
def S_ISDIR (mode : Int) : Bool := (toU32 mode) &&& S_IFMT == S_IFDIR

/-- ASCII text as a C string (the bytes before the NUL). -/
def cstr (s : String) : List Nat := s.data.map Char.toNat

/-! ## bitmap.c -/

/-- The function `bitmap_get(bm, i)`: `(base[i / 8] >> (i % 8)) & 1`. -/
def bitmap_get (bm : List Nat) (i : Nat) : Nat :=
  ((bm.getD (i / 8) 0) >>> (i % 8)) &&& 1

/-- The function `bitmap_put(bm, i, v)`: sets (`v != 0`) or clears bit `i % 8` of byte `i / 8`;
the result is stored back into a `uint8_t`. -/
def bitmap_put (bm : List Nat) (i : Nat) (v : Int) : List Nat :=
  if v ≠ 0 then
    bm.set (i / 8) (((bm.getD (i / 8) 0) ||| (1 <<< (i % 8))) % 256)
  else
    bm.set (i / 8) ((bm.getD (i / 8) 0) &&& (255 - (1 <<< (i % 8))))

/-- The loop of `bitmap_first_unused`, started at index `i` with `n` indices left. -/
def bitmap_first_unused_from (bm : List Nat) (i : Nat) : Nat → Int
  | 0 => -1
  | n + 1 => if bitmap_get bm i = 0 then (i : Int) else bitmap_first_unused_from bm (i + 1) n

/-- The function `bitmap_first_unused(bm, size)`. -/
def bitmap_first_unused (bm : List Nat) (size : Nat) : Int :=
  bitmap_first_unused_from bm 0 size

/-! ## blocks.c -/

/-- The function `blocks_get_block(block_num)`, as an offset into `block_data`; `none` is NULL. -/
def blocks_get_block (block_num : Int) : Option Nat :=
  if block_num < 0 ∨ block_num ≥ BLOCK_COUNT then none
  else some (block_num.toNat * BLOCK_SIZE)

/-- The function `alloc_block()`: the return value and the new bitmap. -/
def alloc_block (block_bitmap : List Nat) : Int × List Nat :=
  let block_num := bitmap_first_unused block_bitmap BLOCK_COUNT
  if block_num < 0 then (-1, block_bitmap)
  else (block_num, bitmap_put block_bitmap block_num.toNat 1)

/-- The return values of `k` successive calls of `alloc_block()`, in call order, with
the bitmap after the last call. -/
def alloc_block_times : Nat → List Nat → List Int × List Nat
  | 0, block_bitmap => ([], block_bitmap)
  | k + 1, block_bitmap =>
      let r := alloc_block block_bitmap
      let rest := alloc_block_times k r.2
      (r.1 :: rest.1, rest.2)

/-! ## inode.c -/

/-- The record `inode_t` of inode.h. -/
structure inode_t where
  refs : Int
  mode : Int
  size : Int
  block : Int
deriving DecidableEq, Repr

/-- The all-zero record (`memset(node, 0, sizeof(inode_t))`). -/
def inode_zero : inode_t := ⟨0, 0, 0, 0⟩

/-- The function `inode_init()`: the table after initialisation. -/
def inode_init : List inode_t :=
  (List.replicate INODE_COUNT inode_zero).set 0 { inode_zero with refs := 1, mode := 0o40755, size := 0 }

/-- The function `get_inode(inum)`; `none` is NULL. -/
def get_inode (inodes : List inode_t) (inum : Int) : Option inode_t :=
  if inum < 0 ∨ inum ≥ INODE_COUNT then none else inodes.get? inum.toNat

/-- The scan of `alloc_inode`: the first index, counted from `i`, whose `refs` is 0. -/
def alloc_inode_scan : List inode_t → Nat → Option Nat
  | [], _ => none
  | nd :: rest, i => if nd.refs = 0 then some i else alloc_inode_scan rest (i + 1)

/-- The function `alloc_inode()`: the return value and the new table. -/
def alloc_inode (inodes : List inode_t) : Int × List inode_t :=
  match alloc_inode_scan (inodes.take INODE_COUNT) 0 with
  | some i => ((i : Int), inodes.modify (fun nd => { nd with refs := 1 }) i)
  | none => (-ENOSPC, inodes)

/-- The function `free_inode(inum)`. -/
def free_inode (inodes : List inode_t) (inum : Int) : List inode_t :=
  if inum < 0 ∨ inum ≥ INODE_COUNT then inodes else inodes.set inum.toNat inode_zero

/-- The function `tree_lookup(path)`: only the root path resolves. -/
def tree_lookup (path : List Nat) : Int :=
  if path = cstr "/" then 0 else -ENOENT

/-- The function `grow_inode(node, size)`: return value, the inode and the block bitmap afterwards. -/
def grow_inode (node : inode_t) (size : Int) (block_bitmap : List Nat) : Int × inode_t × List Nat :=
  if node.size ≥ size then (0, node, block_bitmap)
  else
    let r := alloc_block block_bitmap
    if r.1 < 0 then (-ENOSPC, node, r.2)
    else (0, { node with block := r.1, size := size }, r.2)

/-- The return values of `k` successive calls of `alloc_inode()`, in call order, with
the table after the last call. -/
def alloc_inode_times : Nat → List inode_t → List Int × List inode_t
  | 0, inodes => ([], inodes)
  | k + 1, inodes =>
      let r := alloc_inode inodes
      let rest := alloc_inode_times k r.2
      (r.1 :: rest.1, rest.2)

/-- The inode tables that `inode_init()` followed by calls of `alloc_inode()`,
of `free_inode(inum)` and of `grow_inode(node, size)` on a live inode (`refs >= 1`)
can leave behind. -/
inductive TableReachable : List inode_t → Prop
  | init : TableReachable inode_init
  | alloc (inodes : List inode_t) : TableReachable inodes → TableReachable (alloc_inode inodes).2
  | free (inodes : List inode_t) (inum : Int) :
      TableReachable inodes → TableReachable (free_inode inodes inum)
  | grow (inodes : List inode_t) (i : Nat) (node : inode_t) (size : Int) (block_bitmap : List Nat) :
      TableReachable inodes → inodes.get? i = some node → 1 ≤ node.refs →
      TableReachable (inodes.set i (grow_inode node size block_bitmap).2.1)

/-! ## Object representation of the inode table -/

/-- The `int` stored in four bytes, least significant byte first (two's complement:
the top bit of the last byte is the sign). -/
def le32 (b0 b1 b2 b3 : Nat) : Int :=
  if b3 < 128 then ((b0 + 256 * b1 + 65536 * b2 + 16777216 * b3 : Nat) : Int)
  else ((b0 + 256 * b1 + 65536 * b2 + 16777216 * b3 : Nat) : Int) - 4294967296

/-- The four bytes of an `int`, least significant byte first. -/
def int_bytes (x : Int) : List Nat :=
  [toU32 x % 256, toU32 x / 256 % 256, toU32 x / 65536 % 256, toU32 x / 16777216 % 256]

/-- The sixteen bytes of an `inode_t`: `refs`, `mode`, `size`, `block`. -/
def inode_bytes (nd : inode_t) : List Nat :=
  int_bytes nd.refs ++ int_bytes nd.mode ++ int_bytes nd.size ++ int_bytes nd.block

/-- The bytes of the array `inodes`. -/
def inodes_bytes : List inode_t → List Nat
  | [] => []
  | nd :: rest => inode_bytes nd ++ inodes_bytes rest

/-- The `int` read at byte offset `p` of a memory. -/
def rd32 (m : List Nat) (p : Nat) : Int :=
  le32 (m.getD p 0) (m.getD (p + 1) 0) (m.getD (p + 2) 0) (m.getD (p + 3) 0)

/-- The `inode_t` record stored at index `i` of an array that starts at offset 0 of a memory. -/
def bytes_inode (m : List Nat) (i : Nat) : inode_t :=
  ⟨rd32 m (16 * i), rd32 m (16 * i + 4), rd32 m (16 * i + 8), rd32 m (16 * i + 12)⟩

/-- The array of `inode_t` records stored in a run of bytes. -/
def bytes_inodes (m : List Nat) : List inode_t :=
  (List.range (m.length / 16)).map (bytes_inode m)

/-- The memory after the bytes `bs` have been stored from offset `p` on. -/
def wr_bytes (m : List Nat) (p : Nat) (bs : List Nat) : List Nat :=
  m.take p ++ bs ++ m.drop (p + bs.length)

/-- The C string that starts at offset `p` of a memory (the end of the memory
counts as a terminator). -/
def c_string (m : List Nat) (p : Nat) : List Nat :=
  (m.drop p).takeWhile (fun b => b != 0)

/-- What `strncpy(dst, src, n)` stores: at most `n` bytes of the string, padded
with NULs to `n` bytes. -/
def strncpy_bytes (src : List Nat) (n : Nat) : List Nat :=
  src.take n ++ List.replicate (n - src.length) 0

/-! ## directory.c

The argument `d` is the memory from the `directory_t *` on. -/

/-- The field `dir->entry_count`. -/
def dir_entry_count (d : List Nat) : Int := rd32 d 0

/-- Byte offset of `dir->entries[i]` (its `name` is at the same offset). -/
def entry_off (i : Nat) : Nat := 4 + 32 * i

/-- The field `dir->entries[i].inum`. -/
def dir_entry_inum (d : List Nat) (i : Nat) : Int := rd32 d (entry_off i + 28)

/-- The string `dir->entries[i].name`, as `strcmp` and `strdup` read it. -/
def dir_entry_name (d : List Nat) (i : Nat) : List Nat := c_string d (entry_off i)

/-- The search loop shared by put, delete and lookup: the first index `j` in
`[i, i + n)` with `strcmp(dir->entries[j].name, name) == 0`. -/
def dir_find (d : List Nat) (name : List Nat) (i : Nat) : Nat → Option Nat
  | 0 => none
  | n + 1 => if dir_entry_name d i = name then some i else dir_find d name (i + 1) n

/-- The function `directory_init(dir)`: `entry_count = 0` and the entries zeroed. -/
def directory_init (d : List Nat) : List Nat :=
  wr_bytes d 0 (List.replicate (4 + 32 * MAX_ENTRIES) 0)

/-- The function `directory_put(dir, name, inum)`: return value and memory afterwards.
It is `none` when the new entry would be stored outside of the memory. -/
def directory_put (d : List Nat) (name : List Nat) (inum : Int) : Option (Int × List Nat) :=
  let n := dir_entry_count d
  if n ≥ MAX_ENTRIES then some (-ENOSPC, d)
  else if (dir_find d name 0 n.toNat).isSome then some (-EEXIST, d)
  else if n < 0 ∨ d.length < entry_off n.toNat + 32 then none
  else
    let d1 := wr_bytes d (entry_off n.toNat) (strncpy_bytes name MAX_NAME_LEN)
    let d2 := wr_bytes d1 (entry_off n.toNat + 28) (int_bytes inum)
    some (0, wr_bytes d2 0 (int_bytes (n + 1)))

/-- The shifting loop of `directory_delete`: `entries[j] = entries[j + 1]` for `k`
consecutive indices from `j` on. -/
def dir_shift (d : List Nat) (j : Nat) : Nat → List Nat
  | 0 => d
  | k + 1 => dir_shift (wr_bytes d (entry_off j) ((d.drop (entry_off (j + 1))).take 32)) (j + 1) k

/-- The function `directory_delete(dir, name)`: return value and memory afterwards.
It is `none` when the entries to shift are not all inside the memory. -/
def directory_delete (d : List Nat) (name : List Nat) : Option (Int × List Nat) :=
  let n := dir_entry_count d
  match dir_find d name 0 n.toNat with
  | some i =>
      if d.length < entry_off n.toNat then none
      else some (0, wr_bytes (dir_shift d i (n.toNat - 1 - i)) 0 (int_bytes (n - 1)))
  | none => some (-ENOENT, d)

/-- The function `directory_lookup(dir, name)`. -/
def directory_lookup (d : List Nat) (name : List Nat) : Int :=
  match dir_find d name 0 (dir_entry_count d).toNat with
  | some i => dir_entry_inum d i
  | none => -ENOENT

/-- The loop of `directory_list`: `list = s_cons(dir->entries[i].name, list)` for
`n` consecutive indices from `i` on. -/
def dir_list_loop (d : List Nat) (i : Nat) (list : List (List Nat)) : Nat → List (List Nat)
  | 0 => list
  | n + 1 => dir_list_loop d (i + 1) (dir_entry_name d i :: list) n

/-- The function `directory_list(dir)`: the `slist_t` as a list of strings, `[]` being NULL. -/
def directory_list (d : List Nat) : List (List Nat) :=
  dir_list_loop d 0 [] (dir_entry_count d).toNat

/-! ## storage.c -/

/-- The module state: the inode table of inode.c, the block image and the block
bitmap of blocks.c, and the content of the backing file behind `fd`. -/
structure State where
  inodes : List inode_t
  block_data : Nat → Nat
  block_bitmap : List Nat
  disk : List Nat

/-- The memory behind `(directory_t *)get_inode(inum)`: the inode table from
record `inum` on. -/
def dir_view (inodes : List inode_t) (inum : Nat) : List Nat :=
  (inodes_bytes inodes).drop (16 * inum)

/-- The inode table once the memory behind `(directory_t *)get_inode(inum)` holds `d`. -/
def dir_store (inodes : List inode_t) (inum : Nat) (d : List Nat) : List inode_t :=
  bytes_inodes ((inodes_bytes inodes).take (16 * inum) ++ d)

/-- The image after `memcpy(block_data + dst, buf, size)`. -/
def memcpy_to (mem : Nat → Nat) (dst : Nat) (buf : List Nat) : Nat → Nat :=
  fun a => if dst ≤ a ∧ a < dst + buf.length then buf.getD (a - dst) 0 else mem a

/-- The `n` bytes that `memcpy(buf, block_data + src, n)` stores in `buf`. -/
def memcpy_from (mem : Nat → Nat) (src : Nat) (n : Nat) : List Nat :=
  (List.range n).map (fun k => mem (src + k))

/-- The file after a complete `pwrite(fd, buf, size, off)`: a write past the end
fills the gap with zero bytes. -/
def pwrite (file : List Nat) (buf : List Nat) (off : Nat) : List Nat :=
  if buf = [] then file
  else (file ++ List.replicate (off - file.length) 0).take off ++ buf ++ file.drop (off + buf.length)

/-- What `storage_stat` stores in `struct stat`. -/
structure stat_t where
  st_mode : Nat
  st_size : Int
deriving DecidableEq, Repr

/-- The function `blocks_init(path)`: a newly allocated image and bitmap, both zero-filled.
The argument is what `block_data` pointed to before; it is dropped. -/
def blocks_init (_previous : Option (Nat → Nat)) : (Nat → Nat) × List Nat :=
  (fun _ => 0, List.replicate (BLOCK_COUNT / 8) 0)

/-- The state after `blocks_init` and `inode_init` on a backing file `file`. -/
def init_state (file : List Nat) : State :=
  { inodes := inode_init
    block_data := (blocks_init none).1
    block_bitmap := (blocks_init none).2
    disk := file }

/-- The function `storage_init(path)`.  `file` is the content of the backing file, `old`
what `block_data` points to when the call is made (`none` for the NULL of a
fresh process, the previous image for a second call in one process) and
`pread_ok` tells whether the `pread` system call returns a non-negative
value; otherwise the program exits.  The `pread` stores the file at
`blocks_get_block(0)`, computed before `blocks_init` has run. -/
def storage_init (old : Option (Nat → Nat)) (file : List Nat) (pread_ok : Bool) : Option State :=
  let block_zero := old
  let loaded := block_zero.map (fun img => memcpy_to img 0 (file.take (BLOCK_COUNT * BLOCK_SIZE)))
  if !pread_ok then none
  else
    let b := blocks_init loaded
    some { inodes := inode_init, block_data := b.1, block_bitmap := b.2, disk := file }

/-- The function `storage_stat(path, st)`: return value and what was stored in `st`. -/
def storage_stat (s : State) (path : List Nat) : Int × Option stat_t :=
  let inum := tree_lookup path
  if inum < 0 then (-ENOENT, none)
  else match get_inode s.inodes inum with
    | none => (- EIO, none)
    | some node => (0, some ⟨toU32 node.mode, node.size⟩)

/-- The function `storage_read(path, buf, size, offset)`: return value and the bytes stored
in `buf`.  It is `none` when the `memcpy` source is not inside the block image. -/
def storage_read (s : State) (path : List Nat) (size : Nat) (offset : Int) :
    Option (Int × List Nat) :=
  let inum := tree_lookup path
  if inum < 0 then some (-ENOENT, [])
  else match get_inode s.inodes inum with
    | none => none
    | some node =>
      if offset ≥ node.size then some (0, [])
      else
        let size1 : Nat :=
          if toU64 (offset + size) > toU64 node.size then toU64 (node.size - offset) else size
        match blocks_get_block node.block with
        | none => none
        | some base =>
          if (base : Int) + offset < 0 ∨ (base : Int) + offset + size1 > BLOCK_COUNT * BLOCK_SIZE then none
          else some (toI32 size1, memcpy_from s.block_data ((base : Int) + offset).toNat size1)

/-- The second half of `storage_write`, from `blocks_get_block(node->block)` on: the
copy into the block image, the `pwrite` (`wr_ok` tells whether the system call
succeeds) and the update of `node->size`.  `node` is the record `inum` of
`s.inodes`.  It is `none` when the `memcpy` target is not inside the block
image. -/
def write_block (s : State) (inum : Int) (node : inode_t) (buf : List Nat) (offset : Int)
    (wr_ok : Bool) : Option (Int × State) :=
  match blocks_get_block node.block with
  | none => some (- EIO, s)
  | some base =>
    if (base : Int) + offset < 0 ∨ (base : Int) + offset + buf.length > BLOCK_COUNT * BLOCK_SIZE then
      none
    else
      let block_data1 := memcpy_to s.block_data ((base : Int) + offset).toNat buf
      if !wr_ok then some (- EIO, { s with block_data := block_data1 })
      else
        let disk_offset : Int := toI32 (node.block * BLOCK_SIZE) + offset
        some (toI32 buf.length,
          { s with
            block_data := block_data1
            disk := pwrite s.disk buf disk_offset.toNat
            inodes := s.inodes.set inum.toNat { node with size := toI32 (offset + buf.length) } })

/-- The function `storage_write(path, buf, size, offset)` with `size` the length of `buf`:
return value and state afterwards. -/
def storage_write (s : State) (path : List Nat) (buf : List Nat) (offset : Int) (wr_ok : Bool) :
    Option (Int × State) :=
  let inum := tree_lookup path
  if inum < 0 then some (-ENOENT, s)
  else match get_inode s.inodes inum with
    | none => some (- EIO, s)
    | some node =>
      if toU64 (offset + buf.length) > toU64 node.size then
        let g := grow_inode node (toI32 (offset + buf.length)) s.block_bitmap
        let s1 : State := { s with inodes := s.inodes.set inum.toNat g.2.1, block_bitmap := g.2.2 }
        if g.1 < 0 then some (-ENOSPC, s1)
        else write_block s1 inum g.2.1 buf offset wr_ok
      else write_block s inum node buf offset wr_ok

/-- The call `directory_put((directory_t *)get_inode(parent_inum), path, inum)` made by
`storage_mknod` and `storage_mkdir` on the inode table `inodes`. -/
def inode_dir_put (s : State) (inodes : List inode_t) (parent_inum : Int) (path : List Nat)
    (inum : Int) : Option (Int × State) :=
  match get_inode inodes parent_inum with
  | none => none
  | some _ =>
    match directory_put (dir_view inodes parent_inum.toNat) path inum with
    | none => none
    | some r => some (r.1, { s with inodes := dir_store inodes parent_inum.toNat r.2 })

/-- The function `storage_mknod(path, mode)`. -/
def storage_mknod (s : State) (path : List Nat) (mode : Int) : Option (Int × State) :=
  if tree_lookup path ≥ 0 then some (-EEXIST, s)
  else
    let a := alloc_inode s.inodes
    if a.1 < 0 then some (-ENOSPC, { s with inodes := a.2 })
    else
      let inodes1 := a.2.set a.1.toNat { refs := 1, mode := mode, size := 0, block := 0 }
      inode_dir_put s inodes1 (tree_lookup (cstr "/")) path a.1

/-- The function `storage_mkdir(path, mode)`; `mode` is a `mode_t`. -/
def storage_mkdir (s : State) (path : List Nat) (mode : Nat) : Option (Int × State) :=
  if tree_lookup path ≥ 0 then some (-EEXIST, s)
  else
    let a := alloc_inode s.inodes
    if a.1 < 0 then some (-ENOSPC, { s with inodes := a.2 })
    else
      let inodes1 := a.2.set a.1.toNat
        { refs := 1, mode := toI32 ((mode % 4294967296) ||| S_IFDIR), size := 0, block := 0 }
      let parent_inum := tree_lookup (cstr "/")
      if parent_inum < 0 then some (-ENOENT, { s with inodes := inodes1 })
      else inode_dir_put s inodes1 parent_inum path a.1

/-- The function `storage_unlink(path)`. -/
def storage_unlink (s : State) (path : List Nat) : Option (Int × State) :=
  let inum := tree_lookup path
  if inum < 0 then some (-ENOENT, s)
  else
    let inodes1 := free_inode s.inodes inum
    let parent_inum := tree_lookup (cstr "/")
    match get_inode inodes1 parent_inum with
    | none => none
    | some _ =>
      match directory_delete (dir_view inodes1 parent_inum.toNat) path with
      | none => none
      | some r => some (r.1, { s with inodes := dir_store inodes1 parent_inum.toNat r.2 })

/-- The function `storage_rmdir(path)`. -/
def storage_rmdir (s : State) (path : List Nat) : Option (Int × State) :=
  let inum := tree_lookup path
  if inum < 0 then some (-ENOENT, s)
  else match get_inode s.inodes inum with
    | none => none
    | some node =>
      if !S_ISDIR node.mode then some (-ENOTDIR, s)
      else if directory_list (dir_view s.inodes inum.toNat) ≠ [] then some (-ENOTEMPTY, s)
      else
        let parent_inum := tree_lookup (cstr "/")
        if parent_inum < 0 then some (-ENOENT, s)
        else match get_inode s.inodes parent_inum with
          | none => none
          | some _ =>
            match directory_delete (dir_view s.inodes parent_inum.toNat) path with
            | none => none
            | some r =>
              some (0, { s with inodes := free_inode (dir_store s.inodes parent_inum.toNat r.2) inum })

/-- The function `storage_list(path)`: `none` is the NULL returned for a path that does not
resolve or is not a directory, `some []` the NULL that `directory_list`
returns for a directory without entries. -/
def storage_list (s : State) (path : List Nat) : Option (List (List Nat)) :=
  let inum := tree_lookup path
  if inum < 0 then none
  else match get_inode s.inodes inum with
    | none => none
    | some node =>
      if !S_ISDIR node.mode then none
      else some (directory_list (dir_view s.inodes inum.toNat))

/-- The function `storage_shutdown()`: the whole image is written to the file at offset 0. -/
def storage_shutdown (s : State) : List Nat :=
  pwrite s.disk (memcpy_from s.block_data 0 (BLOCK_COUNT * BLOCK_SIZE)) 0

/-! ## slist.c -/

/-- The function `s_cons(text, rest)`: a new node in front of `rest`. -/
def s_cons (text : List Nat) (rest : List (List Nat)) : List (List Nat) := text :: rest

/-- The library function `strchr(s, c)` as the index of the first occurrence of `c` in
the string `s`; the terminating NUL counts as part of the string, so the result
for `c = 0` is the length of `s`.  The result `none` is NULL. -/
def strchr : List Nat → Nat → Option Nat
  | [], c => if c = 0 then some 0 else none
  | b :: rest, c => if b = c then some 0 else (strchr rest c).map (fun i => i + 1)

/-- The loop of `s_explode`, with the list built so far and the string that `start`
points to.  At most `fuel` iterations are made.  When `strchr` finds the
terminator (`delimiter` is NUL), `start = end + 1` points behind the string:
the result is `none`. -/
def s_explode_loop (delimiter : Nat) : Nat → List (List Nat) → List Nat → Option (List (List Nat))
  | 0, _, _ => none
  | fuel + 1, list, start =>
    match strchr start delimiter with
    | none => some (s_cons start list)
    | some length =>
      if start.length ≤ length then none
      else s_explode_loop delimiter fuel (s_cons (start.take length) list) (start.drop (length + 1))

/-- The function `s_explode(str, delimiter)`: every iteration consumes at least one
byte of the string, so `str.length + 1` iterations are enough. -/
def s_explode (str : List Nat) (delimiter : Nat) : Option (List (List Nat)) :=
  s_explode_loop delimiter (str.length + 1) [] str

/-! ## nufs.c -/

/-- The function `nufs_readdir(path, buf, filler, offset, fi)`: the return value and
the names passed to `filler`, in call order.  A NULL from `storage_list` (`none`, or
the NULL that `directory_list` returns for a directory without entries) gives
`-ENOENT`. -/
def nufs_readdir (s : State) (path : List Nat) : Int × List (List Nat) :=
  match storage_list s path with
  | none => (-ENOENT, [])
  | some [] => (-ENOENT, [])
  | some (e :: rest) => (0, cstr "." :: cstr ".." :: e :: rest)

/-! ## Reachable states -/

/-- The states the engine can be in: the state `storage_init` returns with, and every
state left by a call of `storage_write`, `storage_mknod`, `storage_mkdir`,
`storage_unlink` or `storage_rmdir` that has a defined behaviour.
(`storage_stat`, `storage_read` and `storage_list` do not change the state.) -/
inductive Reachable : State → Prop
  | init (old : Option (Nat → Nat)) (file : List Nat) (pread_ok : Bool) (s : State) :
      storage_init old file pread_ok = some s → Reachable s
  | write (s : State) (path buf : List Nat) (offset : Int) (wr_ok : Bool) (p : Int × State) :
      Reachable s → storage_write s path buf offset wr_ok = some p → Reachable p.2
  | mknod (s : State) (path : List Nat) (mode : Int) (p : Int × State) :
      Reachable s → storage_mknod s path mode = some p → Reachable p.2
  | mkdir (s : State) (path : List Nat) (mode : Nat) (p : Int × State) :
      Reachable s → storage_mkdir s path mode = some p → Reachable p.2
  | unlink (s : State) (path : List Nat) (p : Int × State) :
      Reachable s → storage_unlink s path = some p → Reachable p.2
  | rmdir (s : State) (path : List Nat) (p : Int × State) :
      Reachable s → storage_rmdir s path = some p → Reachable p.2

/-- An inode record whose `block` is the index of a block, whose `size` bytes from
the start of that block lie inside the block image, and whose `refs` and `size`
are values of an `int`. -/
def inode_wf (nd : inode_t) : Prop :=
  0 ≤ nd.block ∧ nd.block < BLOCK_COUNT ∧
  nd.block * BLOCK_SIZE + nd.size ≤ BLOCK_COUNT * BLOCK_SIZE ∧ -2147483648 ≤ nd.size ∧
  -2147483648 ≤ nd.refs ∧ nd.refs < 2147483648

/-- A state whose root record is well-formed. -/
def root_wf (s : State) : Prop :=
  ∃ root, s.inodes.get? 0 = some root ∧ inode_wf root

/-- The number of live inodes (`refs >= 1` and `size > 0`) whose data block is
block `i`. -/
def block_owners (inodes : List inode_t) (i : Nat) : Nat :=
  (inodes.filter (fun nd => decide (1 ≤ nd.refs) && decide (0 < nd.size) &&
    decide (nd.block = (i : Int)))).length

/-- The bit of the block of the record `nd` is set in the bitmap, or `nd` is a record
that never got a block (`block` and `size` are 0). -/
def block_marked (block_bitmap : List Nat) (nd : inode_t) : Prop :=
  bitmap_get block_bitmap nd.block.toNat = 1 ∨ (nd.block = 0 ∧ nd.size = 0)

/-- A state whose bitmap has 256 bits and marks the block of the root record. -/
def root_marked (s : State) : Prop :=
  s.block_bitmap.length = BLOCK_COUNT / 8 ∧
  ∀ root, s.inodes.get? 0 = some root → block_marked s.block_bitmap root

/-- The root record `root2` has the `size` and `block` of `root1`, or is a record
without a block. -/
def root_kept (root1 root2 : inode_t) : Prop :=
  (root2.size = root1.size ∧ root2.block = root1.block) ∨ (root2.size = 0 ∧ root2.block = 0)

/-- The record that is read back from the object representation of `nd`: every
field as an `int`. -/
def inode_reload (nd : inode_t) : inode_t :=
  ⟨toI32 nd.refs, toI32 nd.mode, toI32 nd.size, toI32 nd.block⟩

/-- A directory object: the memory holds a whole `directory_t`, `entry_count` lies
between 0 and `MAX_ENTRIES`, and the padding byte between `name` and `inum` of
every entry is 0 (as `directory_init` leaves it), so that a name of 27 bytes is
terminated. -/
def dir_wf (d : List Nat) : Prop :=
  4 + 32 * MAX_ENTRIES ≤ d.length ∧ 0 ≤ dir_entry_count d ∧ dir_entry_count d ≤ MAX_ENTRIES ∧
  ∀ i, i < MAX_ENTRIES → d.getD (entry_off i + 27) 0 = 0

instance (d : List Nat) : Decidable (dir_wf d) := by
  unfold dir_wf
  infer_instance

/-- The return values of successive calls `directory_put(dir, name, inum)`, one for
each pair of the list and in this order, with the memory after the last call. -/
def directory_put_times : List Nat → List (List Nat × Int) → Option (List Int × List Nat)
  | d, [] => some ([], d)
  | d, entry :: rest =>
    match directory_put d entry.1 entry.2 with
    | none => none
    | some r => (directory_put_times r.2 rest).map (fun q => (r.1 :: q.1, q.2))

/-- The directory states that `directory_init` on the memory of a `directory_t`,
followed by calls of `directory_put` and `directory_delete` with arbitrary names
and inode numbers, can leave behind. -/
inductive DirReachable : List Nat → Prop
  | init (mem : List Nat) : 4 + 32 * MAX_ENTRIES ≤ mem.length → DirReachable (directory_init mem)
  | put (d name : List Nat) (inum : Int) (p : Int × List Nat) :
      DirReachable d → directory_put d name inum = some p → DirReachable p.2
  | delete (d name : List Nat) (p : Int × List Nat) :
      DirReachable d → directory_delete d name = some p → DirReachable p.2

/-- The names of the entries of a directory are pairwise distinct. -/
def dir_unique (d : List Nat) : Prop :=
  ∀ i j, i < (dir_entry_count d).toNat → j < (dir_entry_count d).toNat → i ≠ j →
    dir_entry_name d i ≠ dir_entry_name d j

/-! ## Example states -/

/-- The state of a freshly initialised engine on an empty backing file after
`storage_write("/", "hi", 2, 0)`. -/
def hi_state : State :=
  { inodes := inode_init.set 0 ⟨1, 0o40755, 2, 0⟩
    block_data := memcpy_to (fun _ => 0) 0 [104, 105]
    block_bitmap := (List.replicate 32 0).set 0 1
    disk := [104, 105] }

/-- A full directory: `entry_count` is 32 and entry `k` is the one-letter name with
code `65 + k` ("A" for `k = 0`) with inode number `k + 1`. -/
def full_dir : List Nat :=
  int_bytes 32 ++
    (List.range MAX_ENTRIES).flatMap (fun k => strncpy_bytes [65 + k] 28 ++ int_bytes ((k : Int) + 1))

/-- A directory with the single entry ("a", 7). -/
def one_entry_dir : List Nat :=
  int_bytes 1 ++ strncpy_bytes (cstr "a") 28 ++ int_bytes 7

/-- A directory right after `directory_init`. -/
def empty_dir : List Nat := directory_init (List.replicate (4 + 32 * MAX_ENTRIES) 0)

/-- A directory with the two entries ("a", 7) and ("b", 8), in this order. -/
def two_entry_dir : List Nat :=
  int_bytes 2 ++ strncpy_bytes (cstr "a") 28 ++ int_bytes 7 ++
    strncpy_bytes (cstr "b") 28 ++ int_bytes 8 ++ List.replicate (32 * 30) 0

/-- A name of 28 bytes. -/
def long_name : List Nat := cstr "abcdefghijklmnopqrstuvwxyz01"

/-- The state after `storage_write("/", "x", 1, 0)` on `hi_state`: the first byte
is overwritten and the size of the root inode is 1. -/
def x_state : State :=
  { inodes := inode_init.set 0 ⟨1, 0o40755, 1, 0⟩
    block_data := memcpy_to hi_state.block_data 0 [120]
    block_bitmap := hi_state.block_bitmap
    disk := [120, 105] }

/-! ## Basic facts -/

theorem tree_lookup_cases (path : List Nat) :
    (path = cstr "/" ∧ tree_lookup path = 0) ∨ (path ≠ cstr "/" ∧ tree_lookup path = -2) := by
  unfold tree_lookup ENOENT
  by_cases h : path = cstr "/"
  · left; simp [h]
  · right; simp [h]

theorem tree_lookup_resolves {path : List Nat} (h : 0 ≤ tree_lookup path) :
    path = cstr "/" ∧ tree_lookup path = 0 := by
  rcases tree_lookup_cases path with h1 | h1
  · exact h1
  · omega

theorem toI32_of_range {x : Int} (h1 : -2147483648 ≤ x) (h2 : x < 2147483648) : toI32 x = x := by
  unfold toI32 toU32; split <;> omega

theorem toI32_bounds (x : Int) : -2147483648 ≤ toI32 x ∧ toI32 x < 2147483648 := by
  unfold toI32 toU32; split <;> omega

theorem toU64_of_range {x : Int} (h1 : 0 ≤ x) (h2 : x < 18446744073709551616) :
    (toU64 x : Int) = x := by
  unfold toU64
  rw [Int.emod_eq_of_lt h1 h2]
  exact Int.toNat_of_nonneg h1

theorem memcpy_from_memcpy_to (mem : Nat → Nat) (d : Nat) (b : List Nat) :
    memcpy_from (memcpy_to mem d b) d b.length = b := by
  apply List.ext_getElem
  · simp [memcpy_from]
  · intro i h1 h2
    simp [memcpy_from, memcpy_to, h2, List.getD_eq_getElem]

theorem get_inode_zero (inodes : List inode_t) : get_inode inodes 0 = inodes.get? 0 := by
  simp [get_inode, INODE_COUNT]


/-! ## Object representation: reading back what was stored -/

theorem int_bytes_length (x : Int) : (int_bytes x).length = 4 := rfl

theorem inode_bytes_length (nd : inode_t) : (inode_bytes nd).length = 16 := by
  simp [inode_bytes, int_bytes_length]

theorem inodes_bytes_length (l : List inode_t) : (inodes_bytes l).length = 16 * l.length := by
  induction l with
  | nil => rfl
  | cons nd rest ih =>
    simp only [inodes_bytes, List.length_append, inode_bytes_length, ih, List.length_cons]
    omega

theorem strncpy_bytes_length (src : List Nat) (n : Nat) : (strncpy_bytes src n).length = n := by
  simp only [strncpy_bytes, List.length_append, List.length_take, List.length_replicate]
  omega

theorem le32_int_bytes (x : Int) :
    le32 (toU32 x % 256) (toU32 x / 256 % 256) (toU32 x / 65536 % 256) (toU32 x / 16777216 % 256)
      = toI32 x := by
  have hu : toU32 x < 4294967296 := by
    unfold toU32
    omega
  unfold le32 toI32
  generalize toU32 x = u at hu ⊢
  have hsum : u % 256 + 256 * (u / 256 % 256) + 65536 * (u / 65536 % 256)
      + 16777216 * (u / 16777216 % 256) = u := by omega
  rw [hsum]
  by_cases h : u < 2147483648
  · rw [if_pos (by omega), if_pos h]
  · rw [if_neg (by omega), if_neg h]

theorem inodes_bytes_getD (l : List inode_t) (k j : Nat) (nd : inode_t)
    (hk : l.get? k = some nd) (hj : j < 16) :
    (inodes_bytes l).getD (16 * k + j) 0 = (inode_bytes nd).getD j 0 := by
  induction l generalizing k with
  | nil => simp at hk
  | cons x rest ih =>
    cases k with
    | zero =>
      simp only [List.get?_cons_zero, Option.some.injEq] at hk
      subst hk
      simp only [inodes_bytes, Nat.mul_zero, Nat.zero_add]
      rw [List.getD_append _ _ _ _ (by rw [inode_bytes_length]; exact hj)]
    | succ k =>
      simp only [List.get?_cons_succ] at hk
      simp only [inodes_bytes]
      rw [List.getD_append_right _ _ _ _ (by rw [inode_bytes_length]; omega)]
      rw [inode_bytes_length]
      have : 16 * (k + 1) + j - 16 = 16 * k + j := by omega
      rw [this]
      exact ih k hk

theorem bytes_inode_inodes_bytes (l : List inode_t) (k : Nat) (nd : inode_t)
    (hk : l.get? k = some nd) :
    bytes_inode (inodes_bytes l) k = ⟨toI32 nd.refs, toI32 nd.mode, toI32 nd.size, toI32 nd.block⟩ := by
  have g := fun j hj => inodes_bytes_getD l k j nd hk hj
  unfold bytes_inode rd32
  simp only [inode_t.mk.injEq]
  refine ⟨?_, ?_, ?_, ?_⟩
  · have h0 := g 0 (by omega); have h1 := g 1 (by omega)
    have h2 := g 2 (by omega); have h3 := g 3 (by omega)
    simp only [Nat.add_zero] at h0
    rw [h0, h1, h2, h3]
    exact le32_int_bytes nd.refs
  · have h0 := g 4 (by omega); have h1 := g 5 (by omega)
    have h2 := g 6 (by omega); have h3 := g 7 (by omega)
    rw [Nat.add_assoc, Nat.add_assoc, Nat.add_assoc, h0, h1, h2, h3]
    exact le32_int_bytes nd.mode
  · have h0 := g 8 (by omega); have h1 := g 9 (by omega)
    have h2 := g 10 (by omega); have h3 := g 11 (by omega)
    rw [Nat.add_assoc, Nat.add_assoc, Nat.add_assoc, h0, h1, h2, h3]
    exact le32_int_bytes nd.size
  · have h0 := g 12 (by omega); have h1 := g 13 (by omega)
    have h2 := g 14 (by omega); have h3 := g 15 (by omega)
    rw [Nat.add_assoc, Nat.add_assoc, Nat.add_assoc, h0, h1, h2, h3]
    exact le32_int_bytes nd.block

theorem wr_bytes_length (m : List Nat) (p : Nat) (bs : List Nat) (h : p + bs.length ≤ m.length) :
    (wr_bytes m p bs).length = m.length := by
  simp only [wr_bytes, List.length_append, List.length_take, List.length_drop]
  omega

theorem wr_bytes_getD_outside (m : List Nat) (p : Nat) (bs : List Nat) (q : Nat)
    (hp : p ≤ m.length) (hq : q < p ∨ p + bs.length ≤ q) :
    (wr_bytes m p bs).getD q 0 = m.getD q 0 := by
  unfold wr_bytes
  rcases hq with hq | hq
  · rw [List.append_assoc, List.getD_append _ _ _ _ (by rw [List.length_take]; omega)]
    simp only [List.getD_eq_getElem?_getD, List.getElem?_take, hq, if_true]
  · rw [List.getD_append_right _ _ _ _ (by
      rw [List.length_append, List.length_take]; omega)]
    simp only [List.getD_eq_getElem?_getD, List.getElem?_drop, List.length_append,
      List.length_take]
    congr 2
    omega

theorem rd32_wr_bytes_outside (m : List Nat) (p : Nat) (bs : List Nat) (q : Nat)
    (hp : p ≤ m.length) (hq : q + 4 ≤ p ∨ p + bs.length ≤ q) :
    rd32 (wr_bytes m p bs) q = rd32 m q := by
  unfold rd32
  rw [wr_bytes_getD_outside m p bs q hp (by omega),
    wr_bytes_getD_outside m p bs (q + 1) hp (by omega),
    wr_bytes_getD_outside m p bs (q + 2) hp (by omega),
    wr_bytes_getD_outside m p bs (q + 3) hp (by omega)]


/-! ## Allocation of an inode -/

theorem alloc_inode_scan_some (l : List inode_t) (i0 i : Nat) (h : alloc_inode_scan l i0 = some i) :
    i0 ≤ i ∧ i - i0 < l.length := by
  induction l generalizing i0 with
  | nil => simp [alloc_inode_scan] at h
  | cons nd rest ih =>
    unfold alloc_inode_scan at h
    split at h
    · simp only [Option.some.injEq] at h
      subst h
      simp
    · have := ih (i0 + 1) h
      simp only [List.length_cons]
      omega

theorem alloc_inode_ok (l : List inode_t) (h : 0 ≤ (alloc_inode l).1) :
    ∃ i : Nat, (alloc_inode l).1 = (i : Int) ∧ i < INODE_COUNT ∧ i < l.length ∧
      (alloc_inode l).2 = l.modify (fun nd => { nd with refs := 1 }) i := by
  unfold alloc_inode at h ⊢
  cases hs : alloc_inode_scan (l.take INODE_COUNT) 0 with
  | none =>
    simp [hs, ENOSPC] at h
  | some i =>
    have := alloc_inode_scan_some _ _ _ hs
    simp only [List.length_take] at this
    refine ⟨i, rfl, ?_, ?_, rfl⟩ <;> omega

theorem modify_set (l : List inode_t) (f : inode_t → inode_t) (i : Nat) (x : inode_t) :
    (l.modify f i).set i x = l.set i x := by
  induction l generalizing i with
  | nil => simp
  | cons a rest ih =>
    cases i with
    | zero => simp
    | succ i => simp [ih]


/-! ## The root directory behind the inode table -/

theorem dir_view_zero (inodes : List inode_t) : dir_view inodes 0 = inodes_bytes inodes := by
  simp [dir_view]

theorem dir_store_zero (inodes : List inode_t) (d : List Nat) :
    dir_store inodes 0 d = bytes_inodes d := by
  simp [dir_store]

theorem root_entry_count (inodes : List inode_t) (root : inode_t)
    (hroot : inodes.get? 0 = some root) :
    dir_entry_count (inodes_bytes inodes) = toI32 root.refs := by
  have h := bytes_inode_inodes_bytes inodes 0 root hroot
  have h2 : (bytes_inode (inodes_bytes inodes) 0).refs = toI32 root.refs := by rw [h]
  simpa [bytes_inode, dir_entry_count] using h2

theorem bytes_inodes_get? (m : List Nat) (i : Nat) (h : 16 * i + 16 ≤ m.length) :
    (bytes_inodes m).get? i = some (bytes_inode m i) := by
  unfold bytes_inodes
  have hi : i < m.length / 16 := by omega
  simp [List.getElem?_map, List.getElem?_range hi]

theorem directory_put_ok_count (d name : List Nat) (inum : Int) (d3 : List Nat)
    (hput : directory_put d name inum = some (0, d3)) :
    0 ≤ dir_entry_count d ∧ dir_entry_count d < 32 := by
  unfold directory_put at hput
  simp only [MAX_ENTRIES, ENOSPC, EEXIST] at hput
  split at hput
  · simp at hput
  · split at hput
    · simp at hput
    · split at hput
      · simp at hput
      · rename_i h1 _ h3
        constructor
        · omega
        · simpa using h1

theorem directory_put_keeps_record (inodes : List inode_t) (path : List Nat) (inum : Int)
    (i : Nat) (root nd : inode_t) (d3 : List Nat)
    (hroot : inodes.get? 0 = some root) (hcnt : 0 ≤ root.refs ∧ root.refs < 32)
    (hi : inodes.get? i = some nd)
    (hno : i ≠ 0 ∧ ¬ (2 * root.refs ≤ i ∧ (i : Int) ≤ 2 * root.refs + 2))
    (hput : directory_put (inodes_bytes inodes) path inum = some (0, d3)) :
    (bytes_inodes d3).get? i =
      some ⟨toI32 nd.refs, toI32 nd.mode, toI32 nd.size, toI32 nd.block⟩ := by
  have hn : dir_entry_count (inodes_bytes inodes) = root.refs := by
    rw [root_entry_count inodes root hroot, toI32_of_range (by omega) (by omega)]
  obtain ⟨n, hnn⟩ : ∃ n : Nat, root.refs = (n : Int) := ⟨root.refs.toNat, by omega⟩
  have hilt : i < inodes.length := by
    by_contra hc
    rw [List.get?_eq_none.mpr (by omega)] at hi
    cases hi
  unfold directory_put at hput
  simp only [hn, hnn, MAX_ENTRIES, ENOSPC, EEXIST, Int.toNat_ofNat] at hput
  rw [if_neg (by omega)] at hput
  split at hput
  · simp at hput
  · split at hput
    · simp at hput
    · rename_i hb
      simp only [Option.some.injEq, Prod.mk.injEq, true_and] at hput
      have hlen := inodes_bytes_length inodes
      have hb2 : entry_off n + 32 ≤ (inodes_bytes inodes).length := by omega
      unfold entry_off at hput hb2
      have hl1 : (wr_bytes (inodes_bytes inodes) (4 + 32 * n)
          (strncpy_bytes path MAX_NAME_LEN)).length = (inodes_bytes inodes).length :=
        wr_bytes_length _ _ _ (by rw [strncpy_bytes_length]; unfold MAX_NAME_LEN; omega)
      have hl2 : (wr_bytes (wr_bytes (inodes_bytes inodes) (4 + 32 * n)
          (strncpy_bytes path MAX_NAME_LEN)) (4 + 32 * n + 28) (int_bytes inum)).length
            = (inodes_bytes inodes).length := by
        rw [wr_bytes_length _ _ _ (by rw [hl1, int_bytes_length]; omega), hl1]
      have hl3 : d3.length = (inodes_bytes inodes).length := by
        rw [← hput, wr_bytes_length _ _ _ (by rw [hl2, int_bytes_length]; omega), hl2]
      rw [bytes_inodes_get? d3 i (by omega)]
      have key : ∀ q, 16 * i ≤ q → q + 4 ≤ 16 * i + 16 →
          rd32 d3 q = rd32 (inodes_bytes inodes) q := by
        intro q hq1 hq2
        have hi0 : 1 ≤ i := by omega
        have hsep : (i : Int) < 2 * n ∨ 2 * (n : Int) + 2 < i := by omega
        rw [← hput]
        rw [rd32_wr_bytes_outside _ _ _ _ (by omega) (by rw [int_bytes_length]; omega)]
        rw [rd32_wr_bytes_outside _ _ _ _ (by omega) (by rw [int_bytes_length]; omega)]
        rw [rd32_wr_bytes_outside _ _ _ _ (by omega)
          (by rw [strncpy_bytes_length]; unfold MAX_NAME_LEN; omega)]
      rw [← bytes_inode_inodes_bytes inodes i nd hi]
      unfold bytes_inode
      rw [key _ (by omega) (by omega), key _ (by omega) (by omega), key _ (by omega) (by omega),
        key _ (by omega) (by omega)]


theorem inode_dir_put_frame (s : State) (inodes : List inode_t) (parent_inum : Int)
    (path : List Nat) (inum : Int) (p : Int × State)
    (h : inode_dir_put s inodes parent_inum path inum = some p) :
    p.2.block_bitmap = s.block_bitmap ∧ p.2.block_data = s.block_data ∧ p.2.disk = s.disk := by
  unfold inode_dir_put at h
  split at h
  · cases h
  · split at h
    · cases h
    · simp only [Option.some.injEq] at h
      subst h
      exact ⟨rfl, rfl, rfl⟩

theorem storage_mkdir_frame (s : State) (path : List Nat) (mode : Nat) (p : Int × State)
    (h : storage_mkdir s path mode = some p) :
    p.2.block_bitmap = s.block_bitmap ∧ p.2.block_data = s.block_data ∧ p.2.disk = s.disk := by
  unfold storage_mkdir at h
  split at h
  · simp only [Option.some.injEq] at h
    subst h
    exact ⟨rfl, rfl, rfl⟩
  · simp only at h
    split at h
    · simp only [Option.some.injEq] at h
      subst h
      exact ⟨rfl, rfl, rfl⟩
    · split at h
      · simp only [Option.some.injEq] at h
        subst h
        exact ⟨rfl, rfl, rfl⟩
      · exact inode_dir_put_frame _ _ _ _ _ _ h

/-! ## The root record in reachable states -/

theorem wr_bytes_getD_inside (m : List Nat) (p : Nat) (bs : List Nat) (j : Nat)
    (hp : p ≤ m.length) (hj : j < bs.length) :
    (wr_bytes m p bs).getD (p + j) 0 = bs.getD j 0 := by
  unfold wr_bytes
  rw [List.append_assoc, List.getD_append_right _ _ _ _ (by rw [List.length_take]; omega)]
  rw [List.length_take, Nat.min_eq_left hp]
  have : p + j - p = j := by omega
  rw [this, List.getD_append _ _ _ _ hj]

theorem rd32_wr_int_bytes (m : List Nat) (x : Int) (h : 4 ≤ m.length) :
    rd32 (wr_bytes m 0 (int_bytes x)) 0 = toI32 x := by
  unfold rd32
  have g := fun j hj => wr_bytes_getD_inside m 0 (int_bytes x) j (by omega) hj
  have hl := int_bytes_length x
  have h0 := g 0 (by omega); have h1 := g 1 (by omega)
  have h2 := g 2 (by omega); have h3 := g 3 (by omega)
  simp only [Nat.zero_add] at h0 h1 h2 h3 ⊢
  rw [h0, h1, h2, h3]
  exact le32_int_bytes x

theorem inode_wf_norm (nd : inode_t) (h : inode_wf nd) :
    inode_wf ⟨toI32 nd.refs, toI32 nd.mode, toI32 nd.size, toI32 nd.block⟩ := by
  unfold inode_wf BLOCK_COUNT BLOCK_SIZE at h ⊢
  obtain ⟨h1, h2, h3, h4, h5, h6⟩ := h
  have hb := toI32_bounds nd.refs
  simp only
  rw [toI32_of_range (x := nd.block) (by omega) (by omega),
    toI32_of_range (x := nd.size) (by omega) (by omega)]
  exact ⟨h1, h2, h3, h4, hb.1, hb.2⟩

theorem bytes_inodes_inodes_bytes_root (l : List inode_t) (root : inode_t)
    (h : l.get? 0 = some root) :
    (bytes_inodes (inodes_bytes l)).get? 0 =
      some ⟨toI32 root.refs, toI32 root.mode, toI32 root.size, toI32 root.block⟩ := by
  have hlen := inodes_bytes_length l
  have hl : 0 < l.length := by
    cases l with
    | nil => simp at h
    | cons x xs => simp
  rw [bytes_inodes_get? _ 0 (by omega), bytes_inode_inodes_bytes l 0 root h]


theorem directory_put_root_wf (l : List inode_t) (path : List Nat) (inum : Int) (root : inode_t)
    (r : Int × List Nat)
    (hroot : l.get? 0 = some root) (hwf : inode_wf root) (hrefs : root.refs ≠ 0)
    (hput : directory_put (inodes_bytes l) path inum = some r) :
    ∃ root', (bytes_inodes r.2).get? 0 = some root' ∧ inode_wf root' := by
  have hnorm := bytes_inodes_inodes_bytes_root l root hroot
  have hwfn := inode_wf_norm root hwf
  have hn : dir_entry_count (inodes_bytes l) = root.refs := by
    rw [root_entry_count l root hroot, toI32_of_range hwf.2.2.2.2.1 hwf.2.2.2.2.2]
  unfold directory_put at hput
  simp only [hn, MAX_ENTRIES, MAX_NAME_LEN, ENOSPC, EEXIST] at hput
  split at hput
  · simp only [Option.some.injEq] at hput
    subst hput
    exact ⟨_, hnorm, hwfn⟩
  · split at hput
    · simp only [Option.some.injEq] at hput
      subst hput
      exact ⟨_, hnorm, hwfn⟩
    · split at hput
      · cases hput
      · rename_i h1 _ h3
        simp only [Option.some.injEq] at hput
        subst hput
        simp only
        obtain ⟨n, hnn⟩ : ∃ n : Nat, root.refs = (n : Int) := ⟨root.refs.toNat, by omega⟩
        rw [hnn] at h3 h1 ⊢
        simp only [Int.toNat_ofNat, Nat.cast_ofNat] at h3 h1 ⊢
        have hn1 : 1 ≤ n := by omega
        have hlen := inodes_bytes_length l
        have hb2 : entry_off n + 32 ≤ (inodes_bytes l).length := by omega
        unfold entry_off at hb2 ⊢
        have hl1 : (wr_bytes (inodes_bytes l) (4 + 32 * n)
            (strncpy_bytes path 27)).length = (inodes_bytes l).length :=
          wr_bytes_length _ _ _ (by rw [strncpy_bytes_length]; omega)
        have hl2 : (wr_bytes (wr_bytes (inodes_bytes l) (4 + 32 * n)
            (strncpy_bytes path 27)) (4 + 32 * n + 28) (int_bytes inum)).length
              = (inodes_bytes l).length := by
          rw [wr_bytes_length _ _ _ (by rw [hl1, int_bytes_length]; omega), hl1]
        have hl3 : (wr_bytes (wr_bytes (wr_bytes (inodes_bytes l) (4 + 32 * n)
            (strncpy_bytes path 27)) (4 + 32 * n + 28) (int_bytes inum)) 0
              (int_bytes ((n : Int) + 1))).length = (inodes_bytes l).length := by
          rw [wr_bytes_length _ _ _ (by rw [hl2, int_bytes_length]; omega), hl2]
        rw [bytes_inodes_get? _ 0 (by omega)]
        refine ⟨_, rfl, ?_⟩
        have key : ∀ q, 4 ≤ q → q + 4 ≤ 16 →
            rd32 (wr_bytes (wr_bytes (wr_bytes (inodes_bytes l) (4 + 32 * n)
              (strncpy_bytes path 27)) (4 + 32 * n + 28) (int_bytes inum)) 0
                (int_bytes ((n : Int) + 1))) q = rd32 (inodes_bytes l) q := by
          intro q hq1 hq2
          rw [rd32_wr_bytes_outside _ _ _ _ (by omega) (by rw [int_bytes_length]; omega)]
          rw [rd32_wr_bytes_outside _ _ _ _ (by omega) (by rw [int_bytes_length]; omega)]
          rw [rd32_wr_bytes_outside _ _ _ _ (by omega)
            (by rw [strncpy_bytes_length]; omega)]
        have hfield := bytes_inode_inodes_bytes l 0 root hroot
        unfold bytes_inode at hfield ⊢
        simp only [Nat.mul_zero, Nat.zero_add, inode_t.mk.injEq] at hfield ⊢
        rw [key 4 (by omega) (by omega), key 8 (by omega) (by omega),
          key 12 (by omega) (by omega), rd32_wr_int_bytes _ _ (by omega)]
        rw [hfield.2.1, hfield.2.2.1, hfield.2.2.2]
        unfold inode_wf at hwfn ⊢
        have hb := toI32_bounds ((n : Int) + 1)
        exact ⟨hwfn.1, hwfn.2.1, hwfn.2.2.1, hwfn.2.2.2.1, hb.1, hb.2⟩


theorem inode_wf_zero : inode_wf inode_zero := by
  unfold inode_wf inode_zero BLOCK_COUNT BLOCK_SIZE
  simp

theorem alloc_inode_root_busy (l : List inode_t) (i : Nat) (root : inode_t)
    (h : (alloc_inode l).1 = (i : Int)) (hi : i ≠ 0) (hroot : l.get? 0 = some root) :
    root.refs ≠ 0 := by
  intro h0
  cases l with
  | nil => simp at hroot
  | cons x xs =>
    simp only [List.get?_cons_zero, Option.some.injEq] at hroot
    subst hroot
    have : alloc_inode_scan ((x :: xs).take INODE_COUNT) 0 = some 0 := by
      simp [INODE_COUNT, alloc_inode_scan, h0]
    unfold alloc_inode at h
    rw [this] at h
    simp only [Nat.cast_zero] at h
    omega

theorem inode_dir_put_root_wf (s : State) (inodes : List inode_t) (path : List Nat) (inum : Int)
    (root : inode_t) (p : Int × State)
    (hroot : inodes.get? 0 = some root) (hwf : inode_wf root) (hrefs : root.refs ≠ 0)
    (h : inode_dir_put s inodes 0 path inum = some p) : root_wf p.2 := by
  unfold inode_dir_put at h
  rw [get_inode_zero, hroot] at h
  simp only [Int.toNat_zero, dir_view_zero, dir_store_zero] at h
  cases hput : directory_put (inodes_bytes inodes) path inum with
  | none => simp [hput] at h
  | some r =>
    simp only [hput, Option.some.injEq] at h
    subst h
    exact directory_put_root_wf inodes path inum root r hroot hwf hrefs hput

theorem create_root_wf (s : State) (path : List Nat) (inum : Int) (x : inode_t) (p : Int × State)
    (hs : root_wf s) (ha : 0 ≤ (alloc_inode s.inodes).1)
    (hx : x.refs = 1 ∧ x.size = 0 ∧ x.block = 0)
    (h : inode_dir_put s ((alloc_inode s.inodes).2.set (alloc_inode s.inodes).1.toNat x) 0 path inum
      = some p) : root_wf p.2 := by
  obtain ⟨root, hroot, hwf⟩ := hs
  obtain ⟨i, hi1, hi2, hi3, hi4⟩ := alloc_inode_ok s.inodes ha
  rw [hi1, hi4] at h
  simp only [Int.toNat_ofNat, modify_set] at h
  by_cases hi0 : i = 0
  · subst hi0
    refine inode_dir_put_root_wf s _ path inum x p ?_ ?_ ?_ h
    · simp only [List.get?_eq_getElem?]
      rw [List.getElem?_set_self hi3]
    · unfold inode_wf BLOCK_COUNT BLOCK_SIZE
      rw [hx.1, hx.2.1, hx.2.2]
      simp
    · rw [hx.1]; decide
  · refine inode_dir_put_root_wf s _ path inum root p ?_ hwf ?_ h
    · simp only [List.get?_eq_getElem?] at hroot ⊢
      rw [List.getElem?_set_ne (by omega)]
      exact hroot
    · exact alloc_inode_root_busy s.inodes i root hi1 hi0 hroot

theorem storage_mknod_root_wf (s : State) (path : List Nat) (mode : Int) (p : Int × State)
    (hs : root_wf s) (h : storage_mknod s path mode = some p) : root_wf p.2 := by
  unfold storage_mknod at h
  split at h
  · simp only [Option.some.injEq] at h
    subst h; exact hs
  · simp only at h
    split at h
    · rename_i ha
      simp only [Option.some.injEq] at h
      subst h
      have : (alloc_inode s.inodes).2 = s.inodes := by
        unfold alloc_inode at ha ⊢
        split
        · rename_i i hsc
          rw [hsc] at ha
          simp at ha
          omega
        · rfl
      simpa [root_wf, this] using hs
    · rename_i ha
      have hroot0 : tree_lookup (cstr "/") = 0 := by decide
      rw [hroot0] at h
      exact create_root_wf s path _ _ p hs (by omega) ⟨rfl, rfl, rfl⟩ h

theorem storage_mkdir_root_wf (s : State) (path : List Nat) (mode : Nat) (p : Int × State)
    (hs : root_wf s) (h : storage_mkdir s path mode = some p) : root_wf p.2 := by
  unfold storage_mkdir at h
  split at h
  · simp only [Option.some.injEq] at h
    subst h; exact hs
  · simp only at h
    split at h
    · rename_i ha
      simp only [Option.some.injEq] at h
      subst h
      have : (alloc_inode s.inodes).2 = s.inodes := by
        unfold alloc_inode at ha ⊢
        split
        · rename_i i hsc
          rw [hsc] at ha
          simp at ha
          omega
        · rfl
      simpa [root_wf, this] using hs
    · rename_i ha
      have hroot0 : tree_lookup (cstr "/") = 0 := by decide
      rw [hroot0] at h
      simp only [lt_self_iff_false, if_false] at h
      exact create_root_wf s path _ _ p hs (by omega) ⟨rfl, rfl, rfl⟩ h


theorem dir_list_loop_eq_nil (d : List Nat) (i : Nat) (list : List (List Nat)) (n : Nat) :
    dir_list_loop d i list n = [] ↔ list = [] ∧ n = 0 := by
  induction n generalizing i list with
  | zero => simp [dir_list_loop]
  | succ n ih => simp [dir_list_loop, ih]

theorem directory_list_eq_nil (d : List Nat) : directory_list d = [] ↔ dir_entry_count d ≤ 0 := by
  unfold directory_list
  rw [dir_list_loop_eq_nil]
  simp [Int.toNat_eq_zero]

theorem directory_delete_empty (d name : List Nat) (h : dir_entry_count d ≤ 0) :
    directory_delete d name = some (-ENOENT, d) := by
  have h0 : (dir_entry_count d).toNat = 0 := Int.toNat_eq_zero.mpr h
  unfold directory_delete
  simp only [h0]
  rfl

theorem bytes_inodes_length (m : List Nat) : (bytes_inodes m).length = m.length / 16 := by
  simp [bytes_inodes]

theorem free_root_wf (l : List inode_t) (h : l ≠ []) :
    ∃ root, (free_inode l 0).get? 0 = some root ∧ inode_wf root := by
  obtain ⟨x, xs, hx⟩ := List.exists_cons_of_ne_nil h
  subst hx
  exact ⟨inode_zero, by simp [free_inode, INODE_COUNT], inode_wf_zero⟩

theorem storage_unlink_root_wf (s : State) (path : List Nat) (p : Int × State)
    (hs : root_wf s) (h : storage_unlink s path = some p) : root_wf p.2 := by
  unfold storage_unlink at h
  rcases tree_lookup_cases path with ⟨-, hl⟩ | ⟨-, hl⟩
  · have hroot0 : tree_lookup (cstr "/") = 0 := by decide
    obtain ⟨root, hroot, -⟩ := hs
    have hne : s.inodes ≠ [] := by
      intro h0; rw [h0] at hroot; simp at hroot
    obtain ⟨x, xs, hx⟩ := List.exists_cons_of_ne_nil hne
    have hf : free_inode s.inodes 0 = inode_zero :: xs := by
      rw [hx]; simp [free_inode, INODE_COUNT]
    simp only [hl, lt_self_iff_false, if_false, hroot0, hf, get_inode_zero, List.get?_cons_zero,
      Int.toNat_zero, dir_view_zero, dir_store_zero] at h
    have hc : dir_entry_count (inodes_bytes (inode_zero :: xs)) ≤ 0 := by
      rw [root_entry_count (inode_zero :: xs) inode_zero rfl]
      decide
    rw [directory_delete_empty _ path hc] at h
    simp only [Option.some.injEq] at h
    subst h
    exact ⟨_, bytes_inodes_inodes_bytes_root (inode_zero :: xs) inode_zero rfl,
      inode_wf_norm _ inode_wf_zero⟩
  · simp only [hl] at h
    simp only [Int.reduceNeg, Int.reduceLT, if_true, Option.some.injEq] at h
    subst h; exact hs

theorem storage_rmdir_root_wf (s : State) (path : List Nat) (p : Int × State)
    (hs : root_wf s) (h : storage_rmdir s path = some p) : root_wf p.2 := by
  unfold storage_rmdir at h
  rcases tree_lookup_cases path with ⟨-, hl⟩ | ⟨-, hl⟩
  · have hroot0 : tree_lookup (cstr "/") = 0 := by decide
    obtain ⟨root, hroot, hwf⟩ := hs
    simp only [hl, lt_self_iff_false, if_false, hroot0, get_inode_zero, hroot, Int.toNat_zero,
      dir_view_zero, dir_store_zero] at h
    split at h
    · simp only [Option.some.injEq] at h
      subst h; exact ⟨root, hroot, hwf⟩
    · split at h
      · simp only [Option.some.injEq] at h
        subst h; exact ⟨root, hroot, hwf⟩
      · rename_i hnil
        have hc : dir_entry_count (inodes_bytes s.inodes) ≤ 0 := by
          rw [← directory_list_eq_nil]
          simpa using hnil
        rw [directory_delete_empty _ path hc] at h
        simp only [Option.some.injEq] at h
        subst h
        apply free_root_wf
        intro h0
        have hlen := congrArg List.length h0
        rw [bytes_inodes_length, inodes_bytes_length] at hlen
        cases hsi : s.inodes with
        | nil => rw [hsi] at hroot; simp at hroot
        | cons x xs => rw [hsi] at hlen; simp at hlen
  · simp only [hl] at h
    simp only [Int.reduceNeg, Int.reduceLT, if_true, Option.some.injEq] at h
    subst h; exact hs


theorem bitmap_first_unused_from_range (bm : List Nat) (i n : Nat) :
    bitmap_first_unused_from bm i n = -1 ∨
      ((i : Int) ≤ bitmap_first_unused_from bm i n ∧ bitmap_first_unused_from bm i n < i + n) := by
  induction n generalizing i with
  | zero => left; rfl
  | succ n ih =>
    unfold bitmap_first_unused_from
    split
    · right; constructor <;> omega
    · rcases ih (i + 1) with h | h
      · left; exact h
      · right
        constructor
        · omega
        · have := h.2
          push_cast at this ⊢
          omega

theorem alloc_block_range (bm : List Nat) :
    (alloc_block bm).1 = -1 ∨ (0 ≤ (alloc_block bm).1 ∧ (alloc_block bm).1 < BLOCK_COUNT) := by
  unfold alloc_block bitmap_first_unused
  rcases bitmap_first_unused_from_range bm 0 BLOCK_COUNT with h | h
  · left; simp [h]
  · right
    have h1 : ¬ bitmap_first_unused_from bm 0 BLOCK_COUNT < 0 := by
      have := h.1; simp at this; omega
    simp only [h1, if_false]
    have := h.2
    simp at this ⊢
    exact ⟨by have := h.1; simpa using this, this⟩

theorem grow_inode_cases (node : inode_t) (size : Int) (bm : List Nat) :
    ((grow_inode node size bm).1 < 0 ∧ (grow_inode node size bm).2.1 = node ∧
        (grow_inode node size bm).2.2 = bm) ∨
    ((grow_inode node size bm).1 = 0 ∧ (grow_inode node size bm).2.1 = node ∧
        (grow_inode node size bm).2.2 = bm) ∨
    ((grow_inode node size bm).1 = 0 ∧
      (grow_inode node size bm).2.1 = { node with block := (alloc_block bm).1, size := size } ∧
      0 ≤ (alloc_block bm).1 ∧ (alloc_block bm).1 < BLOCK_COUNT) := by
  unfold grow_inode
  split
  · right; left; exact ⟨rfl, rfl, rfl⟩
  · simp only
    split
    · rename_i hneg
      left
      refine ⟨by simp [ENOSPC], rfl, ?_⟩
      unfold alloc_block at hneg ⊢
      simp only at hneg ⊢
      by_cases h2 : bitmap_first_unused bm BLOCK_COUNT < 0
      · simp only [h2, if_true]
      · simp only [h2, if_false] at hneg
    · rename_i hpos
      right; right
      rcases alloc_block_range bm with h | h
      · rw [h] at hpos; simp at hpos
      · exact ⟨rfl, rfl, h.1, h.2⟩

theorem write_block_root_wf (s : State) (node : inode_t) (buf : List Nat) (o : Int) (wr_ok : Bool)
    (p : Int × State) (hroot : s.inodes.get? 0 = some node)
    (hb : 0 ≤ node.block ∧ node.block < BLOCK_COUNT)
    (hr : -2147483648 ≤ node.refs ∧ node.refs < 2147483648)
    (hsz : node.size = toI32 (o + buf.length) ∨ inode_wf node)
    (h : write_block s 0 node buf o wr_ok = some p) : root_wf p.2 := by
  unfold write_block at h
  have hbase : blocks_get_block node.block = some (node.block.toNat * BLOCK_SIZE) := by
    unfold blocks_get_block
    rw [if_neg (by omega)]
  rw [hbase] at h
  simp only at h
  split at h
  · cases h
  · rename_i hbound
    have hbt : ((node.block.toNat * BLOCK_SIZE : Nat) : Int) = node.block * 4096 := by
      unfold BLOCK_SIZE
      push_cast
      rw [Int.toNat_of_nonneg hb.1]
    rw [hbt] at hbound
    unfold BLOCK_COUNT at hb
    unfold BLOCK_COUNT BLOCK_SIZE at hbound
    push_cast at hbound hb
    have hsize : toI32 (o + buf.length) = o + buf.length :=
      toI32_of_range (by omega) (by omega)
    have hwf2 : inode_wf { node with size := toI32 (o + buf.length) } := by
      unfold inode_wf BLOCK_COUNT BLOCK_SIZE
      simp only [hsize]
      push_cast
      refine ⟨hb.1, hb.2, by omega, by omega, hr.1, hr.2⟩
    cases wr_ok with
    | false =>
      simp only [Bool.not_false, if_true, Option.some.injEq] at h
      subst h
      refine ⟨node, hroot, ?_⟩
      rcases hsz with hsz | hsz
      · have : node = { node with size := toI32 (o + buf.length) } := by
          cases node; simp only [inode_t.mk.injEq, true_and] ; simpa using hsz
        rw [this]; exact hwf2
      · exact hsz
    | true =>
      simp only [Bool.not_true, Bool.false_eq_true, if_false, Option.some.injEq] at h
      subst h
      refine ⟨{ node with size := toI32 (o + buf.length) }, ?_, hwf2⟩
      have hne : s.inodes ≠ [] := by
        intro h0; rw [h0] at hroot; simp at hroot
      obtain ⟨x, xs, hx⟩ := List.exists_cons_of_ne_nil hne
      simp [hx]


theorem storage_write_root_wf (s : State) (path buf : List Nat) (o : Int) (wr_ok : Bool)
    (p : Int × State) (hs : root_wf s) (h : storage_write s path buf o wr_ok = some p) :
    root_wf p.2 := by
  unfold storage_write at h
  rcases tree_lookup_cases path with ⟨-, hl⟩ | ⟨-, hl⟩
  · obtain ⟨root, hroot, hwf⟩ := hs
    have hwf' := hwf
    unfold inode_wf at hwf'
    simp only [hl, lt_self_iff_false, if_false, get_inode_zero, hroot, Int.toNat_zero] at h
    have hne : s.inodes ≠ [] := by
      intro h0; rw [h0] at hroot; simp at hroot
    obtain ⟨x, xs, hx⟩ := List.exists_cons_of_ne_nil hne
    have hxr : x = root := by
      rw [hx] at hroot; simpa using hroot
    split at h
    · rcases grow_inode_cases root (toI32 (o + buf.length)) s.block_bitmap with
        ⟨g1, g2, g3⟩ | ⟨g1, g2, g3⟩ | ⟨g1, g2, g3, g4⟩
      · rw [if_pos g1] at h
        simp only [Option.some.injEq] at h
        subst h
        refine ⟨root, ?_, hwf⟩
        simp [g2, hx]
      · rw [if_neg (by omega)] at h
        rw [g2] at h
        refine write_block_root_wf _ root buf o wr_ok p ?_ ⟨hwf'.1, hwf'.2.1⟩
          ⟨hwf'.2.2.2.2.1, hwf'.2.2.2.2.2⟩ (Or.inr hwf) h
        simp [hx]
      · rw [if_neg (by omega)] at h
        rw [g2] at h
        refine write_block_root_wf _
          { root with block := (alloc_block s.block_bitmap).1, size := toI32 (o + buf.length) }
          buf o wr_ok p ?_ ⟨g3, g4⟩ ⟨hwf'.2.2.2.2.1, hwf'.2.2.2.2.2⟩ (Or.inl rfl) h
        simp [hx]
    · exact write_block_root_wf s root buf o wr_ok p hroot ⟨hwf'.1, hwf'.2.1⟩
        ⟨hwf'.2.2.2.2.1, hwf'.2.2.2.2.2⟩ (Or.inr hwf) h
  · simp only [hl] at h
    simp only [Int.reduceNeg, Int.reduceLT, if_true, Option.some.injEq] at h
    subst h; exact hs

theorem storage_init_root_wf (old : Option (Nat → Nat)) (file : List Nat) (pread_ok : Bool)
    (s : State) (h : storage_init old file pread_ok = some s) : root_wf s := by
  unfold storage_init at h
  cases pread_ok with
  | false => simp at h
  | true =>
    simp only [Bool.not_true, Bool.false_eq_true, if_false, Option.some.injEq] at h
    subst h
    refine ⟨⟨1, 0o40755, 0, 0⟩, rfl, ?_⟩
    unfold inode_wf BLOCK_COUNT BLOCK_SIZE
    simp

/-- In every reachable state the root record is well-formed: its `block` is the index
of a block and its `size` bytes lie inside the block image. -/
theorem reachable_root_wf (s : State) (h : Reachable s) : root_wf s := by
  induction h with
  | init old file pread_ok s h => exact storage_init_root_wf old file pread_ok s h
  | write s path buf offset wr_ok p _ h ih => exact storage_write_root_wf s path buf offset wr_ok p ih h
  | mknod s path mode p _ h ih => exact storage_mknod_root_wf s path mode p ih h
  | mkdir s path mode p _ h ih => exact storage_mkdir_root_wf s path mode p ih h
  | unlink s path p _ h ih => exact storage_unlink_root_wf s path p ih h
  | rmdir s path p _ h ih => exact storage_rmdir_root_wf s path p ih h

/-! ## Write and read -/

theorem write_block_read (s : State) (node : inode_t) (b : List Nat) (o : Int) (wr_ok : Bool)
    (p : Int × State) (hne : s.inodes ≠ [])
    (ho : 0 ≤ o) (hcap : o + b.length ≤ BLOCK_SIZE)
    (hw : write_block s 0 node b o wr_ok = some p) (hsucc : 0 ≤ p.1) :
    storage_read p.2 (cstr "/") b.length o = some ((b.length : Int), b) := by
  unfold write_block at hw
  cases hb : blocks_get_block node.block with
  | none =>
    simp only [hb, EIO, Option.some.injEq] at hw
    subst hw; simp at hsucc
  | some base =>
    simp only [hb] at hw
    split at hw
    · exact absurd hw (by simp)
    · rename_i hbound
      cases wr_ok with
      | false =>
        simp only [ EIO, Bool.not_false, if_true, Option.some.injEq] at hw
        subst hw; simp at hsucc
      | true =>
        simp only [Bool.not_true, Bool.false_eq_true, if_false, Option.some.injEq] at hw
        subst hw
        have hlen : (b.length : Int) ≤ 4096 := by unfold BLOCK_SIZE at hcap; omega
        have hsz : toI32 (o + b.length) = o + b.length := by
          apply toI32_of_range <;> (unfold BLOCK_SIZE at hcap; omega)
        unfold storage_read
        have hroot : tree_lookup (cstr "/") = 0 := by decide
        simp only [hroot, lt_self_iff_false, if_false, get_inode_zero]
        obtain ⟨x, xs, hx⟩ := List.exists_cons_of_ne_nil hne
        simp only [hx, Int.toNat_zero, List.set_cons_zero, List.get?_cons_zero, hsz]
        simp only [gt_iff_lt, lt_self_iff_false, if_false, hb]
        by_cases hz : b.length = 0
        · have hbn : b = [] := List.length_eq_zero.mp hz
          subst hbn
          simp
        · have hpos : 0 < (b.length : Int) := by omega
          rw [if_neg (by omega), if_neg hbound, toI32_of_range (by omega) (by omega),
            memcpy_from_memcpy_to]

/-- C1 (write/read round trip).  For every path that resolves, every byte string
`b` and every offset `o ≥ 0` with `o + len(b) ≤ BLOCK_SIZE`: if
`storage_write(path, b, len(b), o)` returns a non-negative value, then
`storage_read(path, buf, len(b), o)` on the state it leaves returns `len(b)` and
stores exactly `b` in `buf`. -/
theorem storage_write_read_round_trip (s : State) (path b : List Nat) (o : Int) (wr_ok : Bool)
    (p : Int × State)
    (hres : 0 ≤ tree_lookup path) (ho : 0 ≤ o) (hcap : o + b.length ≤ BLOCK_SIZE)
    (hw : storage_write s path b o wr_ok = some p) (hsucc : 0 ≤ p.1) :
    storage_read p.2 path b.length o = some ((b.length : Int), b) := by
  obtain ⟨hp, hl⟩ := tree_lookup_resolves hres
  subst hp
  unfold storage_write at hw
  simp only [hl, lt_self_iff_false, if_false, get_inode_zero] at hw
  cases hnode : s.inodes.get? 0 with
  | none =>
    simp only [hnode, EIO, Option.some.injEq] at hw
    subst hw; simp at hsucc
  | some node =>
    have hne : s.inodes ≠ [] := by
      intro h; simp [h] at hnode
    simp only [hnode] at hw
    split at hw
    · split at hw
      · simp only [ENOSPC, Option.some.injEq] at hw
        subst hw; simp at hsucc
      · refine write_block_read _ _ b o wr_ok p ?_ ho hcap hw hsucc
        simpa using hne
    · exact write_block_read s node b o wr_ok p hne ho hcap hw hsucc

/-- Witness for C1: on a freshly initialised engine, writing "hi" at offset 0 of "/"
returns 2 and the read of 2 bytes at offset 0 that follows returns "hi". -/
theorem storage_write_read_round_trip_witness :
    storage_write (init_state []) (cstr "/") (cstr "hi") 0 true = some (2, hi_state) ∧
    storage_read hi_state (cstr "/") 2 0 = some (2, cstr "hi") :=
  ⟨rfl, storage_write_read_round_trip (init_state []) (cstr "/") (cstr "hi") 0 true (2, hi_state)
    (by decide) (by decide) (by decide) rfl (by decide)⟩

/-- C2 (capacity boundary), the code at the failing input: on a freshly initialised
engine `storage_write("/", "x", 1, 4096)` has `offset + size = 4097 > BLOCK_SIZE`,
yet it returns 1 (no error), leaves the inode with `size = 4097` and stores the
byte in the image behind the inode's block (address 4096 is byte 0 of block 1,
the inode's block being block 0).  A write of `BLOCK_SIZE` bytes at offset 0
returns `BLOCK_SIZE`, as the claim says. -/
theorem storage_write_past_block_size :
    (storage_write (init_state []) (cstr "/") [120] 4096 true).map
        (fun p => (p.1, (p.2.inodes.get? 0).map (fun nd => (nd.size, nd.block)),
                   p.2.block_data 4096)) =
      some (1, some (4097, 0), 120) ∧
    (storage_write (init_state []) (cstr "/") (List.replicate 4096 120) 0 true).map
        (fun p => (p.1, (p.2.inodes.get? 0).map (fun nd => (nd.size, nd.block)))) =
      some (4096, some (4096, 0)) := by
  decide!

/-- C3 (path resolution), the code at the failing input: on a freshly initialised
engine `storage_mknod("/a", 0644)` returns 0 and the root directory then holds
the entry "/a" with inode number 1 (whose record has mode 0644 and size 0),
but `tree_lookup("/a")` and `storage_stat("/a")` both return `-ENOENT`. -/
theorem tree_lookup_ignores_root_entries :
    (storage_mknod (init_state []) (cstr "/a") 0o644).map
        (fun p => (p.1, directory_lookup (dir_view p.2.inodes 0) (cstr "/a"),
                   p.2.inodes.get? 1, tree_lookup (cstr "/a"), (storage_stat p.2 (cstr "/a")).1)) =
      some (0, 1, some ⟨1, 0o644, 0, 0⟩, -ENOENT, -ENOENT) := by
  decide!

/-- C4 (end-to-end scenario), the code at the failing input: on a freshly
initialised engine `storage_mknod("/hello.txt", 0644)` returns 0, but the
`storage_write("/hello.txt", "hi", 2, 0)` that follows returns `-ENOENT`
instead of 2, and so does the `storage_read("/hello.txt", buf, 10, 0)` after it. -/
theorem hello_scenario_not_found :
    (storage_mknod (init_state []) (cstr "/hello.txt") 0o644).map (fun p => p.1) = some 0 ∧
    ((storage_mknod (init_state []) (cstr "/hello.txt") 0o644).bind
        (fun p => storage_write p.2 (cstr "/hello.txt") (cstr "hi") 0 true)).map (fun q => q.1) =
      some (-ENOENT) ∧
    (((storage_mknod (init_state []) (cstr "/hello.txt") 0o644).bind
        (fun p => storage_write p.2 (cstr "/hello.txt") (cstr "hi") 0 true)).bind
        (fun q => storage_read q.2 (cstr "/hello.txt") 10 0)) = some (-ENOENT, []) := by
  decide!

/-- C5 (create then remove), the code at the failing input: on a freshly initialised
engine, after `storage_mknod("/f", 0644)` has returned 0, `storage_unlink("/f")`
returns `-ENOENT` instead of 0 and `storage_list("/")` still contains "/f". -/
theorem unlink_after_mknod_not_found :
    (storage_mknod (init_state []) (cstr "/f") 0o644).map (fun p => p.1) = some 0 ∧
    ((storage_mknod (init_state []) (cstr "/f") 0o644).bind
        (fun p => storage_unlink p.2 (cstr "/f"))).map
          (fun q => (q.1, (storage_list q.2 (cstr "/")).map (fun l => decide (cstr "/f" ∈ l)))) =
      some (-ENOENT, some true) := by
  decide!

/-- C6 (duplicate create).  In every state `storage_mknod("/", mode)` returns `-EEXIST`
and changes nothing.  The code at the failing input: on a freshly initialised
engine `storage_mknod("/a", 0644)` returns 0 and the root directory lists "/a";
a second `storage_mknod("/a", 0644)` returns 0 again instead of `-EEXIST`, and
the root directory then lists the new "/a" and, where the first "/a" was, the
two bytes A4 01 of the mode 0644 of the record allocated by the second call. -/
theorem second_mknod_not_rejected (s : State) (mode : Int) :
    storage_mknod s (cstr "/") mode = some (-EEXIST, s) ∧
    (storage_mknod (init_state []) (cstr "/a") 0o644).map
        (fun p => (p.1, storage_list p.2 (cstr "/"))) =
      some (0, some [cstr "/a", [0xED, 0x41]]) ∧
    ((storage_mknod (init_state []) (cstr "/a") 0o644).bind
        (fun p => storage_mknod p.2 (cstr "/a") 0o644)).map
        (fun q => (q.1, storage_list q.2 (cstr "/"))) =
      some (0, some [cstr "/a", [0xA4, 0x01], [0xED, 0x41]]) := by
  refine ⟨?_, by decide!, by decide!⟩
  have hroot : tree_lookup (cstr "/") = 0 := by decide
  simp [storage_mknod, hroot]

theorem toU64_eq_toNat {x : Int} (h1 : 0 ≤ x) (h2 : x < 18446744073709551616) :
    toU64 x = x.toNat := by
  unfold toU64
  rw [Int.emod_eq_of_lt h1 h2]

theorem storage_read_in_image (s : State) (path : List Nat) (n : Nat) (o : Int) (node : inode_t)
    (hres : 0 ≤ tree_lookup path) (hnode : get_inode s.inodes (tree_lookup path) = some node)
    (ho : 0 ≤ o) (hlt : o < node.size) (hn : o + n < 2 ^ 64) (hwf : inode_wf node) :
    storage_read s path n o =
      some (min (n : Int) (node.size - o),
        (List.range (min n (node.size - o).toNat)).map
          (fun i => s.block_data (node.block.toNat * BLOCK_SIZE + o.toNat + i))) := by
  have hl : ¬ tree_lookup path < 0 := by omega
  unfold inode_wf BLOCK_COUNT BLOCK_SIZE at hwf
  obtain ⟨hb1, hb2, hext, -, -, -⟩ := hwf
  push_cast at hb2 hext
  have hblk : blocks_get_block node.block = some (node.block.toNat * BLOCK_SIZE) := by
    unfold blocks_get_block BLOCK_COUNT
    rw [if_neg (by push_cast; omega)]
  have hbt : ((node.block.toNat * BLOCK_SIZE : Nat) : Int) = node.block * 4096 := by
    unfold BLOCK_SIZE
    push_cast
    rw [Int.toNat_of_nonneg hb1]
  have htot : ((BLOCK_COUNT : Int) * BLOCK_SIZE) = 1048576 := by decide
  have hsize : toU64 node.size = node.size.toNat := toU64_eq_toNat (by omega) (by omega)
  have hreq : toU64 (o + n) = (o + n).toNat := toU64_eq_toNat (by omega) (by omega)
  have hrem : toU64 (node.size - o) = (node.size - o).toNat :=
    toU64_eq_toNat (by omega) (by omega)
  unfold storage_read
  simp only [hl, if_false, hnode, ge_iff_le, not_le.mpr hlt, hblk, hsize, hreq, hrem, htot, hbt]
  by_cases hc : (o + n).toNat > node.size.toNat
  · have hmin : min n (node.size - o).toNat = (node.size - o).toNat := by omega
    have hmin2 : min (n : Int) (node.size - o) = node.size - o := by omega
    simp only [hc, if_true, hmin, hmin2]
    rw [if_neg (by omega), toI32_of_range (by omega) (by omega)]
    have h1 : (node.block * 4096 + o).toNat = node.block.toNat * BLOCK_SIZE + o.toNat := by
      unfold BLOCK_SIZE; omega
    have h2 : (((node.size - o).toNat : Nat) : Int) = node.size - o := by omega
    rw [h1, h2]
    rfl
  · have hmin : min n (node.size - o).toNat = n := by omega
    have hmin2 : min (n : Int) (node.size - o) = n := by omega
    simp only [hc, if_false, hmin, hmin2]
    rw [if_neg (by omega), toI32_of_range (by omega) (by omega)]
    have h1 : (node.block * 4096 + o).toNat = node.block.toNat * BLOCK_SIZE + o.toNat := by
      unfold BLOCK_SIZE; omega
    rw [h1]
    rfl

/-- C7 (read clamping), amended.  For a path that does not resolve `storage_read`
returns `-ENOENT`.  For a path that resolves to an inode of size `s`: it returns
0 (and copies nothing) when `offset ≥ s`; otherwise, in every reachable state,
for `offset ≥ 0` and a request of `n` bytes with `offset + n < 2^64` (the sum
the code compares with `s` does not wrap), it returns `min(n, s - offset)` and
copies exactly the bytes of the block image at positions
`[offset, offset + returned)` counted from the start of the inode's block; when
`s` is at most `BLOCK_SIZE` every one of these positions lies inside the inode's
block. -/
theorem storage_read_clamps (s : State) (path : List Nat) (n : Nat) (o : Int) :
    (tree_lookup path < 0 → storage_read s path n o = some (-ENOENT, [])) ∧
    (∀ node, 0 ≤ tree_lookup path → get_inode s.inodes (tree_lookup path) = some node →
      node.size ≤ o → storage_read s path n o = some (0, [])) ∧
    (∀ node, Reachable s →
      0 ≤ tree_lookup path → get_inode s.inodes (tree_lookup path) = some node →
      0 ≤ o → o < node.size → o + n < 2 ^ 64 →
      storage_read s path n o =
        some (min (n : Int) (node.size - o),
          (List.range (min n (node.size - o).toNat)).map
            (fun i => s.block_data (node.block.toNat * BLOCK_SIZE + o.toNat + i))) ∧
      (node.size ≤ BLOCK_SIZE → ∀ i, i < min n (node.size - o).toNat →
        node.block.toNat * BLOCK_SIZE ≤ node.block.toNat * BLOCK_SIZE + o.toNat + i ∧
        node.block.toNat * BLOCK_SIZE + o.toNat + i < (node.block.toNat + 1) * BLOCK_SIZE)) := by
  refine ⟨?_, ?_, ?_⟩
  · intro h
    simp [storage_read, h]
  · intro node hres hnode hsz
    have hl : ¬ tree_lookup path < 0 := by omega
    simp [storage_read, hl, hnode, hsz]
  · intro node hs hres hnode ho hlt hn
    obtain ⟨root, hroot, hwf⟩ := reachable_root_wf s hs
    have hnode0 := hnode
    rw [(tree_lookup_resolves hres).2, get_inode_zero, hroot] at hnode0
    simp only [Option.some.injEq] at hnode0
    subst hnode0
    refine ⟨storage_read_in_image s path n o root hres hnode ho hlt hn hwf, ?_⟩
    intro hsz i hi
    unfold BLOCK_SIZE at hsz ⊢
    push_cast at hsz
    omega

/-- Witness for C7: the state left by writing "hi" to "/" on a freshly initialised
engine is reachable, and there a read of 10 bytes at offset 0 returns
`min(10, 2) = 2` bytes, "hi". -/
theorem storage_read_clamps_witness :
    Reachable hi_state ∧ storage_read hi_state (cstr "/") 10 0 = some (2, cstr "hi") :=
  ⟨Reachable.write (init_state []) (cstr "/") (cstr "hi") 0 true (2, hi_state)
      (Reachable.init none [] true (init_state []) rfl) rfl,
    ((storage_read_clamps hi_state (cstr "/") 10 0).2.2 ⟨1, 0o40755, 2, 0⟩
      (Reachable.write (init_state []) (cstr "/") (cstr "hi") 0 true (2, hi_state)
        (Reachable.init none [] true (init_state []) rfl) rfl)
      (by decide) (by decide!) (by decide) (by decide) (by norm_num)).1⟩

/-! ## Initialisation and shutdown -/

theorem pwrite_image_getD (disk : List Nat) (mem : Nat → Nat) (n a : Nat) (h : a < n) :
    (pwrite disk (memcpy_from mem 0 n) 0).getD a 0 = mem a := by
  have hlen : (memcpy_from mem 0 n).length = n := by simp [memcpy_from]
  have hne : memcpy_from mem 0 n ≠ [] := by
    intro h0
    rw [h0] at hlen
    simp at hlen
    omega
  unfold pwrite
  rw [if_neg hne]
  simp only [List.take_zero, List.nil_append]
  rw [List.getD_append _ _ _ _ (by rw [hlen]; exact h)]
  simp [memcpy_from, List.getD_eq_getElem?_getD, List.getElem?_map, List.getElem?_range h]

theorem storage_shutdown_getD (s : State) (a : Nat) (h : a < BLOCK_COUNT * BLOCK_SIZE) :
    (storage_shutdown s).getD a 0 = s.block_data a :=
  pwrite_image_getD s.disk s.block_data _ a h

/-- C8 (persistence across restart), the code on every input: whatever `block_data`
pointed to before, whatever the backing file holds and whether or not the
`pread` succeeds, `storage_init` either exits or leaves an in-memory block
image whose every byte is 0, the backing file being untouched; this is so in
particular on the file that `storage_shutdown` leaves after "hi" has been
written to block 0, whose bytes 0 and 1 are `h` and `i`. -/
theorem storage_init_discards_file (old : Option (Nat → Nat)) (file : List Nat) (pread_ok : Bool)
    (a : Nat) :
    (storage_init old file pread_ok).map (fun s => (s.disk, s.block_data a)) =
        (if pread_ok then some (file, 0) else none) ∧
    (storage_shutdown hi_state).getD 0 0 = 104 ∧ (storage_shutdown hi_state).getD 1 0 = 105 ∧
    (storage_init old (storage_shutdown hi_state) pread_ok).map (fun s => s.block_data a) =
        (if pread_ok then some 0 else none) := by
  refine ⟨?_, ?_, ?_, ?_⟩
  · cases pread_ok <;> simp [storage_init, blocks_init]
  · rw [storage_shutdown_getD _ _ (by decide)]
    rfl
  · rw [storage_shutdown_getD _ _ (by decide)]
    rfl
  · cases pread_ok <;> simp [storage_init, blocks_init]

/-! ## Creating a directory -/

/-- C9 (`storage_mkdir`), the claim refuted: on a freshly initialised engine
`storage_mkdir("/d", 0755)` returns 0 and leaves inode 1 with `refs = 1` and
`mode = 0755 | S_IFDIR`, but no bit of the block bitmap is set afterwards: the
new inode has no allocated data block. -/
theorem storage_mkdir_allocates_no_block :
    (storage_mkdir (init_state []) (cstr "/d") 0o755).map
        (fun p => (p.1, p.2.inodes.get? 1,
          (List.range BLOCK_COUNT).all (fun k => bitmap_get p.2.block_bitmap k == 0))) =
      some (0, some ⟨1, 0o40755, 0, 0⟩, true) := by
  decide!

/-- C9 amended.  `storage_mkdir` never allocates or initialises a data block: whatever
it returns, the block bitmap, the block image and the backing file are the ones
before the call.  When it returns 0 (the `refs` of the root record being an
`int`), the record it allocated holds `refs = 1`, `mode = (mode | S_IFDIR)`,
`size = 0` afterwards, provided that record is not the root record and not one
of the three records which the bytes of the new root entry overlap (the entry
has index `refs` of the root record and covers records `2 * refs` to
`2 * refs + 2`). -/
theorem storage_mkdir_no_data_block (s : State) (path : List Nat) (mode : Nat) (root : inode_t) :
    (∀ p, storage_mkdir s path mode = some p →
      p.2.block_bitmap = s.block_bitmap ∧ p.2.block_data = s.block_data ∧ p.2.disk = s.disk) ∧
    (s.inodes.get? 0 = some root → -2147483648 ≤ root.refs ∧ root.refs < 2147483648 →
      (storage_mkdir s path mode).map (fun p => p.1) = some 0 →
      (alloc_inode s.inodes).1 ≠ 0 ∧
        ¬ (2 * root.refs ≤ (alloc_inode s.inodes).1 ∧
            (alloc_inode s.inodes).1 ≤ 2 * root.refs + 2) →
      (storage_mkdir s path mode).map (fun p => p.2.inodes.get? (alloc_inode s.inodes).1.toNat) =
        some (some ⟨1, toI32 ((mode % 4294967296) ||| S_IFDIR), 0, 0⟩)) := by
  refine ⟨fun p h => storage_mkdir_frame s path mode p h, ?_⟩
  intro hroot hcnt hret hno
  have hrootl : tree_lookup (cstr "/") = 0 := by decide
  unfold storage_mkdir at hret ⊢
  by_cases hl : tree_lookup path ≥ 0
  · simp [hl, EEXIST] at hret
  · simp only [hl, if_false] at hret ⊢
    by_cases ha : (alloc_inode s.inodes).1 < 0
    · simp [ha, ENOSPC] at hret
    · simp only [ha, if_false, hrootl, lt_self_iff_false] at hret ⊢
      obtain ⟨i, hi1, hi2, hi3, hi4⟩ := alloc_inode_ok s.inodes (by omega)
      rw [hi1, hi4] at hret ⊢
      rw [hi1] at hno
      simp only [Int.toNat_ofNat, modify_set] at hret ⊢
      have hi0 : i ≠ 0 := by
        intro h; apply hno.1; simp [h]
      have hroot1 : (s.inodes.set i
          ⟨1, toI32 ((mode % 4294967296) ||| S_IFDIR), 0, 0⟩).get? 0 = some root := by
        simp only [List.get?_eq_getElem?] at hroot ⊢
        rw [List.getElem?_set_ne (by omega)]
        exact hroot
      have hnew : (s.inodes.set i
          ⟨1, toI32 ((mode % 4294967296) ||| S_IFDIR), 0, 0⟩).get? i
            = some ⟨1, toI32 ((mode % 4294967296) ||| S_IFDIR), 0, 0⟩ := by
        simp only [List.get?_eq_getElem?]
        rw [List.getElem?_set_self hi3]
      unfold inode_dir_put at hret ⊢
      rw [get_inode_zero, hroot1] at hret ⊢
      simp only [Int.toNat_zero, dir_view_zero, dir_store_zero] at hret ⊢
      cases hput : directory_put (inodes_bytes (s.inodes.set i
          ⟨1, toI32 ((mode % 4294967296) ||| S_IFDIR), 0, 0⟩)) path i with
      | none => simp [hput] at hret
      | some r =>
        simp only [hput, Option.map_some', Option.some.injEq] at hret ⊢
        obtain ⟨r1, d3⟩ := r
        simp only at hret
        subst hret
        have hc := directory_put_ok_count _ path i d3 hput
        rw [root_entry_count _ root hroot1, toI32_of_range hcnt.1 hcnt.2] at hc
        have hrec := directory_put_keeps_record _ path i i root _ d3 hroot1
          hc hnew ⟨hi0, by omega⟩ hput
        rw [hrec]
        have hb := toI32_bounds ((mode % 4294967296) ||| S_IFDIR : Nat)
        rw [toI32_of_range hb.1 hb.2, toI32_of_range (x := 1) (by omega) (by omega),
          toI32_of_range (x := 0) (by omega) (by omega)]

/-- Witness for C9 amended: on a freshly initialised engine the root record counts one
entry, `storage_mkdir("/d", 0755)` returns 0, the record allocated is record 1
and it holds `refs = 1`, `mode = 0755 | S_IFDIR`, `size = 0` afterwards. -/
theorem storage_mkdir_no_data_block_witness :
    (init_state []).inodes.get? 0 = some ⟨1, 0o40755, 0, 0⟩ ∧
    (storage_mkdir (init_state []) (cstr "/d") 0o755).map (fun p => p.1) = some 0 ∧
    (alloc_inode (init_state []).inodes).1 = 1 ∧
    (storage_mkdir (init_state []) (cstr "/d") 0o755).map
        (fun p => p.2.inodes.get? (alloc_inode (init_state []).inodes).1.toNat) =
      some (some ⟨1, 0o40755, 0, 0⟩) :=
  ⟨by decide!, by decide!, by decide!,
    (storage_mkdir_no_data_block (init_state []) (cstr "/d") 0o755 ⟨1, 0o40755, 0, 0⟩).2
      (by decide!) (by decide) (by decide!) (by decide!)⟩

/-! ## The bitmap -/

theorem bitmap_get_eq (bm : List Nat) (i : Nat) :
    bitmap_get bm i = if (bm.getD (i / 8) 0).testBit (i % 8) then 1 else 0 := by
  unfold bitmap_get
  rw [Nat.and_one_is_mod, Nat.shiftRight_eq_div_pow, Nat.testBit_to_div_mod]
  by_cases h : bm.getD (i / 8) 0 / 2 ^ (i % 8) % 2 = 1
  · rw [if_pos (decide_eq_true h), h]
  · have h0 : bm.getD (i / 8) 0 / 2 ^ (i % 8) % 2 = 0 := by omega
    rw [if_neg (by rw [decide_eq_true_eq]; exact h), h0]

theorem bitmap_get_cases (bm : List Nat) (i : Nat) :
    bitmap_get bm i = 0 ∨ bitmap_get bm i = 1 := by
  rw [bitmap_get_eq]
  by_cases h : (bm.getD (i / 8) 0).testBit (i % 8) = true
  · right; rw [if_pos h]
  · left; rw [if_neg h]

theorem testBit_clear_mask (k j : Nat) (hk : k < 8) (hj : j < 8) :
    (255 - 1 <<< k).testBit j = decide (j ≠ k) := by
  interval_cases k <;> interval_cases j <;> decide

theorem bitmap_put_length (bm : List Nat) (i : Nat) (v : Int) :
    (bitmap_put bm i v).length = bm.length := by
  unfold bitmap_put
  split <;> simp

theorem bitmap_put_getD_other (bm : List Nat) (i : Nat) (v : Int) (q : Nat) (hq : q ≠ i / 8) :
    (bitmap_put bm i v).getD q 0 = bm.getD q 0 := by
  unfold bitmap_put
  split <;> simp [List.getD_eq_getElem?_getD, List.getElem?_set, Ne.symm hq]

theorem bitmap_put_getD_self (bm : List Nat) (i : Nat) (v : Int) (hi : i / 8 < bm.length) :
    (bitmap_put bm i v).getD (i / 8) 0 =
      if v ≠ 0 then ((bm.getD (i / 8) 0) ||| (1 <<< (i % 8))) % 256
      else (bm.getD (i / 8) 0) &&& (255 - (1 <<< (i % 8))) := by
  unfold bitmap_put
  split <;> simp [List.getD_eq_getElem?_getD, List.getElem?_set, hi]

theorem bitmap_put_testBit (bm : List Nat) (i : Nat) (v : Int) (hi : i / 8 < bm.length)
    (k : Nat) (hk : k < 8) :
    ((bitmap_put bm i v).getD (i / 8) 0).testBit k =
      if k = i % 8 then decide (v ≠ 0) else (bm.getD (i / 8) 0).testBit k := by
  rw [bitmap_put_getD_self bm i v hi]
  have h8 : i % 8 < 8 := Nat.mod_lt _ (by decide)
  by_cases hv : v ≠ 0
  · rw [if_pos hv, show (256 : Nat) = 2 ^ 8 from rfl, Nat.testBit_mod_two_pow, Nat.testBit_or,
      Nat.one_shiftLeft, Nat.testBit_two_pow]
    by_cases hki : k = i % 8
    · simp [hki, hv, h8]
    · simp [hki, hk, Ne.symm hki]
  · rw [if_neg hv, Nat.testBit_and, testBit_clear_mask _ _ h8 hk]
    by_cases hki : k = i % 8
    · simp [hki, hv]
    · simp [hki]

theorem bitmap_get_put_self (bm : List Nat) (i : Nat) (v : Int) (hi : i / 8 < bm.length) :
    bitmap_get (bitmap_put bm i v) i = if v ≠ 0 then 1 else 0 := by
  rw [bitmap_get_eq, bitmap_put_testBit bm i v hi _ (Nat.mod_lt _ (by decide))]
  by_cases hv : v ≠ 0 <;> simp [hv]

theorem bitmap_get_put_other (bm : List Nat) (i : Nat) (v : Int) (j : Nat) (hj : j ≠ i) :
    bitmap_get (bitmap_put bm i v) j = bitmap_get bm j := by
  by_cases hq : j / 8 = i / 8
  · by_cases hi : i / 8 < bm.length
    · have hk : j % 8 ≠ i % 8 := by omega
      rw [bitmap_get_eq, bitmap_get_eq, hq,
        bitmap_put_testBit bm i v hi _ (Nat.mod_lt _ (by decide)), if_neg hk]
    · have : bitmap_put bm i v = bm := by
        unfold bitmap_put
        split <;> exact List.set_eq_of_length_le (by omega)
      rw [this]
  · unfold bitmap_get
    rw [bitmap_put_getD_other bm i v _ hq]

theorem bitmap_get_put_mono (bm : List Nat) (i j : Nat) (h : bitmap_get bm j = 1) :
    bitmap_get (bitmap_put bm i 1) j = 1 := by
  by_cases hj : j = i
  · subst hj
    by_cases hi : j / 8 < bm.length
    · rw [bitmap_get_put_self bm j 1 hi]; simp
    · have : bitmap_put bm j 1 = bm := by
        unfold bitmap_put
        split <;> exact List.set_eq_of_length_le (by omega)
      rw [this, h]
  · rw [bitmap_get_put_other bm i 1 j hj, h]

theorem bitmap_first_unused_from_spec (bm : List Nat) (n : Nat) : ∀ i : Nat,
    (bitmap_first_unused_from bm i n = -1 ∧ ∀ j, i ≤ j → j < i + n → bitmap_get bm j = 1) ∨
    (∃ r : Nat, bitmap_first_unused_from bm i n = (r : Int) ∧ i ≤ r ∧ r < i + n ∧
      bitmap_get bm r = 0 ∧ ∀ j, i ≤ j → j < r → bitmap_get bm j = 1) := by
  induction n with
  | zero =>
    intro i
    left
    exact ⟨rfl, fun j h1 h2 => by omega⟩
  | succ n ih =>
    intro i
    unfold bitmap_first_unused_from
    by_cases h : bitmap_get bm i = 0
    · right
      rw [if_pos h]
      exact ⟨i, rfl, le_refl _, by omega, h, fun j h1 h2 => by omega⟩
    · rw [if_neg h]
      have h1 : bitmap_get bm i = 1 := by
        rcases bitmap_get_cases bm i with h0 | h0
        · exact absurd h0 h
        · exact h0
      rcases ih (i + 1) with ⟨e, hall⟩ | ⟨r, e, hr1, hr2, hr3, hall⟩
      · left
        refine ⟨e, fun j hj1 hj2 => ?_⟩
        by_cases hji : j = i
        · rw [hji]; exact h1
        · exact hall j (by omega) (by omega)
      · right
        refine ⟨r, e, by omega, by omega, hr3, fun j hj1 hj2 => ?_⟩
        by_cases hji : j = i
        · rw [hji]; exact h1
        · exact hall j (by omega) hj2

theorem bitmap_first_unused_spec (bm : List Nat) (n : Nat) :
    (bitmap_first_unused bm n = -1 ∧ ∀ j, j < n → bitmap_get bm j = 1) ∨
    (∃ r : Nat, bitmap_first_unused bm n = (r : Int) ∧ r < n ∧
      bitmap_get bm r = 0 ∧ ∀ j, j < r → bitmap_get bm j = 1) := by
  unfold bitmap_first_unused
  rcases bitmap_first_unused_from_spec bm n 0 with ⟨e, hall⟩ | ⟨r, e, _, hr2, hr3, hall⟩
  · left
    exact ⟨e, fun j hj => hall j (Nat.zero_le _) (by omega)⟩
  · right
    exact ⟨r, e, by omega, hr3, fun j hj => hall j (Nat.zero_le _) hj⟩

theorem alloc_block_spec (bm : List Nat) :
    (alloc_block bm = (-1, bm) ∧ ∀ j, j < BLOCK_COUNT → bitmap_get bm j = 1) ∨
    (∃ r : Nat, alloc_block bm = ((r : Int), bitmap_put bm r 1) ∧ r < BLOCK_COUNT ∧
      bitmap_get bm r = 0 ∧ ∀ j, j < r → bitmap_get bm j = 1) := by
  unfold alloc_block
  rcases bitmap_first_unused_spec bm BLOCK_COUNT with ⟨e, hall⟩ | ⟨r, e, hr1, hr2, hall⟩
  · left
    simp only [e]
    exact ⟨by simp, hall⟩
  · right
    simp only [e]
    refine ⟨r, ?_, hr1, hr2, hall⟩
    have : ¬ ((r : Int) < 0) := by omega
    simp [this]

theorem alloc_block_times_fill (k : Nat) : ∀ (m : Nat) (bm : List Nat),
    bm.length = BLOCK_COUNT / 8 → m + k ≤ BLOCK_COUNT →
    (∀ j, j < m → bitmap_get bm j = 1) → (∀ j, m ≤ j → j < BLOCK_COUNT → bitmap_get bm j = 0) →
    (alloc_block_times k bm).1 = (List.range' m k).map Int.ofNat := by
  induction k with
  | zero => intro m bm _ _ _ _; rfl
  | succ k ih =>
    intro m bm hlen hmk hset hclr
    unfold alloc_block_times
    rcases alloc_block_spec bm with ⟨_, hall⟩ | ⟨r, e, hr1, hr2, hall⟩
    · have h0 := hclr m (le_refl _) (by omega)
      have h1 := hall m (by omega)
      omega
    · have hrm : r = m := by
        by_contra hne
        rcases Nat.lt_or_gt_of_ne hne with hlt | hgt
        · have := hset r hlt
          omega
        · have h0 := hclr m (le_refl _) (by omega)
          have h1 := hall m hgt
          omega
      subst hrm
      simp only [e, List.range'_succ, List.map_cons]
      have hin : r / 8 < bm.length := by
        rw [hlen]; unfold BLOCK_COUNT at hr1 ⊢; omega
      rw [ih (r + 1) (bitmap_put bm r 1) (by rw [bitmap_put_length]; exact hlen) (by omega)
        (fun j hj => by
          by_cases hjr : j = r
          · rw [hjr, bitmap_get_put_self bm r 1 hin]; simp
          · rw [bitmap_get_put_other bm r 1 j hjr]; exact hset j (by omega))
        (fun j hj1 hj2 => by
          rw [bitmap_get_put_other bm r 1 j (by omega)]; exact hclr j (by omega) hj2)]
      rfl

/-- C12: the function `bitmap_first_unused(bm, n)` returns the index `r` exactly when
`r` is the smallest index in `[0, n)` whose bit reads 0; it returns -1 exactly when
every bit in `[0, n)` reads 1; and it returns nothing else. -/
theorem bitmap_first_unused_smallest (bm : List Nat) (n : Nat) :
    (∀ r : Nat, bitmap_first_unused bm n = (r : Int) ↔
      (r < n ∧ bitmap_get bm r = 0 ∧ ∀ j, j < r → bitmap_get bm j = 1)) ∧
    (bitmap_first_unused bm n = -1 ↔ ∀ i, i < n → bitmap_get bm i = 1) ∧
    (bitmap_first_unused bm n = -1 ∨ ∃ r : Nat, bitmap_first_unused bm n = (r : Int)) := by
  rcases bitmap_first_unused_spec bm n with ⟨e, hall⟩ | ⟨r, e, hr1, hr2, hall⟩
  · refine ⟨fun r => ⟨fun h => ?_, fun h => ?_⟩, ⟨fun _ => hall, fun _ => e⟩, Or.inl e⟩
    · rw [e] at h; omega
    · have := hall r h.1
      omega
  · refine ⟨fun r' => ⟨fun h => ?_, fun h => ?_⟩, ⟨fun h => ?_, fun h => ?_⟩, Or.inr ⟨r, e⟩⟩
    · rw [e] at h
      have : r = r' := by omega
      subst this
      exact ⟨hr1, hr2, hall⟩
    · have : r = r' := by
        by_contra hne
        rcases Nat.lt_or_gt_of_ne hne with hlt | hgt
        · have := h.2.2 r hlt
          omega
        · have := hall r' hgt
          omega
      rw [e, this]
    · rw [e] at h; omega
    · have := h r hr1
      omega

/-- C13: for an index `i` inside the buffer, after `bitmap_put(bm, i, v)` the call
`bitmap_get(bm, i)` returns 1 if `v` is non-zero and 0 otherwise; the bit written is
bit `i % 8` of byte `i / 8` (every other byte and every other bit of that byte keep
their value); and `bitmap_get(bm, j)` is unchanged for every `j` other than `i`. -/
theorem bitmap_put_then_get (bm : List Nat) (i : Nat) (v : Int) (hi : i / 8 < bm.length) :
    bitmap_get (bitmap_put bm i v) i = (if v ≠ 0 then 1 else 0) ∧
    ((bitmap_put bm i v).getD (i / 8) 0).testBit (i % 8) = decide (v ≠ 0) ∧
    (∀ k, k < 8 → k ≠ i % 8 →
      ((bitmap_put bm i v).getD (i / 8) 0).testBit k = (bm.getD (i / 8) 0).testBit k) ∧
    (∀ q, q ≠ i / 8 → (bitmap_put bm i v).getD q 0 = bm.getD q 0) ∧
    (∀ j, j ≠ i → bitmap_get (bitmap_put bm i v) j = bitmap_get bm j) := by
  refine ⟨bitmap_get_put_self bm i v hi, ?_, ?_, ?_, ?_⟩
  · rw [bitmap_put_testBit bm i v hi _ (Nat.mod_lt _ (by decide)), if_pos rfl]
  · intro k hk hne
    rw [bitmap_put_testBit bm i v hi k hk, if_neg hne]
  · exact fun q hq => bitmap_put_getD_other bm i v q hq
  · exact fun j hj => bitmap_get_put_other bm i v j hj

theorem bitmap_put_then_get_witness :
    bitmap_get (bitmap_put [5, 255] 9 0) 9 = 0 ∧ bitmap_put [5, 255] 9 0 = [5, 253] ∧
    bitmap_get (bitmap_put [5, 255] 1 7) 1 = 1 ∧ bitmap_put [5, 255] 1 7 = [7, 255] :=
  ⟨(bitmap_put_then_get [5, 255] 9 0 (by decide)).1, by decide,
   (bitmap_put_then_get [5, 255] 1 7 (by decide)).1, by decide⟩

/-- C14: with a bitmap of 256 bits of which at least one is clear, `alloc_block()`
returns the smallest index whose bit is 0, sets that bit to 1 and changes no other bit
(the function does not touch the block image); and the `k`-th call after `blocks_init`
returns `k - 1` for every `k` from 1 to 256. -/
theorem alloc_block_smallest_clear (bm : List Nat) (hlen : bm.length = BLOCK_COUNT / 8)
    (hfree : ∃ i, i < BLOCK_COUNT ∧ bitmap_get bm i = 0) :
    (∃ r : Nat, (alloc_block bm).1 = (r : Int) ∧ r < BLOCK_COUNT ∧ bitmap_get bm r = 0 ∧
      (∀ j, j < r → bitmap_get bm j = 1) ∧
      bitmap_get (alloc_block bm).2 r = 1 ∧
      (∀ j, j ≠ r → bitmap_get (alloc_block bm).2 j = bitmap_get bm j)) ∧
    (∀ k, 1 ≤ k → k ≤ BLOCK_COUNT →
      (alloc_block_times k (blocks_init none).2).1.get? (k - 1) = some ((k : Int) - 1)) := by
  constructor
  · rcases alloc_block_spec bm with ⟨_, hall⟩ | ⟨r, e, hr1, hr2, hall⟩
    · obtain ⟨i, hi1, hi2⟩ := hfree
      have := hall i hi1
      omega
    · have hin : r / 8 < bm.length := by
        rw [hlen]; unfold BLOCK_COUNT at hr1 ⊢; omega
      refine ⟨r, by rw [e], hr1, hr2, hall, ?_, ?_⟩
      · rw [e]
        show bitmap_get (bitmap_put bm r 1) r = 1
        rw [bitmap_get_put_self bm r 1 hin]; simp
      · intro j hj
        rw [e]
        exact bitmap_get_put_other bm r 1 j hj
  · intro k hk1 hk2
    have hz : ∀ j, bitmap_get (List.replicate (BLOCK_COUNT / 8) 0) j = 0 := by
      intro j
      rw [bitmap_get_eq]
      have : (List.replicate (BLOCK_COUNT / 8) 0).getD (j / 8) 0 = 0 := by
        rw [List.getD_eq_getElem?_getD, List.getElem?_replicate]
        split <;> rfl
      rw [this]
      simp
    have := alloc_block_times_fill k 0 (blocks_init none).2 (by simp [blocks_init]) (by omega)
      (fun j hj => by omega) (fun j _ _ => hz j)
    rw [this, List.get?_eq_getElem?, List.getElem?_map, List.getElem?_range' _ _ (by omega)]
    simp
    omega

theorem alloc_block_smallest_clear_witness :
    (∃ r : Nat, (alloc_block ([255, 7] ++ List.replicate 30 0)).1 = (r : Int) ∧ r < BLOCK_COUNT ∧
      bitmap_get ([255, 7] ++ List.replicate 30 0) r = 0 ∧
      (∀ j, j < r → bitmap_get ([255, 7] ++ List.replicate 30 0) j = 1) ∧
      bitmap_get (alloc_block ([255, 7] ++ List.replicate 30 0)).2 r = 1 ∧
      (∀ j, j ≠ r → bitmap_get (alloc_block ([255, 7] ++ List.replicate 30 0)).2 j =
        bitmap_get ([255, 7] ++ List.replicate 30 0) j)) ∧
    alloc_block ([255, 7] ++ List.replicate 30 0) = (11, [255, 15] ++ List.replicate 30 0) :=
  ⟨(alloc_block_smallest_clear ([255, 7] ++ List.replicate 30 0) (by decide)
      ⟨11, by decide, by decide⟩).1, by decide⟩

theorem alloc_block_times_bits (k : Nat) : ∀ (m : Nat) (bm : List Nat),
    bm.length = BLOCK_COUNT / 8 → m + k ≤ BLOCK_COUNT →
    (∀ j, j < m → bitmap_get bm j = 1) → (∀ j, m ≤ j → j < BLOCK_COUNT → bitmap_get bm j = 0) →
    ∀ j, j < m + k → bitmap_get (alloc_block_times k bm).2 j = 1 := by
  induction k with
  | zero => intro m bm _ _ hset _ j hj; exact hset j hj
  | succ k ih =>
    intro m bm hlen hmk hset hclr j hj
    unfold alloc_block_times
    rcases alloc_block_spec bm with ⟨_, hall⟩ | ⟨r, e, hr1, hr2, hall⟩
    · have h0 := hclr m (le_refl _) (by omega)
      have h1 := hall m (by omega)
      omega
    · have hrm : r = m := by
        by_contra hne
        rcases Nat.lt_or_gt_of_ne hne with hlt | hgt
        · have := hset r hlt
          omega
        · have h0 := hclr m (le_refl _) (by omega)
          have h1 := hall m hgt
          omega
      subst hrm
      simp only [e]
      have hin : r / 8 < bm.length := by
        rw [hlen]; unfold BLOCK_COUNT at hr1 ⊢; omega
      exact ih (r + 1) (bitmap_put bm r 1) (by rw [bitmap_put_length]; exact hlen) (by omega)
        (fun j hj => by
          by_cases hjr : j = r
          · rw [hjr, bitmap_get_put_self bm r 1 hin]; simp
          · rw [bitmap_get_put_other bm r 1 j hjr]; exact hset j (by omega))
        (fun j hj1 hj2 => by
          rw [bitmap_get_put_other bm r 1 j (by omega)]; exact hclr j (by omega) hj2)
        j (by omega)

theorem blocks_init_bitmap_clear (j : Nat) : bitmap_get (blocks_init none).2 j = 0 := by
  rw [bitmap_get_eq]
  have : (blocks_init none).2.getD (j / 8) 0 = 0 := by
    unfold blocks_init
    rw [List.getD_eq_getElem?_getD, List.getElem?_replicate]
    split <;> rfl
  rw [this]
  simp

theorem alloc_block_after_all (bm : List Nat)
    (hfull : ∀ i, i < BLOCK_COUNT → bitmap_get bm i = 1) : alloc_block bm = (-1, bm) := by
  rcases alloc_block_spec bm with ⟨e, _⟩ | ⟨r, _, hr1, hr2, _⟩
  · exact e
  · have := hfull r hr1
    omega

/-- C15: when all 256 bits are set, `alloc_block()` returns -1 and leaves the
bitmap as it was (the function does not touch the block image); this is the case
for the call that follows 256 calls after `blocks_init`. -/
theorem alloc_block_full (bm : List Nat) (hfull : ∀ i, i < BLOCK_COUNT → bitmap_get bm i = 1) :
    alloc_block bm = (-1, bm) ∧
    alloc_block (alloc_block_times BLOCK_COUNT (blocks_init none).2).2 =
      (-1, (alloc_block_times BLOCK_COUNT (blocks_init none).2).2) := by
  refine ⟨alloc_block_after_all bm hfull, alloc_block_after_all _ ?_⟩
  have hb := alloc_block_times_bits BLOCK_COUNT 0 (blocks_init none).2 (by simp [blocks_init])
    (by omega) (fun j hj => by omega) (fun j _ _ => blocks_init_bitmap_clear j)
  intro i hi
  exact hb i (by omega)

theorem alloc_block_full_witness :
    alloc_block (List.replicate 32 255) = (-1, List.replicate 32 255) :=
  (alloc_block_full (List.replicate 32 255) (by decide!)).1

/-! ## The inode table -/

theorem alloc_inode_scan_spec (l : List inode_t) : ∀ i0 : Nat,
    (alloc_inode_scan l i0 = none ∧ ∀ j nd, l.get? j = some nd → nd.refs ≠ 0) ∨
    (∃ k nd, alloc_inode_scan l i0 = some (i0 + k) ∧ l.get? k = some nd ∧ nd.refs = 0 ∧
      ∀ j nd, j < k → l.get? j = some nd → nd.refs ≠ 0) := by
  induction l with
  | nil =>
    intro i0
    left
    exact ⟨rfl, fun j nd h => by simp at h⟩
  | cons a rest ih =>
    intro i0
    unfold alloc_inode_scan
    by_cases h : a.refs = 0
    · right
      rw [if_pos h]
      exact ⟨0, a, rfl, rfl, h, fun j nd hj _ => by omega⟩
    · rw [if_neg h]
      rcases ih (i0 + 1) with ⟨e, hall⟩ | ⟨k, nd, e, hk, hz, hall⟩
      · left
        refine ⟨e, fun j nd hj => ?_⟩
        cases j with
        | zero =>
          simp only [List.get?_cons_zero, Option.some.injEq] at hj
          rw [← hj]; exact h
        | succ j => exact hall j nd (by simpa using hj)
      · right
        refine ⟨k + 1, nd, by rw [e]; congr 1; omega, by simpa using hk, hz, fun j nd' hj hget => ?_⟩
        cases j with
        | zero =>
          simp only [List.get?_cons_zero, Option.some.injEq] at hget
          rw [← hget]; exact h
        | succ j => exact hall j nd' (by omega) (by simpa using hget)

theorem modify_eq_set (l : List inode_t) (f : inode_t → inode_t) (i : Nat) (nd : inode_t)
    (h : l.get? i = some nd) : l.modify f i = l.set i (f nd) := by
  induction l generalizing i with
  | nil => simp at h
  | cons a rest ih =>
    cases i with
    | zero =>
      simp only [List.get?_cons_zero, Option.some.injEq] at h
      simp [h]
    | succ i =>
      simp only [List.get?_cons_succ] at h
      simp [ih i h]

theorem alloc_inode_spec (l : List inode_t) (hlen : l.length = INODE_COUNT) :
    (alloc_inode l = (-ENOSPC, l) ∧ ∀ j nd, l.get? j = some nd → nd.refs ≠ 0) ∨
    (∃ (i : Nat) (nd : inode_t), alloc_inode l = ((i : Int), l.set i { nd with refs := 1 }) ∧
      i < INODE_COUNT ∧
      l.get? i = some nd ∧ nd.refs = 0 ∧ ∀ j nd, j < i → l.get? j = some nd → nd.refs ≠ 0) := by
  have ht : l.take INODE_COUNT = l := List.take_of_length_le (by omega)
  unfold alloc_inode
  rw [ht]
  rcases alloc_inode_scan_spec l 0 with ⟨e, hall⟩ | ⟨k, nd, e, hk, hz, hall⟩
  · left
    rw [e]
    exact ⟨rfl, hall⟩
  · right
    rw [e]
    have hkl : k < l.length := by
      rw [List.get?_eq_getElem?] at hk
      exact (List.getElem?_eq_some_iff.mp hk).1
    refine ⟨k, nd, ?_, by omega, hk, hz, hall⟩
    simp only [Nat.zero_add]
    rw [modify_eq_set l _ k nd hk]

theorem free_inode_length (l : List inode_t) (inum : Int) :
    (free_inode l inum).length = l.length := by
  unfold free_inode
  split <;> simp

theorem alloc_inode_length (l : List inode_t) : (alloc_inode l).2.length = l.length := by
  unfold alloc_inode
  split <;> simp

theorem table_reachable_inv (l : List inode_t) (h : TableReachable l) :
    l.length = INODE_COUNT ∧ ∀ j nd, l.get? j = some nd → nd.refs = 0 → nd = inode_zero := by
  induction h with
  | init =>
    refine ⟨by simp [inode_init], fun j nd hj hz => ?_⟩
    unfold inode_init at hj
    rw [List.get?_eq_getElem?, List.getElem?_set] at hj
    split at hj
    · split at hj
      · simp only [Option.some.injEq] at hj
        rw [← hj] at hz
        simp [inode_zero] at hz
      · simp at hj
    · rw [List.getElem?_replicate] at hj
      split at hj
      · simp only [Option.some.injEq] at hj
        exact hj.symm
      · simp at hj
  | alloc l _ ih =>
    refine ⟨by rw [alloc_inode_length]; exact ih.1, fun j nd hj hz => ?_⟩
    rcases alloc_inode_spec l ih.1 with ⟨e, _⟩ | ⟨i, nd0, e, _, _, _, _⟩
    · rw [e] at hj
      exact ih.2 j nd hj hz
    · rw [e] at hj
      simp only at hj
      rw [List.get?_eq_getElem?, List.getElem?_set] at hj
      split at hj
      · split at hj
        · simp only [Option.some.injEq] at hj
          rw [← hj] at hz
          simp at hz
        · simp at hj
      · exact ih.2 j nd (by rw [List.get?_eq_getElem?]; exact hj) hz
  | free l inum _ ih =>
    refine ⟨by rw [free_inode_length]; exact ih.1, fun j nd hj hz => ?_⟩
    unfold free_inode at hj
    split at hj
    · exact ih.2 j nd hj hz
    · rw [List.get?_eq_getElem?, List.getElem?_set] at hj
      split at hj
      · split at hj
        · simp only [Option.some.injEq] at hj
          exact hj.symm
        · simp at hj
      · exact ih.2 j nd (by rw [List.get?_eq_getElem?]; exact hj) hz
  | grow l i node size bm _ hget hlive ih =>
    refine ⟨by simp [ih.1], fun j nd hj hz => ?_⟩
    rw [List.get?_eq_getElem?, List.getElem?_set] at hj
    split at hj
    · split at hj
      · simp only [Option.some.injEq] at hj
        have hrefs : (grow_inode node size bm).2.1.refs = node.refs := by
          unfold grow_inode
          split
          · rfl
          · simp only
            split <;> rfl
        rw [← hj, hrefs] at hz
        omega
      · simp at hj
    · exact ih.2 j nd (by rw [List.get?_eq_getElem?]; exact hj) hz

/-- C16: in every inode table reachable from `inode_init()` by `alloc_inode`,
`free_inode` and `grow_inode` on live inodes, if some inode has `refs == 0` then
`alloc_inode()` returns the smallest index `i` with `refs == 0`; afterwards inode `i`
has `refs = 1` and `size = 0`, and no other record is changed. -/
theorem alloc_inode_smallest_free (l : List inode_t) (hr : TableReachable l)
    (hfree : ∃ j nd, l.get? j = some nd ∧ nd.refs = 0) :
    ∃ i : Nat, (alloc_inode l).1 = (i : Int) ∧ i < INODE_COUNT ∧
      (∃ nd, l.get? i = some nd ∧ nd.refs = 0) ∧
      (∀ j nd, j < i → l.get? j = some nd → nd.refs ≠ 0) ∧
      (∃ nd, (alloc_inode l).2.get? i = some nd ∧ nd.refs = 1 ∧ nd.size = 0) ∧
      (∀ j, j ≠ i → (alloc_inode l).2.get? j = l.get? j) := by
  obtain ⟨hlen, hzero⟩ := table_reachable_inv l hr
  rcases alloc_inode_spec l hlen with ⟨_, hall⟩ | ⟨i, nd, e, hi, hget, hz, hall⟩
  · obtain ⟨j, nd, hj, hz⟩ := hfree
    exact absurd hz (hall j nd hj)
  · refine ⟨i, by rw [e], hi, ⟨nd, hget, hz⟩, hall, ?_, ?_⟩
    · rw [e]
      refine ⟨{ nd with refs := 1 }, ?_, rfl, ?_⟩
      · simp only [List.get?_eq_getElem?, List.getElem?_set]
        simp [hlen, hi]
      · rw [hzero i nd hget hz]; rfl
    · intro j hj
      rw [e]
      simp only [List.get?_eq_getElem?, List.getElem?_set]
      simp [Ne.symm hj]

theorem alloc_inode_smallest_free_witness :
    ∃ i : Nat, (alloc_inode (free_inode (alloc_inode (alloc_inode inode_init).2).2 1)).1 = (i : Int) ∧
      i < INODE_COUNT ∧
      (∃ nd, (free_inode (alloc_inode (alloc_inode inode_init).2).2 1).get? i = some nd ∧
        nd.refs = 0) ∧
      (∀ j nd, j < i → (free_inode (alloc_inode (alloc_inode inode_init).2).2 1).get? j = some nd →
        nd.refs ≠ 0) ∧
      (∃ nd, (alloc_inode (free_inode (alloc_inode (alloc_inode inode_init).2).2 1)).2.get? i =
        some nd ∧ nd.refs = 1 ∧ nd.size = 0) ∧
      (∀ j, j ≠ i → (alloc_inode (free_inode (alloc_inode (alloc_inode inode_init).2).2 1)).2.get? j =
        (free_inode (alloc_inode (alloc_inode inode_init).2).2 1).get? j) :=
  alloc_inode_smallest_free _
    (TableReachable.free _ 1 (TableReachable.alloc _ (TableReachable.alloc _ TableReachable.init)))
    ⟨1, inode_zero, by decide!, rfl⟩

/-- C18: when every one of the 128 inodes has `refs != 0`, `alloc_inode()` returns
`-ENOSPC` and leaves the table unchanged; starting from `inode_init()` the first 127
calls of `alloc_inode()` return 1, 2, ..., 127 in this order and the 128th call
returns `-ENOSPC`. -/
theorem alloc_inode_table_full (l : List inode_t) (hlen : l.length = INODE_COUNT)
    (hfull : ∀ j nd, l.get? j = some nd → nd.refs ≠ 0) :
    alloc_inode l = (-ENOSPC, l) ∧
    (alloc_inode_times 128 inode_init).1 = (List.range' 1 127).map Int.ofNat ++ [-ENOSPC] := by
  refine ⟨?_, by decide!⟩
  rcases alloc_inode_spec l hlen with ⟨e, _⟩ | ⟨i, nd, _, _, hget, hz, _⟩
  · exact e
  · exact absurd hz (hfull i nd hget)

theorem alloc_inode_table_full_witness :
    alloc_inode (List.replicate 128 ⟨1, 0, 0, 0⟩) = (-ENOSPC, List.replicate 128 ⟨1, 0, 0, 0⟩) ∧
    (alloc_inode_times 128 inode_init).1 = (List.range' 1 127).map Int.ofNat ++ [-ENOSPC] :=
  alloc_inode_table_full (List.replicate 128 ⟨1, 0, 0, 0⟩) (List.length_replicate _ _)
    (fun j nd hj => by
      rw [List.get?_eq_getElem?, List.getElem?_replicate] at hj
      split at hj
      · simp only [Option.some.injEq] at hj
        rw [← hj]; decide
      · simp at hj)

/-- C19, as stated, fails: after `inode_init()` the `block` field of inode 0 is 0,
not -1. -/
theorem inode_init_root_block_not_minus_one :
    (get_inode inode_init 0).map (fun nd => nd.block) = some 0 ∧
    get_inode inode_init 0 ≠ some ⟨1, 0o40755, 0, -1⟩ := by
  decide!

/-- C19, amended: after `inode_init()` inode 0 is `{refs: 1, mode: 040755, size: 0,
block: 0}` and every inode 1..127 is all zeros. -/
theorem inode_init_table :
    inode_init = ⟨1, 0o40755, 0, 0⟩ :: List.replicate 127 inode_zero ∧
    get_inode inode_init 0 = some ⟨1, 0o40755, 0, 0⟩ ∧
    (∀ i : Nat, 1 ≤ i → i < INODE_COUNT → get_inode inode_init i = some inode_zero) := by
  refine ⟨by decide!, by decide!, fun i h1 h2 => ?_⟩
  unfold get_inode
  rw [if_neg (by omega)]
  unfold inode_init
  simp only [Int.toNat_ofNat, List.get?_eq_getElem?, List.getElem?_set]
  rw [if_neg (by omega), List.getElem?_replicate, if_pos h2]

/-! ## Names that are already in a directory -/

theorem dir_find_isSome (d name : List Nat) (n : Nat) : ∀ i0 k : Nat,
    k < n → dir_entry_name d (i0 + k) = name → (dir_find d name i0 n).isSome = true := by
  induction n with
  | zero => intro i0 k hk; omega
  | succ n ih =>
    intro i0 k hk hname
    unfold dir_find
    by_cases h : dir_entry_name d i0 = name
    · rw [if_pos h]; rfl
    · rw [if_neg h]
      cases k with
      | zero => exact absurd hname h
      | succ k =>
        exact ih (i0 + 1) k (by omega) (by rw [← hname]; congr 1; omega)

theorem dir_find_first (d name : List Nat) (n : Nat) : ∀ i0 k : Nat,
    k < n → dir_entry_name d (i0 + k) = name →
    (∀ j, j < k → dir_entry_name d (i0 + j) ≠ name) → dir_find d name i0 n = some (i0 + k) := by
  induction n with
  | zero => intro i0 k hk; omega
  | succ n ih =>
    intro i0 k hk hname hfirst
    unfold dir_find
    cases k with
    | zero => rw [if_pos (by rw [← hname, Nat.add_zero])]; rfl
    | succ k =>
      rw [if_neg (by have := hfirst 0 (by omega); rwa [Nat.add_zero] at this), ih (i0 + 1) k (by omega) (by rw [← hname]; congr 1; omega)
        (fun j hj => by
          have := hfirst (j + 1) (by omega)
          rwa [show i0 + (j + 1) = i0 + 1 + j by omega] at this)]
      congr 1
      omega

/-- C20, as stated, fails: in a full directory (32 entries) that holds the entry
("A", 1), `directory_put(dir, "A", 99)` returns `-ENOSPC`, not `-EEXIST`. -/
theorem directory_put_full_not_eexist :
    dir_entry_count full_dir = 32 ∧ dir_entry_name full_dir 0 = cstr "A" ∧
    dir_entry_inum full_dir 0 = 1 ∧
    directory_put full_dir (cstr "A") 99 = some (-ENOSPC, full_dir) ∧
    directory_put full_dir (cstr "A") 99 ≠ some (-EEXIST, full_dir) := by
  decide!

/-- C20, amended: for every directory with fewer than 32 entries that holds an entry
with the name `name`, `directory_put(dir, name, y)` returns `-EEXIST` and leaves the
directory unchanged, and `directory_lookup(dir, name)` afterwards still returns the
inode number `x` of the first entry with that name. -/
theorem directory_put_existing_name (d name : List Nat) (y : Int) (i : Nat)
    (hn : dir_entry_count d < MAX_ENTRIES) (hi : (i : Int) < dir_entry_count d)
    (hname : dir_entry_name d i = name) :
    directory_put d name y = some (-EEXIST, d) ∧
    ((∀ j, j < i → dir_entry_name d j ≠ name) →
      ∀ p, directory_put d name y = some p → directory_lookup p.2 name = dir_entry_inum d i) := by
  have hin : i < (dir_entry_count d).toNat := by omega
  have hsome := dir_find_isSome d name (dir_entry_count d).toNat 0 i hin
    (by rw [Nat.zero_add]; exact hname)
  have hput : directory_put d name y = some (-EEXIST, d) := by
    unfold directory_put
    simp only
    rw [if_neg (by omega), if_pos hsome]
  refine ⟨hput, fun hfirst p hp => ?_⟩
  rw [hput] at hp
  simp only [Option.some.injEq] at hp
  rw [← hp]
  unfold directory_lookup
  have := dir_find_first d name (dir_entry_count d).toNat 0 i hin
    (by rw [Nat.zero_add]; exact hname) (fun j hj => by rw [Nat.zero_add]; exact hfirst j hj)
  rw [Nat.zero_add] at this
  simp only [this]

theorem directory_put_existing_name_witness :
    directory_put one_entry_dir (cstr "a") 9 = some (-EEXIST, one_entry_dir) ∧
    ((∀ j, j < 0 → dir_entry_name one_entry_dir j ≠ cstr "a") →
      ∀ p, directory_put one_entry_dir (cstr "a") 9 = some p →
        directory_lookup p.2 (cstr "a") = dir_entry_inum one_entry_dir 0) ∧
    dir_entry_inum one_entry_dir 0 = 7 :=
  ⟨(directory_put_existing_name one_entry_dir (cstr "a") 9 0 (by decide!) (by decide!)
      (by decide!)).1,
   (directory_put_existing_name one_entry_dir (cstr "a") 9 0 (by decide!) (by decide!)
      (by decide!)).2, by decide!⟩

/-! ## The block bitmap in reachable states -/

theorem directory_put_root_kept (l : List inode_t) (path : List Nat) (inum : Int) (root : inode_t)
    (r : Int × List Nat)
    (hroot : l.get? 0 = some root) (hwf : inode_wf root) (hrefs : root.refs ≠ 0)
    (hput : directory_put (inodes_bytes l) path inum = some r) :
    ∀ root', (bytes_inodes r.2).get? 0 = some root' →
      root'.size = root.size ∧ root'.block = root.block := by
  have hnorm := bytes_inodes_inodes_bytes_root l root hroot
  have hwf' := hwf
  unfold inode_wf BLOCK_COUNT BLOCK_SIZE at hwf'
  have hsz : toI32 root.size = root.size := toI32_of_range (by omega) (by omega)
  have hbl : toI32 root.block = root.block := toI32_of_range (by omega) (by omega)
  have hn : dir_entry_count (inodes_bytes l) = root.refs := by
    rw [root_entry_count l root hroot, toI32_of_range hwf.2.2.2.2.1 hwf.2.2.2.2.2]
  unfold directory_put at hput
  simp only [hn, MAX_ENTRIES, MAX_NAME_LEN, ENOSPC, EEXIST] at hput
  split at hput
  · simp only [Option.some.injEq] at hput
    subst hput
    intro root' h'
    rw [hnorm] at h'
    simp only [Option.some.injEq] at h'
    rw [← h']
    exact ⟨hsz, hbl⟩
  · split at hput
    · simp only [Option.some.injEq] at hput
      subst hput
      intro root' h'
      rw [hnorm] at h'
      simp only [Option.some.injEq] at h'
      rw [← h']
      exact ⟨hsz, hbl⟩
    · split at hput
      · cases hput
      · rename_i h1 _ h3
        simp only [Option.some.injEq] at hput
        subst hput
        simp only
        obtain ⟨n, hnn⟩ : ∃ n : Nat, root.refs = (n : Int) := ⟨root.refs.toNat, by omega⟩
        rw [hnn] at h3 h1 ⊢
        simp only [Int.toNat_ofNat, Nat.cast_ofNat] at h3 h1 ⊢
        have hn1 : 1 ≤ n := by omega
        have hlen := inodes_bytes_length l
        have hb2 : entry_off n + 32 ≤ (inodes_bytes l).length := by omega
        unfold entry_off at hb2 ⊢
        have hl1 : (wr_bytes (inodes_bytes l) (4 + 32 * n)
            (strncpy_bytes path 27)).length = (inodes_bytes l).length :=
          wr_bytes_length _ _ _ (by rw [strncpy_bytes_length]; omega)
        have hl2 : (wr_bytes (wr_bytes (inodes_bytes l) (4 + 32 * n)
            (strncpy_bytes path 27)) (4 + 32 * n + 28) (int_bytes inum)).length
              = (inodes_bytes l).length := by
          rw [wr_bytes_length _ _ _ (by rw [hl1, int_bytes_length]; omega), hl1]
        have hl3 : (wr_bytes (wr_bytes (wr_bytes (inodes_bytes l) (4 + 32 * n)
            (strncpy_bytes path 27)) (4 + 32 * n + 28) (int_bytes inum)) 0
              (int_bytes ((n : Int) + 1))).length = (inodes_bytes l).length := by
          rw [wr_bytes_length _ _ _ (by rw [hl2, int_bytes_length]; omega), hl2]
        rw [bytes_inodes_get? _ 0 (by omega)]
        intro root' h'
        simp only [Option.some.injEq] at h'
        rw [← h']
        have key : ∀ q, 4 ≤ q → q + 4 ≤ 16 →
            rd32 (wr_bytes (wr_bytes (wr_bytes (inodes_bytes l) (4 + 32 * n)
              (strncpy_bytes path 27)) (4 + 32 * n + 28) (int_bytes inum)) 0
                (int_bytes ((n : Int) + 1))) q = rd32 (inodes_bytes l) q := by
          intro q hq1 hq2
          rw [rd32_wr_bytes_outside _ _ _ _ (by omega) (by rw [int_bytes_length]; omega)]
          rw [rd32_wr_bytes_outside _ _ _ _ (by omega) (by rw [int_bytes_length]; omega)]
          rw [rd32_wr_bytes_outside _ _ _ _ (by omega)
            (by rw [strncpy_bytes_length]; omega)]
        have hfield := bytes_inode_inodes_bytes l 0 root hroot
        unfold bytes_inode at hfield ⊢
        simp only [Nat.mul_zero, Nat.zero_add, inode_t.mk.injEq] at hfield ⊢
        rw [key 8 (by omega) (by omega), key 12 (by omega) (by omega)]
        rw [hfield.2.2.1, hfield.2.2.2]
        exact ⟨hsz, hbl⟩

theorem inode_dir_put_root_kept (s : State) (inodes : List inode_t) (path : List Nat) (inum : Int)
    (root : inode_t) (p : Int × State)
    (hroot : inodes.get? 0 = some root) (hwf : inode_wf root) (hrefs : root.refs ≠ 0)
    (h : inode_dir_put s inodes 0 path inum = some p) :
    p.2.block_bitmap = s.block_bitmap ∧
    ∀ root', p.2.inodes.get? 0 = some root' →
      root'.size = root.size ∧ root'.block = root.block := by
  unfold inode_dir_put at h
  rw [get_inode_zero, hroot] at h
  simp only [Int.toNat_zero, dir_view_zero, dir_store_zero] at h
  cases hput : directory_put (inodes_bytes inodes) path inum with
  | none => simp [hput] at h
  | some r =>
    simp only [hput, Option.some.injEq] at h
    subst h
    exact ⟨rfl, directory_put_root_kept inodes path inum root r hroot hwf hrefs hput⟩

theorem create_root_kept (s : State) (path : List Nat) (inum : Int) (x : inode_t) (p : Int × State)
    (root : inode_t) (hroot : s.inodes.get? 0 = some root) (hwf : inode_wf root)
    (ha : 0 ≤ (alloc_inode s.inodes).1)
    (hx : x.refs = 1 ∧ x.size = 0 ∧ x.block = 0)
    (h : inode_dir_put s ((alloc_inode s.inodes).2.set (alloc_inode s.inodes).1.toNat x) 0 path inum
      = some p) :
    p.2.block_bitmap = s.block_bitmap ∧
    ∀ root', p.2.inodes.get? 0 = some root' → root_kept root root' := by
  obtain ⟨i, hi1, hi2, hi3, hi4⟩ := alloc_inode_ok s.inodes ha
  rw [hi1, hi4] at h
  simp only [Int.toNat_ofNat, modify_set] at h
  by_cases hi0 : i = 0
  · subst hi0
    have := inode_dir_put_root_kept s _ path inum x p
      (by simp only [List.get?_eq_getElem?]; rw [List.getElem?_set_self hi3])
      (by unfold inode_wf BLOCK_COUNT BLOCK_SIZE; rw [hx.1, hx.2.1, hx.2.2]; simp)
      (by rw [hx.1]; decide) h
    refine ⟨this.1, fun root' h' => Or.inr ?_⟩
    have h2 := this.2 root' h'
    rw [h2.1, h2.2]
    exact ⟨hx.2.1, hx.2.2⟩
  · have := inode_dir_put_root_kept s _ path inum root p
      (by
        simp only [List.get?_eq_getElem?] at hroot ⊢
        rw [List.getElem?_set_ne (by omega)]
        exact hroot)
      hwf (alloc_inode_root_busy s.inodes i root hi1 hi0 hroot) h
    exact ⟨this.1, fun root' h' => Or.inl (this.2 root' h')⟩

theorem root_kept_same (s : State) (root : inode_t) (hroot : s.inodes.get? 0 = some root) :
    ∀ root', s.inodes.get? 0 = some root' → root_kept root root' := by
  intro root' h'
  rw [hroot] at h'
  simp only [Option.some.injEq] at h'
  rw [← h']
  exact Or.inl ⟨rfl, rfl⟩

theorem alloc_inode_failed (l : List inode_t) (ha : (alloc_inode l).1 < 0) :
    (alloc_inode l).2 = l := by
  unfold alloc_inode at ha ⊢
  split
  · rename_i i hsc
    rw [hsc] at ha
    simp at ha
    omega
  · rfl

theorem storage_mknod_root_kept (s : State) (path : List Nat) (mode : Int) (p : Int × State)
    (root : inode_t) (hroot : s.inodes.get? 0 = some root) (hwf : inode_wf root)
    (h : storage_mknod s path mode = some p) :
    p.2.block_bitmap = s.block_bitmap ∧
    ∀ root', p.2.inodes.get? 0 = some root' → root_kept root root' := by
  unfold storage_mknod at h
  split at h
  · simp only [Option.some.injEq] at h
    subst h
    exact ⟨rfl, root_kept_same s root hroot⟩
  · simp only at h
    split at h
    · rename_i ha
      simp only [Option.some.injEq] at h
      subst h
      rw [alloc_inode_failed s.inodes ha]
      exact ⟨rfl, root_kept_same s root hroot⟩
    · rename_i ha
      have hroot0 : tree_lookup (cstr "/") = 0 := by decide
      rw [hroot0] at h
      exact create_root_kept s path _ _ p root hroot hwf (by omega) ⟨rfl, rfl, rfl⟩ h

theorem storage_mkdir_root_kept (s : State) (path : List Nat) (mode : Nat) (p : Int × State)
    (root : inode_t) (hroot : s.inodes.get? 0 = some root) (hwf : inode_wf root)
    (h : storage_mkdir s path mode = some p) :
    p.2.block_bitmap = s.block_bitmap ∧
    ∀ root', p.2.inodes.get? 0 = some root' → root_kept root root' := by
  unfold storage_mkdir at h
  split at h
  · simp only [Option.some.injEq] at h
    subst h
    exact ⟨rfl, root_kept_same s root hroot⟩
  · simp only at h
    split at h
    · rename_i ha
      simp only [Option.some.injEq] at h
      subst h
      rw [alloc_inode_failed s.inodes ha]
      exact ⟨rfl, root_kept_same s root hroot⟩
    · rename_i ha
      have hroot0 : tree_lookup (cstr "/") = 0 := by decide
      rw [hroot0] at h
      simp only [lt_self_iff_false, if_false] at h
      exact create_root_kept s path _ _ p root hroot hwf (by omega) ⟨rfl, rfl, rfl⟩ h

theorem storage_unlink_root_kept (s : State) (path : List Nat) (p : Int × State)
    (root : inode_t) (hroot : s.inodes.get? 0 = some root)
    (h : storage_unlink s path = some p) :
    p.2.block_bitmap = s.block_bitmap ∧
    ∀ root', p.2.inodes.get? 0 = some root' → root_kept root root' := by
  unfold storage_unlink at h
  rcases tree_lookup_cases path with ⟨-, hl⟩ | ⟨-, hl⟩
  · have hroot0 : tree_lookup (cstr "/") = 0 := by decide
    have hne : s.inodes ≠ [] := by
      intro h0; rw [h0] at hroot; simp at hroot
    obtain ⟨x, xs, hx⟩ := List.exists_cons_of_ne_nil hne
    have hf : free_inode s.inodes 0 = inode_zero :: xs := by
      rw [hx]; simp [free_inode, INODE_COUNT]
    simp only [hl, lt_self_iff_false, if_false, hroot0, hf, get_inode_zero, List.get?_cons_zero,
      Int.toNat_zero, dir_view_zero, dir_store_zero] at h
    have hc : dir_entry_count (inodes_bytes (inode_zero :: xs)) ≤ 0 := by
      rw [root_entry_count (inode_zero :: xs) inode_zero rfl]
      decide
    rw [directory_delete_empty _ path hc] at h
    simp only [Option.some.injEq] at h
    subst h
    refine ⟨rfl, fun root' h' => Or.inr ?_⟩
    simp only at h'
    rw [bytes_inodes_inodes_bytes_root (inode_zero :: xs) inode_zero rfl] at h'
    simp only [Option.some.injEq] at h'
    rw [← h']
    exact ⟨by decide, by decide⟩
  · simp only [hl] at h
    simp only [Int.reduceNeg, Int.reduceLT, if_true, Option.some.injEq] at h
    subst h
    exact ⟨rfl, root_kept_same s root hroot⟩

theorem storage_rmdir_root_kept (s : State) (path : List Nat) (p : Int × State)
    (root : inode_t) (hroot : s.inodes.get? 0 = some root)
    (h : storage_rmdir s path = some p) :
    p.2.block_bitmap = s.block_bitmap ∧
    ∀ root', p.2.inodes.get? 0 = some root' → root_kept root root' := by
  unfold storage_rmdir at h
  rcases tree_lookup_cases path with ⟨-, hl⟩ | ⟨-, hl⟩
  · have hroot0 : tree_lookup (cstr "/") = 0 := by decide
    simp only [hl, lt_self_iff_false, if_false, hroot0, get_inode_zero, hroot, Int.toNat_zero,
      dir_view_zero, dir_store_zero] at h
    split at h
    · simp only [Option.some.injEq] at h
      subst h
      exact ⟨rfl, root_kept_same s root hroot⟩
    · split at h
      · simp only [Option.some.injEq] at h
        subst h
        exact ⟨rfl, root_kept_same s root hroot⟩
      · rename_i hnil
        have hc : dir_entry_count (inodes_bytes s.inodes) ≤ 0 := by
          rw [← directory_list_eq_nil]
          simpa using hnil
        rw [directory_delete_empty _ path hc] at h
        simp only [Option.some.injEq] at h
        subst h
        refine ⟨rfl, fun root' h' => Or.inr ?_⟩
        simp only at h'
        have hne : bytes_inodes (inodes_bytes s.inodes) ≠ [] := by
          intro h0
          have hlen := congrArg List.length h0
          rw [bytes_inodes_length, inodes_bytes_length] at hlen
          cases hsi : s.inodes with
          | nil => rw [hsi] at hroot; simp at hroot
          | cons x xs => rw [hsi] at hlen; simp at hlen
        obtain ⟨x, xs, hx⟩ := List.exists_cons_of_ne_nil hne
        rw [hx] at h'
        simp [free_inode, INODE_COUNT] at h'
        rw [← h']
        exact ⟨rfl, rfl⟩
  · simp only [hl] at h
    simp only [Int.reduceNeg, Int.reduceLT, if_true, Option.some.injEq] at h
    subst h
    exact ⟨rfl, root_kept_same s root hroot⟩

theorem block_marked_kept (bm : List Nat) (root root' : inode_t) (h : block_marked bm root)
    (hk : root_kept root root') : block_marked bm root' := by
  unfold block_marked at h ⊢
  rcases hk with ⟨h1, h2⟩ | ⟨h1, h2⟩
  · rw [h1, h2]; exact h
  · right; exact ⟨h2, h1⟩

theorem grow_inode_bitmap (node : inode_t) (size : Int) (bm : List Nat) :
    (grow_inode node size bm).2.2 = bm ∨ (grow_inode node size bm).2.2 = (alloc_block bm).2 := by
  unfold grow_inode
  split
  · left; rfl
  · right
    simp only
    split <;> rfl

theorem alloc_block_bitmap_mono (bm : List Nat) (j : Nat) (h : bitmap_get bm j = 1) :
    bitmap_get (alloc_block bm).2 j = 1 := by
  rcases alloc_block_spec bm with ⟨e, _⟩ | ⟨r, e, _, _, _⟩
  · rw [e]; exact h
  · rw [e]; exact bitmap_get_put_mono bm r j h

theorem alloc_block_bitmap_length (bm : List Nat) : (alloc_block bm).2.length = bm.length := by
  rcases alloc_block_spec bm with ⟨e, _⟩ | ⟨r, e, _, _, _⟩
  · rw [e]
  · rw [e]; exact bitmap_put_length bm r 1

theorem alloc_block_marks (bm : List Nat) (hlen : bm.length = BLOCK_COUNT / 8)
    (h : 0 ≤ (alloc_block bm).1) :
    bitmap_get (alloc_block bm).2 (alloc_block bm).1.toNat = 1 := by
  rcases alloc_block_spec bm with ⟨e, _⟩ | ⟨r, e, hr, _, _⟩
  · rw [e] at h; simp at h
  · rw [e]
    simp only [Int.toNat_ofNat]
    rw [bitmap_get_put_self bm r 1 (by rw [hlen]; unfold BLOCK_COUNT at hr ⊢; omega)]
    simp

theorem grow_inode_full_cases (node : inode_t) (size : Int) (bm : List Nat) :
    ((grow_inode node size bm).1 < 0 ∧ (grow_inode node size bm).2.1 = node ∧
        (grow_inode node size bm).2.2 = bm) ∨
    ((grow_inode node size bm).1 = 0 ∧ (grow_inode node size bm).2.1 = node ∧
        (grow_inode node size bm).2.2 = bm ∧ size ≤ node.size) ∨
    ((grow_inode node size bm).1 = 0 ∧
      (grow_inode node size bm).2.1 = { node with block := (alloc_block bm).1, size := size } ∧
      (grow_inode node size bm).2.2 = (alloc_block bm).2 ∧
      0 ≤ (alloc_block bm).1 ∧ (alloc_block bm).1 < BLOCK_COUNT) := by
  unfold grow_inode
  split
  · rename_i hge
    right; left; exact ⟨rfl, rfl, rfl, hge⟩
  · simp only
    split
    · rename_i hneg
      left
      refine ⟨by simp [ENOSPC], rfl, ?_⟩
      rcases alloc_block_spec bm with ⟨e, _⟩ | ⟨r, e, _, _, _⟩
      · rw [e]
      · rw [e] at hneg
        simp only at hneg
        omega
    · rename_i hpos
      right; right
      rcases alloc_block_range bm with h | h
      · rw [h] at hpos; simp at hpos
      · exact ⟨rfl, rfl, rfl, h.1, h.2⟩

theorem write_block_marked (s : State) (node : inode_t) (buf : List Nat) (o : Int) (wr_ok : Bool)
    (p : Int × State) (hroot : s.inodes.get? 0 = some node)
    (hb : 0 ≤ node.block ∧ node.block < BLOCK_COUNT)
    (hm : bitmap_get s.block_bitmap node.block.toNat = 1 ∨
      (node.block = 0 ∧ node.size = 0 ∧ (0 ≤ o → o + buf.length ≤ 1048576 → o + buf.length = 0)))
    (h : write_block s 0 node buf o wr_ok = some p) :
    p.2.block_bitmap = s.block_bitmap ∧
    ∀ root', p.2.inodes.get? 0 = some root' → block_marked s.block_bitmap root' := by
  unfold write_block at h
  have hbase : blocks_get_block node.block = some (node.block.toNat * BLOCK_SIZE) := by
    unfold blocks_get_block
    rw [if_neg (by omega)]
  rw [hbase] at h
  simp only at h
  split at h
  · cases h
  · rename_i hbound
    have hbt : ((node.block.toNat * BLOCK_SIZE : Nat) : Int) = node.block * 4096 := by
      unfold BLOCK_SIZE
      push_cast
      rw [Int.toNat_of_nonneg hb.1]
    rw [hbt] at hbound
    unfold BLOCK_COUNT BLOCK_SIZE at hbound
    push_cast at hbound
    cases wr_ok with
    | false =>
      simp only [Bool.not_false, if_true, Option.some.injEq] at h
      subst h
      refine ⟨rfl, fun root' h' => ?_⟩
      simp only at h'
      rw [hroot] at h'
      simp only [Option.some.injEq] at h'
      rw [← h']
      rcases hm with hm | ⟨hm1, hm2, _⟩
      · exact Or.inl hm
      · exact Or.inr ⟨hm1, hm2⟩
    | true =>
      simp only [Bool.not_true, Bool.false_eq_true, if_false, Option.some.injEq] at h
      subst h
      refine ⟨rfl, fun root' h' => ?_⟩
      have hne : s.inodes ≠ [] := by
        intro h0; rw [h0] at hroot; simp at hroot
      obtain ⟨x, xs, hx⟩ := List.exists_cons_of_ne_nil hne
      simp [hx] at h'
      rw [← h']
      rcases hm with hm | ⟨hm1, hm2, hm3⟩
      · exact Or.inl hm
      · right
        refine ⟨hm1, ?_⟩
        simp only
        rw [hm1] at hbound
        rw [hm3 (by omega) (by omega)]
        decide

theorem storage_write_marked (s : State) (path buf : List Nat) (o : Int) (wr_ok : Bool)
    (p : Int × State) (hs : root_wf s) (hm : root_marked s)
    (h : storage_write s path buf o wr_ok = some p) :
    root_marked p.2 ∧
    ∀ j, bitmap_get s.block_bitmap j = 1 → bitmap_get p.2.block_bitmap j = 1 := by
  unfold storage_write at h
  rcases tree_lookup_cases path with ⟨-, hl⟩ | ⟨-, hl⟩
  · obtain ⟨root, hroot, hwf⟩ := hs
    obtain ⟨hlen, hmark⟩ := hm
    have hmr := hmark root hroot
    have hwf' := hwf
    unfold inode_wf at hwf'
    simp only [hl, lt_self_iff_false, if_false, get_inode_zero, hroot, Int.toNat_zero] at h
    have hne : s.inodes ≠ [] := by
      intro h0; rw [h0] at hroot; simp at hroot
    obtain ⟨x, xs, hx⟩ := List.exists_cons_of_ne_nil hne
    have hxr : x = root := by
      rw [hx] at hroot; simpa using hroot
    split at h
    · rcases grow_inode_full_cases root (toI32 (o + buf.length)) s.block_bitmap with
        ⟨g1, g2, g3⟩ | ⟨g1, g2, g3, g4⟩ | ⟨g1, g2, g3, g4, g5⟩
      · rw [if_pos g1] at h
        simp only [Option.some.injEq] at h
        subst h
        simp only [g2, g3]
        refine ⟨⟨hlen, fun root' h' => ?_⟩, fun j hj => hj⟩
        have : root' = root := by
          simp [hx, hxr] at h'
          exact h'.symm
        rw [this]; exact hmr
      · rw [if_neg (by omega)] at h
        rw [g2, g3] at h
        have := write_block_marked _ root buf o wr_ok p (by simp [hx]) ⟨hwf'.1, hwf'.2.1⟩
          (by
            rcases hmr with hmr | ⟨hm1, hm2⟩
            · exact Or.inl hmr
            · refine Or.inr ⟨hm1, hm2, fun h1 h2 => ?_⟩
              rw [hm2, toI32_of_range (by omega) (by omega)] at g4
              omega) h
        simp only at this
        unfold root_marked
        rw [this.1]
        exact ⟨⟨hlen, this.2⟩, fun j hj => hj⟩
      · rw [if_neg (by omega)] at h
        rw [g2, g3] at h
        have := write_block_marked _
          { root with block := (alloc_block s.block_bitmap).1, size := toI32 (o + buf.length) }
          buf o wr_ok p (by simp [hx]) ⟨g4, g5⟩
          (Or.inl (alloc_block_marks s.block_bitmap hlen g4)) h
        simp only at this
        unfold root_marked
        rw [this.1]
        exact ⟨⟨by rw [alloc_block_bitmap_length]; exact hlen, this.2⟩,
          fun j hj => alloc_block_bitmap_mono s.block_bitmap j hj⟩
    · rename_i hnogrow
      have := write_block_marked s root buf o wr_ok p hroot ⟨hwf'.1, hwf'.2.1⟩
        (by
          rcases hmr with hmr | ⟨hm1, hm2⟩
          · exact Or.inl hmr
          · refine Or.inr ⟨hm1, hm2, fun h1 h2 => ?_⟩
            have e := toU64_of_range (x := o + buf.length) (by omega) (by omega)
            have e0 : toU64 0 = 0 := by decide
            rw [hm2, e0] at hnogrow
            omega) h
      unfold root_marked
      rw [this.1]
      exact ⟨⟨hlen, this.2⟩, fun j hj => hj⟩
  · simp only [hl] at h
    simp only [Int.reduceNeg, Int.reduceLT, if_true, Option.some.injEq] at h
    subst h
    exact ⟨hm, fun j hj => hj⟩

theorem storage_init_root_marked (old : Option (Nat → Nat)) (file : List Nat) (pread_ok : Bool)
    (s : State) (h : storage_init old file pread_ok = some s) : root_marked s := by
  unfold storage_init at h
  cases pread_ok with
  | false => simp at h
  | true =>
    simp only [Bool.not_true, Bool.false_eq_true, if_false, Option.some.injEq] at h
    subst h
    refine ⟨by simp [blocks_init], fun root h' => Or.inr ?_⟩
    have : root = ⟨1, 0o40755, 0, 0⟩ := by
      have h0 : inode_init.get? 0 = some ⟨1, 0o40755, 0, 0⟩ := rfl
      simp only at h'
      rw [h0] at h'
      simp only [Option.some.injEq] at h'
      exact h'.symm
    rw [this]
    exact ⟨rfl, rfl⟩

theorem root_marked_of_kept (s : State) (p : Int × State) (hs : root_wf s) (hm : root_marked s)
    (hk : p.2.block_bitmap = s.block_bitmap ∧
      ∀ root root', s.inodes.get? 0 = some root → p.2.inodes.get? 0 = some root' →
        root_kept root root') : root_marked p.2 := by
  obtain ⟨root, hroot, _⟩ := hs
  unfold root_marked
  rw [hk.1]
  exact ⟨hm.1, fun root' h' => block_marked_kept _ root root' (hm.2 root hroot)
    (hk.2 root root' hroot h')⟩

/-- In every reachable state the bitmap has 256 bits and the bit of the root
record's block is set, unless the root record has no block yet. -/
theorem reachable_root_marked (s : State) (h : Reachable s) : root_marked s := by
  induction h with
  | init old file pread_ok s h => exact storage_init_root_marked old file pread_ok s h
  | write s path buf offset wr_ok p hr h ih =>
    exact (storage_write_marked s path buf offset wr_ok p (reachable_root_wf s hr) ih h).1
  | mknod s path mode p hr h ih =>
    have hw := reachable_root_wf s hr
    obtain ⟨root, hroot, hwf⟩ := hw
    have hk := storage_mknod_root_kept s path mode p root hroot hwf h
    exact root_marked_of_kept s p ⟨root, hroot, hwf⟩ ih ⟨hk.1, fun r r' hr0 hr1 => by
      rw [hroot] at hr0
      simp only [Option.some.injEq] at hr0
      rw [← hr0]; exact hk.2 r' hr1⟩
  | mkdir s path mode p hr h ih =>
    have hw := reachable_root_wf s hr
    obtain ⟨root, hroot, hwf⟩ := hw
    have hk := storage_mkdir_root_kept s path mode p root hroot hwf h
    exact root_marked_of_kept s p ⟨root, hroot, hwf⟩ ih ⟨hk.1, fun r r' hr0 hr1 => by
      rw [hroot] at hr0
      simp only [Option.some.injEq] at hr0
      rw [← hr0]; exact hk.2 r' hr1⟩
  | unlink s path p hr h ih =>
    have hw := reachable_root_wf s hr
    obtain ⟨root, hroot, hwf⟩ := hw
    have hk := storage_unlink_root_kept s path p root hroot h
    exact root_marked_of_kept s p ⟨root, hroot, hwf⟩ ih ⟨hk.1, fun r r' hr0 hr1 => by
      rw [hroot] at hr0
      simp only [Option.some.injEq] at hr0
      rw [← hr0]; exact hk.2 r' hr1⟩
  | rmdir s path p hr h ih =>
    have hw := reachable_root_wf s hr
    obtain ⟨root, hroot, hwf⟩ := hw
    have hk := storage_rmdir_root_kept s path p root hroot h
    exact root_marked_of_kept s p ⟨root, hroot, hwf⟩ ih ⟨hk.1, fun r r' hr0 hr1 => by
      rw [hroot] at hr0
      simp only [Option.some.injEq] at hr0
      rw [← hr0]; exact hk.2 r' hr1⟩

theorem reachable_hi_state : Reachable hi_state :=
  Reachable.write (init_state []) (cstr "/") (cstr "hi") 0 true (2, hi_state)
    (Reachable.init none [] true (init_state []) rfl) rfl

theorem bytes_inodes_inodes_bytes (l : List inode_t) :
    bytes_inodes (inodes_bytes l) = l.map inode_reload := by
  apply List.ext_get?
  intro i
  by_cases hi : i < l.length
  · have hlen := inodes_bytes_length l
    rw [bytes_inodes_get? _ i (by omega)]
    obtain ⟨nd, hnd⟩ : ∃ nd, l.get? i = some nd := ⟨l.get ⟨i, hi⟩, List.get?_eq_get hi⟩
    rw [bytes_inode_inodes_bytes l i nd hnd, List.get?_eq_getElem?, List.getElem?_map,
      ← List.get?_eq_getElem?, hnd]
    rfl
  · rw [List.get?_eq_none.mpr (by rw [bytes_inodes_length, inodes_bytes_length]; omega),
      List.get?_eq_none.mpr (by rw [List.length_map]; omega)]

theorem storage_unlink_root (s : State) (x : inode_t) (xs : List inode_t)
    (hx : s.inodes = x :: xs) :
    storage_unlink s (cstr "/") = some (-ENOENT,
      { s with inodes := (inode_zero :: xs).map inode_reload }) := by
  unfold storage_unlink
  have hroot0 : tree_lookup (cstr "/") = 0 := by decide
  have hf : free_inode s.inodes 0 = inode_zero :: xs := by
    rw [hx]; simp [free_inode, INODE_COUNT]
  simp only [lt_self_iff_false, if_false, hroot0, hf, get_inode_zero, List.get?_cons_zero,
    Int.toNat_zero, dir_view_zero, dir_store_zero]
  have hc : dir_entry_count (inodes_bytes (inode_zero :: xs)) ≤ 0 := by
    rw [root_entry_count (inode_zero :: xs) inode_zero rfl]
    decide
  rw [directory_delete_empty _ (cstr "/") hc]
  simp only
  rw [bytes_inodes_inodes_bytes]

theorem unlink_hi_state_eval :
    (storage_unlink hi_state (cstr "/")).map
      (fun p => (p.1, p.2.inodes.get? 0, bitmap_get p.2.block_bitmap 0, block_owners p.2.inodes 0))
      = some (-ENOENT, some inode_zero, 1, 0) := by
  rw [storage_unlink_root hi_state ⟨1, 0o40755, 2, 0⟩ (List.replicate 127 inode_zero) (by decide!)]
  decide!

theorem write_hi_state_eval :
    (storage_write hi_state (cstr "/") (cstr "x") 2 true).map
      (fun p => (p.1, p.2.inodes.get? 0, bitmap_get p.2.block_bitmap 0, block_owners p.2.inodes 0))
      = some (1, some ⟨1, 0o40755, 3, 1⟩, 1, 0) := by
  decide!

theorem hi_state_block_zero :
    bitmap_get hi_state.block_bitmap 0 = 1 ∧ block_owners hi_state.inodes 0 = 1 := by
  decide!

/-- C11, as stated, fails.  After `storage_write("/", "hi", 2, 0)` on a fresh engine
bit 0 is set and block 0 is the data block of one live inode (the root).  After
`storage_unlink("/")` the root record is freed and bit 0 is still set, although
block 0 is the data block of no live inode: the block was not released.  After a
second write that extends the root to 3 bytes instead, the root has block 1 and
bit 0 is still set with no live inode on block 0. -/
theorem block_bit_outlives_its_inode :
    bitmap_get hi_state.block_bitmap 0 = 1 ∧ block_owners hi_state.inodes 0 = 1 ∧
    (storage_unlink hi_state (cstr "/")).map
      (fun p => (p.1, p.2.inodes.get? 0, bitmap_get p.2.block_bitmap 0, block_owners p.2.inodes 0))
      = some (-ENOENT, some inode_zero, 1, 0) ∧
    (storage_write hi_state (cstr "/") (cstr "x") 2 true).map
      (fun p => (p.1, p.2.inodes.get? 0, bitmap_get p.2.block_bitmap 0, block_owners p.2.inodes 0))
      = some (1, some ⟨1, 0o40755, 3, 1⟩, 1, 0) ∧
    (∃ s, Reachable s ∧ bitmap_get s.block_bitmap 0 = 1 ∧ block_owners s.inodes 0 = 0) := by
  have hu := unlink_hi_state_eval
  have hex : ∀ o : Option (Int × State),
      o.map (fun p => (p.1, p.2.inodes.get? 0, bitmap_get p.2.block_bitmap 0,
        block_owners p.2.inodes 0)) = some (-ENOENT, some inode_zero, 1, 0) →
      ∃ p, o = some p ∧ bitmap_get p.2.block_bitmap 0 = 1 ∧ block_owners p.2.inodes 0 = 0 := by
    intro o ho
    cases o with
    | none => simp at ho
    | some p =>
      simp only [Option.map_some', Option.some.injEq, Prod.mk.injEq] at ho
      exact ⟨p, rfl, ho.2.2.1, ho.2.2.2⟩
  obtain ⟨p, hp, h1, h2⟩ := hex _ hu
  exact ⟨hi_state_block_zero.1, hi_state_block_zero.2, hu, write_hi_state_eval,
    p.2, Reachable.unlink hi_state (cstr "/") p reachable_hi_state hp, h1, h2⟩

/-- C11, amended: no operation releases a block.  In every reachable state the bit
of the root inode's block is 1 whenever the root inode has `size > 0`; a
`storage_write` leaves every set bit set; and `storage_mknod`, `storage_mkdir`,
`storage_unlink` and `storage_rmdir` leave the bitmap unchanged, so removing a
file does not release its block. -/
theorem block_bitmap_never_released (s : State) (hs : Reachable s) :
    (∀ root, s.inodes.get? 0 = some root → 0 < root.size →
      bitmap_get s.block_bitmap root.block.toNat = 1) ∧
    (∀ path buf offset wr_ok p, storage_write s path buf offset wr_ok = some p →
      ∀ j, bitmap_get s.block_bitmap j = 1 → bitmap_get p.2.block_bitmap j = 1) ∧
    (∀ path mode p, storage_mknod s path mode = some p → p.2.block_bitmap = s.block_bitmap) ∧
    (∀ path mode p, storage_mkdir s path mode = some p → p.2.block_bitmap = s.block_bitmap) ∧
    (∀ path p, storage_unlink s path = some p → p.2.block_bitmap = s.block_bitmap) ∧
    (∀ path p, storage_rmdir s path = some p → p.2.block_bitmap = s.block_bitmap) := by
  have hw := reachable_root_wf s hs
  have hm := reachable_root_marked s hs
  obtain ⟨root, hroot, hwf⟩ := hw
  refine ⟨fun r hr hsz => ?_, fun path buf o w p h => ?_, fun path mode p h => ?_,
    fun path mode p h => ?_, fun path p h => ?_, fun path p h => ?_⟩
  · rcases hm.2 r hr with h1 | ⟨_, h2⟩
    · exact h1
    · omega
  · exact (storage_write_marked s path buf o w p ⟨root, hroot, hwf⟩ hm h).2
  · exact (storage_mknod_root_kept s path mode p root hroot hwf h).1
  · exact (storage_mkdir_root_kept s path mode p root hroot hwf h).1
  · exact (storage_unlink_root_kept s path p root hroot h).1
  · exact (storage_rmdir_root_kept s path p root hroot h).1

theorem block_bitmap_never_released_witness :
    Reachable hi_state ∧ bitmap_get hi_state.block_bitmap (0 : Int).toNat = 1 ∧
    (∀ path p, storage_unlink hi_state path = some p →
      p.2.block_bitmap = hi_state.block_bitmap) :=
  ⟨reachable_hi_state,
   (block_bitmap_never_released hi_state reachable_hi_state).1 ⟨1, 0o40755, 2, 0⟩ (by decide!)
     (by decide),
   (block_bitmap_never_released hi_state reachable_hi_state).2.2.2.2.1⟩

/-! ## Strings and integers in memory -/

theorem c_string_step (m : List Nat) (p : Nat) :
    c_string m p = if m.getD p 0 = 0 then [] else m.getD p 0 :: c_string m (p + 1) := by
  unfold c_string
  by_cases hp : p < m.length
  · rw [List.drop_eq_getElem_cons hp, List.getD_eq_getElem _ _ hp, List.takeWhile_cons]
    by_cases h0 : m[p] = 0
    · simp [h0]
    · simp [h0]
  · rw [List.drop_eq_nil_of_le (by omega), List.getD_eq_default _ _ (by omega)]
    simp

theorem c_string_congr (L : Nat) : ∀ (m1 m2 : List Nat) (p1 p2 : Nat),
    m1.getD (p1 + L) 0 = 0 → (∀ t, t ≤ L → m1.getD (p1 + t) 0 = m2.getD (p2 + t) 0) →
    c_string m1 p1 = c_string m2 p2 := by
  induction L with
  | zero =>
    intro m1 m2 p1 p2 hz hag
    have h2 := hag 0 (le_refl _)
    simp only [Nat.add_zero] at hz h2
    rw [c_string_step m1 p1, c_string_step m2 p2, ← h2, hz]
    simp
  | succ L ih =>
    intro m1 m2 p1 p2 hz hag
    have h2 := hag 0 (Nat.zero_le _)
    simp only [Nat.add_zero] at h2
    rw [c_string_step m1 p1, c_string_step m2 p2, ← h2]
    by_cases h0 : m1.getD p1 0 = 0
    · rw [if_pos h0, if_pos h0]
    · rw [if_neg h0, if_neg h0]
      congr 1
      apply ih
      · rw [← hz]; congr 1; omega
      · intro t ht
        have := hag (t + 1) (by omega)
        rw [show p1 + (t + 1) = p1 + 1 + t by omega, show p2 + (t + 1) = p2 + 1 + t by omega] at this
        exact this

theorem c_string_eq (name : List Nat) : ∀ (m : List Nat) (p : Nat),
    (∀ b, b ∈ name → b ≠ 0) → (∀ t, t < name.length → m.getD (p + t) 0 = name.getD t 0) →
    m.getD (p + name.length) 0 = 0 → c_string m p = name := by
  induction name with
  | nil =>
    intro m p _ _ hz
    simp only [List.length_nil, Nat.add_zero] at hz
    rw [c_string_step, if_pos hz]
  | cons b rest ih =>
    intro m p hnz hag hz
    have h0 := hag 0 (by simp)
    simp only [Nat.add_zero, List.getD_cons_zero] at h0
    rw [c_string_step, h0, if_neg (hnz b (by simp))]
    congr 1
    apply ih
    · exact fun x hx => hnz x (List.mem_cons_of_mem _ hx)
    · intro t ht
      have := hag (t + 1) (by simp only [List.length_cons]; omega)
      rw [show p + (t + 1) = p + 1 + t by omega] at this
      simpa using this
    · rw [← hz]; congr 1; simp only [List.length_cons]; omega

theorem c_string_length_le (L : Nat) : ∀ (m : List Nat) (p : Nat),
    m.getD (p + L) 0 = 0 → (c_string m p).length ≤ L := by
  induction L with
  | zero =>
    intro m p hz
    simp only [Nat.add_zero] at hz
    rw [c_string_step, if_pos hz]
    simp
  | succ L ih =>
    intro m p hz
    rw [c_string_step]
    by_cases h0 : m.getD p 0 = 0
    · rw [if_pos h0]; simp
    · rw [if_neg h0]
      have := ih m (p + 1) (by rw [← hz]; congr 1; omega)
      simp only [List.length_cons]
      omega

theorem c_string_no_nul (m : List Nat) (p : Nat) : ∀ b, b ∈ c_string m p → b ≠ 0 := by
  intro b hb
  unfold c_string at hb
  have := List.mem_takeWhile_imp hb
  simpa using this

theorem rd32_congr (m1 m2 : List Nat) (p1 p2 : Nat)
    (h : ∀ t, t < 4 → m1.getD (p1 + t) 0 = m2.getD (p2 + t) 0) : rd32 m1 p1 = rd32 m2 p2 := by
  unfold rd32
  have h0 := h 0 (by omega)
  simp only [Nat.add_zero] at h0
  rw [h0, h 1 (by omega), h 2 (by omega), h 3 (by omega)]

theorem rd32_wr_int_bytes_at (m : List Nat) (p : Nat) (x : Int) (h : p + 4 ≤ m.length) :
    rd32 (wr_bytes m p (int_bytes x)) p = toI32 x := by
  unfold rd32
  have g := fun j hj => wr_bytes_getD_inside m p (int_bytes x) j (by omega) hj
  have hl := int_bytes_length x
  have h0 := g 0 (by omega); have h1 := g 1 (by omega)
  have h2 := g 2 (by omega); have h3 := g 3 (by omega)
  simp only [Nat.add_zero] at h0
  rw [h0, h1, h2, h3]
  exact le32_int_bytes x

theorem strncpy_bytes_getD (src : List Nat) (n t : Nat) (ht : t < n) :
    (strncpy_bytes src n).getD t 0 = src.getD t 0 := by
  unfold strncpy_bytes
  by_cases hl : t < src.length
  · rw [List.getD_append _ _ _ _ (by rw [List.length_take]; omega)]
    simp only [List.getD_eq_getElem?_getD, List.getElem?_take, ht, if_true]
  · rw [List.getD_append_right _ _ _ _ (by rw [List.length_take]; omega)]
    rw [List.getD_eq_default src _ (by omega)]
    simp only [List.getD_eq_getElem?_getD, List.getElem?_replicate]
    split <;> rfl

/-! ## What `directory_put` stores -/

theorem dir_find_none (d name : List Nat) (n : Nat) : ∀ i0 : Nat,
    (∀ j, j < n → dir_entry_name d (i0 + j) ≠ name) → dir_find d name i0 n = none := by
  induction n with
  | zero => intro i0 _; rfl
  | succ n ih =>
    intro i0 h
    unfold dir_find
    rw [if_neg (by have := h 0 (by omega); rwa [Nat.add_zero] at this)]
    exact ih (i0 + 1) (fun j hj => by
      have := h (j + 1) (by omega)
      rwa [show i0 + (j + 1) = i0 + 1 + j by omega] at this)

theorem dir_find_some (d name : List Nat) (n : Nat) : ∀ i0 r : Nat,
    dir_find d name i0 n = some r →
    i0 ≤ r ∧ r < i0 + n ∧ dir_entry_name d r = name ∧
      ∀ j, i0 ≤ j → j < r → dir_entry_name d j ≠ name := by
  induction n with
  | zero => intro i0 r h; simp [dir_find] at h
  | succ n ih =>
    intro i0 r h
    unfold dir_find at h
    by_cases h0 : dir_entry_name d i0 = name
    · rw [if_pos h0] at h
      simp only [Option.some.injEq] at h
      subst h
      exact ⟨le_refl _, by omega, h0, fun j h1 h2 => by omega⟩
    · rw [if_neg h0] at h
      obtain ⟨h1, h2, h3, h4⟩ := ih (i0 + 1) r h
      refine ⟨by omega, by omega, h3, fun j hj1 hj2 => ?_⟩
      by_cases hji : j = i0
      · rw [hji]; exact h0
      · exact h4 j (by omega) hj2

theorem dir_find_none_iff (d name : List Nat) (n : Nat) (h : dir_find d name 0 n = none) :
    ∀ j, j < n → dir_entry_name d j ≠ name := by
  intro j hj hname
  have := dir_find_isSome d name n 0 j hj (by rw [Nat.zero_add]; exact hname)
  rw [h] at this
  simp at this

theorem directory_put_cases (d name : List Nat) (inum : Int) (p : Int × List Nat)
    (h : directory_put d name inum = some p) :
    (p = (-ENOSPC, d) ∧ MAX_ENTRIES ≤ dir_entry_count d) ∨
    (p = (-EEXIST, d) ∧ dir_entry_count d < MAX_ENTRIES ∧
      (dir_find d name 0 (dir_entry_count d).toNat).isSome = true) ∨
    (p.1 = 0 ∧ 0 ≤ dir_entry_count d ∧ dir_entry_count d < MAX_ENTRIES ∧
      dir_find d name 0 (dir_entry_count d).toNat = none ∧
      entry_off (dir_entry_count d).toNat + 32 ≤ d.length) := by
  unfold directory_put at h
  simp only at h
  split at h
  · rename_i h1
    simp only [Option.some.injEq] at h
    exact Or.inl ⟨h.symm, h1⟩
  · rename_i h1
    split at h
    · rename_i h2
      simp only [Option.some.injEq] at h
      exact Or.inr (Or.inl ⟨h.symm, by omega, h2⟩)
    · rename_i h2
      split at h
      · cases h
      · rename_i h3
        simp only [Option.some.injEq] at h
        refine Or.inr (Or.inr ⟨by rw [← h], by omega, by omega, ?_, by omega⟩)
        cases hf : dir_find d name 0 (dir_entry_count d).toNat with
        | none => rfl
        | some r => rw [hf] at h2; simp at h2

theorem directory_put_stores (d name : List Nat) (inum : Int) (n : Nat)
    (hn : dir_entry_count d = (n : Int)) (h32 : n < MAX_ENTRIES)
    (hlen : entry_off n + 32 ≤ d.length) (hnew : dir_find d name 0 n = none) :
    ∃ d3, directory_put d name inum = some (0, d3) ∧ d3.length = d.length ∧
      (∀ q, 4 ≤ q → (q < entry_off n ∨ q = entry_off n + 27 ∨ entry_off n + 32 ≤ q) →
        d3.getD q 0 = d.getD q 0) ∧
      (∀ t, t < 27 → d3.getD (entry_off n + t) 0 = name.getD t 0) ∧
      rd32 d3 0 = (n : Int) + 1 ∧ rd32 d3 (entry_off n + 28) = toI32 inum := by
  unfold MAX_ENTRIES at h32
  have hl1 : (wr_bytes d (entry_off n) (strncpy_bytes name 27)).length = d.length :=
    wr_bytes_length _ _ _ (by rw [strncpy_bytes_length]; omega)
  have hl2 : (wr_bytes (wr_bytes d (entry_off n) (strncpy_bytes name 27)) (entry_off n + 28)
      (int_bytes inum)).length = d.length := by
    rw [wr_bytes_length _ _ _ (by rw [hl1, int_bytes_length]; omega), hl1]
  have hl3 : (wr_bytes (wr_bytes (wr_bytes d (entry_off n) (strncpy_bytes name 27))
      (entry_off n + 28) (int_bytes inum)) 0 (int_bytes ((n : Int) + 1))).length = d.length := by
    rw [wr_bytes_length _ _ _ (by rw [hl2, int_bytes_length]; unfold entry_off at hlen; omega), hl2]
  have hoff : 4 ≤ entry_off n := by unfold entry_off; omega
  refine ⟨_, ?_, hl3, ?_, ?_, ?_, ?_⟩
  · unfold directory_put
    simp only [hn, Int.toNat_ofNat, hnew, MAX_ENTRIES, MAX_NAME_LEN]
    rw [if_neg (by omega), if_neg (by simp), if_neg (by omega)]
  · intro q hq4 hq
    rw [wr_bytes_getD_outside _ _ _ _ (by omega) (by rw [int_bytes_length]; omega)]
    rw [wr_bytes_getD_outside _ _ _ _ (by omega) (by rw [int_bytes_length]; omega)]
    rw [wr_bytes_getD_outside _ _ _ _ (by omega) (by rw [strncpy_bytes_length]; omega)]
  · intro t ht
    rw [wr_bytes_getD_outside _ _ _ _ (by omega) (by rw [int_bytes_length]; omega)]
    rw [wr_bytes_getD_outside _ _ _ _ (by omega) (by omega)]
    rw [wr_bytes_getD_inside _ _ _ _ (by omega) (by rw [strncpy_bytes_length]; omega)]
    exact strncpy_bytes_getD name 27 t ht
  · rw [rd32_wr_int_bytes_at _ _ _ (by omega)]
    exact toI32_of_range (by omega) (by omega)
  · rw [rd32_wr_bytes_outside _ _ _ _ (by omega) (by rw [int_bytes_length]; omega)]
    exact rd32_wr_int_bytes_at _ _ _ (by omega)

theorem dir_wf_entry_name (d1 d2 : List Nat) (i j : Nat)
    (hpad : d1.getD (entry_off i + 27) 0 = 0)
    (h : ∀ t, t < 32 → d1.getD (entry_off i + t) 0 = d2.getD (entry_off j + t) 0) :
    dir_entry_name d1 i = dir_entry_name d2 j ∧ dir_entry_inum d1 i = dir_entry_inum d2 j := by
  constructor
  · exact c_string_congr 27 d1 d2 _ _ hpad (fun t ht => h t (by omega))
  · apply rd32_congr
    intro t ht
    have := h (28 + t) (by omega)
    rw [show entry_off i + 28 + t = entry_off i + (28 + t) by omega,
      show entry_off j + 28 + t = entry_off j + (28 + t) by omega]
    exact this

theorem dir_wf_name_length (d : List Nat) (i : Nat) (hwf : dir_wf d) (hi : i < MAX_ENTRIES) :
    (dir_entry_name d i).length ≤ 27 :=
  c_string_length_le 27 d _ (hwf.2.2.2 i hi)

theorem directory_put_spec (d name : List Nat) (inum : Int) (n : Nat) (hwf : dir_wf d)
    (hn : dir_entry_count d = (n : Int)) (h32 : n < MAX_ENTRIES)
    (hnew : dir_find d name 0 n = none) :
    ∃ d3, directory_put d name inum = some (0, d3) ∧ dir_wf d3 ∧
      dir_entry_count d3 = (n : Int) + 1 ∧
      (∀ j, j < MAX_ENTRIES → j ≠ n →
        dir_entry_name d3 j = dir_entry_name d j ∧ dir_entry_inum d3 j = dir_entry_inum d j) ∧
      ((∀ b, b ∈ name → b ≠ 0) → dir_entry_name d3 n = name.take MAX_NAME_LEN) ∧
      dir_entry_inum d3 n = toI32 inum := by
  obtain ⟨hlen, hc0, hc32, hpad⟩ := hwf
  have hlen' : entry_off n + 32 ≤ d.length := by
    unfold MAX_ENTRIES at hlen h32; unfold entry_off; omega
  obtain ⟨d3, hput, hl3, hout, hin, hcnt, hinum⟩ :=
    directory_put_stores d name inum n hn h32 hlen' hnew
  have hoff : ∀ j, entry_off j = 4 + 32 * j := fun j => rfl
  have hpad3 : ∀ i, i < MAX_ENTRIES → d3.getD (entry_off i + 27) 0 = 0 := by
    intro i hi
    rw [hout _ (by rw [hoff]; omega) (by rw [hoff, hoff]; omega)]
    exact hpad i hi
  refine ⟨d3, hput, ⟨by rw [hl3]; exact hlen, ?_, ?_, hpad3⟩, hcnt, ?_, ?_, hinum⟩
  · unfold dir_entry_count; rw [hcnt]; omega
  · unfold dir_entry_count; rw [hcnt]; unfold MAX_ENTRIES at h32 ⊢; omega
  · intro j hj hjn
    apply dir_wf_entry_name d3 d j j (hpad3 j hj)
    intro t ht
    exact hout _ (by rw [hoff]; omega) (by rw [hoff, hoff]; omega)
  · intro hnz
    unfold dir_entry_name
    apply c_string_eq
    · exact fun b hb => hnz b (List.mem_of_mem_take hb)
    · intro t ht
      have ht27 : t < 27 := by
        rw [List.length_take] at ht; unfold MAX_NAME_LEN at ht; omega
      rw [hin t ht27]
      simp only [List.getD_eq_getElem?_getD, List.getElem?_take, MAX_NAME_LEN, ht27, if_true]
    · rw [List.length_take]
      unfold MAX_NAME_LEN
      by_cases hl : name.length < 27
      · rw [Nat.min_eq_right (by omega), hin _ hl]
        exact List.getD_eq_default _ _ (le_refl _)
      · rw [Nat.min_eq_left (by omega)]
        exact hpad3 n h32

theorem directory_put_wf (d name : List Nat) (inum : Int) (p : Int × List Nat) (hwf : dir_wf d)
    (h : directory_put d name inum = some p) : dir_wf p.2 := by
  rcases directory_put_cases d name inum p h with ⟨e, _⟩ | ⟨e, _⟩ | ⟨_, h0, h32, hnew, _⟩
  · rw [e]; exact hwf
  · rw [e]; exact hwf
  · obtain ⟨n, hn⟩ : ∃ n : Nat, dir_entry_count d = (n : Int) :=
      ⟨(dir_entry_count d).toNat, by omega⟩
    rw [hn] at hnew h32
    simp only [Int.toNat_ofNat] at hnew
    obtain ⟨d3, hput, hwf3, _⟩ := directory_put_spec d name inum n hwf hn (by omega) hnew
    rw [hput] at h
    simp only [Option.some.injEq] at h
    rw [← h]
    exact hwf3

/-! ## What `directory_delete` stores -/

theorem dir_find_eq_some (d name : List Nat) (n k : Nat) (hk : k < n)
    (hname : dir_entry_name d k = name) (hfirst : ∀ j, j < k → dir_entry_name d j ≠ name) :
    dir_find d name 0 n = some k := by
  have := dir_find_first d name n 0 k hk (by rw [Nat.zero_add]; exact hname)
    (fun j hj => by rw [Nat.zero_add]; exact hfirst j hj)
  rwa [Nat.zero_add] at this

theorem dir_find_eq_none (d name : List Nat) (n : Nat)
    (h : ∀ j, j < n → dir_entry_name d j ≠ name) : dir_find d name 0 n = none :=
  dir_find_none d name n 0 (fun j hj => by rw [Nat.zero_add]; exact h j hj)

theorem take_drop_getD (d : List Nat) (a n t : Nat) (ht : t < n) :
    ((d.drop a).take n).getD t 0 = d.getD (a + t) 0 := by
  simp only [List.getD_eq_getElem?_getD, List.getElem?_take, ht, if_true, List.getElem?_drop]

theorem dir_shift_spec (k : Nat) : ∀ (d : List Nat) (j : Nat),
    entry_off (j + k) + 32 ≤ d.length →
    (dir_shift d j k).length = d.length ∧
    ∀ q, (dir_shift d j k).getD q 0 =
      if entry_off j ≤ q ∧ q < entry_off (j + k) then d.getD (q + 32) 0 else d.getD q 0 := by
  induction k with
  | zero =>
    intro d j _
    refine ⟨rfl, fun q => ?_⟩
    rw [if_neg (by simp only [Nat.add_zero]; omega)]
    rfl
  | succ k ih =>
    intro d j hlen
    have hoff : ∀ i, entry_off i = 4 + 32 * i := fun i => rfl
    rw [hoff] at hlen
    have htl : ((d.drop (entry_off (j + 1))).take 32).length = 32 := by
      rw [List.length_take, List.length_drop, hoff]; omega
    have hl1 : (wr_bytes d (entry_off j) ((d.drop (entry_off (j + 1))).take 32)).length
        = d.length := wr_bytes_length _ _ _ (by rw [htl, hoff]; omega)
    obtain ⟨ihl, ihg⟩ := ih (wr_bytes d (entry_off j) ((d.drop (entry_off (j + 1))).take 32))
      (j + 1) (by rw [hl1, hoff]; omega)
    unfold dir_shift
    refine ⟨by rw [ihl, hl1], fun q => ?_⟩
    rw [ihg q]
    have hw : ∀ q', (wr_bytes d (entry_off j) ((d.drop (entry_off (j + 1))).take 32)).getD q' 0
        = if entry_off j ≤ q' ∧ q' < entry_off j + 32 then d.getD (q' + 32) 0
          else d.getD q' 0 := by
      intro q'
      by_cases hq : entry_off j ≤ q' ∧ q' < entry_off j + 32
      · rw [if_pos hq]
        obtain ⟨t, ht⟩ : ∃ t, q' = entry_off j + t := ⟨q' - entry_off j, by omega⟩
        rw [ht, wr_bytes_getD_inside _ _ _ _ (by rw [hoff]; omega) (by rw [htl]; omega),
          take_drop_getD _ _ _ _ (by omega)]
        congr 1
        rw [hoff, hoff]; omega
      · rw [if_neg hq]
        exact wr_bytes_getD_outside _ _ _ _ (by rw [hoff]; omega) (by rw [htl]; omega)
    rw [hw, hw]
    simp only [hoff]
    by_cases h1 : 4 + 32 * (j + 1) ≤ q ∧ q < 4 + 32 * (j + 1 + k)
    · rw [if_pos h1, if_neg (by omega), if_pos (by omega)]
    · rw [if_neg h1]
      by_cases h2 : 4 + 32 * j ≤ q ∧ q < 4 + 32 * j + 32
      · rw [if_pos h2, if_pos (by omega)]
      · rw [if_neg h2, if_neg (by omega)]

theorem directory_delete_absent (d name : List Nat)
    (h : dir_find d name 0 (dir_entry_count d).toNat = none) :
    directory_delete d name = some (-ENOENT, d) := by
  unfold directory_delete
  simp only [h]

theorem directory_delete_stores (d name : List Nat) (n k : Nat)
    (hn : dir_entry_count d = (n : Int)) (h32 : n ≤ MAX_ENTRIES)
    (hlen : entry_off n ≤ d.length) (hfind : dir_find d name 0 n = some k) :
    ∃ d3, directory_delete d name = some (0, d3) ∧ d3.length = d.length ∧
      rd32 d3 0 = (n : Int) - 1 ∧
      ∀ q, 4 ≤ q → d3.getD q 0 =
        if entry_off k ≤ q ∧ q < entry_off (n - 1) then d.getD (q + 32) 0 else d.getD q 0 := by
  unfold MAX_ENTRIES at h32
  have hoff : ∀ i, entry_off i = 4 + 32 * i := fun i => rfl
  obtain ⟨_, hkn, _, _⟩ := dir_find_some d name n 0 k hfind
  have hkn' : k + (n - 1 - k) = n - 1 := by omega
  obtain ⟨hsl, hsg⟩ := dir_shift_spec (n - 1 - k) d k (by rw [hkn', hoff]; rw [hoff] at hlen; omega)
  rw [hkn'] at hsg
  have hl3 : (wr_bytes (dir_shift d k (n - 1 - k)) 0 (int_bytes ((n : Int) - 1))).length
      = d.length := by
    rw [wr_bytes_length _ _ _ (by rw [hsl, int_bytes_length]; rw [hoff] at hlen; omega), hsl]
  refine ⟨_, ?_, hl3, ?_, ?_⟩
  · unfold directory_delete
    simp only [hn, Int.toNat_ofNat, hfind]
    rw [if_neg (by omega)]
  · rw [rd32_wr_int_bytes_at _ _ _ (by rw [hsl]; rw [hoff] at hlen; omega)]
    exact toI32_of_range (by omega) (by omega)
  · intro q hq
    rw [wr_bytes_getD_outside _ _ _ _ (by omega) (by rw [int_bytes_length]; omega)]
    exact hsg q

theorem directory_delete_spec (d name : List Nat) (n k : Nat) (hwf : dir_wf d)
    (hn : dir_entry_count d = (n : Int)) (hfind : dir_find d name 0 n = some k) :
    ∃ d3, directory_delete d name = some (0, d3) ∧ dir_wf d3 ∧
      dir_entry_count d3 = (n : Int) - 1 ∧
      (∀ j, j < k →
        dir_entry_name d3 j = dir_entry_name d j ∧ dir_entry_inum d3 j = dir_entry_inum d j) ∧
      (∀ j, k ≤ j → j + 1 < n →
        dir_entry_name d3 j = dir_entry_name d (j + 1) ∧
        dir_entry_inum d3 j = dir_entry_inum d (j + 1)) := by
  obtain ⟨hlen, hc0, hc32, hpad⟩ := hwf
  have hoff : ∀ i, entry_off i = 4 + 32 * i := fun i => rfl
  obtain ⟨_, hkn, _, _⟩ := dir_find_some d name n 0 k hfind
  have hn32 : n ≤ MAX_ENTRIES := by rw [hn] at hc32; exact_mod_cast hc32
  unfold MAX_ENTRIES at hlen hn32 hpad
  obtain ⟨d3, hdel, hl3, hcnt, hg⟩ := directory_delete_stores d name n k hn hn32
    (by rw [hoff]; omega) hfind
  have hpad3 : ∀ i, i < 32 → d3.getD (entry_off i + 27) 0 = 0 := by
    intro i hi
    rw [hg _ (by rw [hoff]; omega)]
    by_cases hr : entry_off k ≤ entry_off i + 27 ∧ entry_off i + 27 < entry_off (n - 1)
    · rw [if_pos hr]
      simp only [hoff] at hr
      have := hpad (i + 1) (by omega)
      rw [hoff] at this ⊢
      rw [show 4 + 32 * i + 27 + 32 = 4 + 32 * (i + 1) + 27 by omega]
      exact this
    · rw [if_neg hr]; exact hpad i hi
  refine ⟨d3, hdel, ⟨by rw [hl3]; exact hlen, ?_, ?_, hpad3⟩, hcnt, ?_, ?_⟩
  · unfold dir_entry_count; rw [hcnt]; omega
  · unfold dir_entry_count; rw [hcnt]; unfold MAX_ENTRIES; omega
  · intro j hj
    apply dir_wf_entry_name d3 d j j (hpad3 j (by omega))
    intro t ht
    rw [hg _ (by rw [hoff]; omega), if_neg (by simp only [hoff]; omega)]
  · intro j hj1 hj2
    apply dir_wf_entry_name d3 d j (j + 1) (hpad3 j (by omega))
    intro t ht
    rw [hg _ (by rw [hoff]; omega), if_pos (by simp only [hoff]; omega)]
    congr 1
    simp only [hoff]; omega

theorem directory_delete_wf (d name : List Nat) (p : Int × List Nat) (hwf : dir_wf d)
    (h : directory_delete d name = some p) : dir_wf p.2 := by
  obtain ⟨n, hn⟩ : ∃ n : Nat, dir_entry_count d = (n : Int) :=
    ⟨(dir_entry_count d).toNat, by have := hwf.2.1; omega⟩
  cases hf : dir_find d name 0 n with
  | none =>
    rw [directory_delete_absent d name (by rw [hn]; exact hf)] at h
    simp only [Option.some.injEq] at h
    rw [← h]; exact hwf
  | some k =>
    obtain ⟨d3, hdel, hwf3, _⟩ := directory_delete_spec d name n k hwf hn hf
    rw [hdel] at h
    simp only [Option.some.injEq] at h
    rw [← h]; exact hwf3

/-! ## Directories -/

theorem directory_init_wf (mem : List Nat) (h : 4 + 32 * MAX_ENTRIES ≤ mem.length) :
    dir_wf (directory_init mem) ∧ dir_entry_count (directory_init mem) = 0 ∧
    ∀ q, q < 4 + 32 * MAX_ENTRIES → (directory_init mem).getD q 0 = 0 := by
  have hz : ∀ q, q < 4 + 32 * MAX_ENTRIES → (directory_init mem).getD q 0 = 0 := by
    intro q hq
    unfold directory_init
    have := wr_bytes_getD_inside mem 0 (List.replicate (4 + 32 * MAX_ENTRIES) 0) q (by omega)
      (by rw [List.length_replicate]; exact hq)
    rw [Nat.zero_add] at this
    rw [this]
    simp only [List.getD_eq_getElem?_getD, List.getElem?_replicate]
    split <;> rfl
  have hc : dir_entry_count (directory_init mem) = 0 := by
    unfold dir_entry_count rd32
    unfold MAX_ENTRIES at hz
    rw [hz 0 (by omega), hz (0 + 1) (by omega), hz (0 + 2) (by omega), hz (0 + 3) (by omega)]
    rfl
  refine ⟨⟨?_, by rw [hc], by rw [hc]; unfold MAX_ENTRIES; omega, ?_⟩, hc, hz⟩
  · unfold directory_init
    rw [wr_bytes_length _ _ _ (by rw [List.length_replicate]; omega)]
    exact h
  · intro i hi
    apply hz
    unfold entry_off
    unfold MAX_ENTRIES at hi ⊢
    omega

theorem directory_put_full (d name : List Nat) (inum : Int)
    (h : dir_entry_count d = MAX_ENTRIES) : directory_put d name inum = some (-ENOSPC, d) := by
  unfold directory_put
  simp only [h]
  rw [if_pos (le_refl _)]

theorem directory_put_times_fresh (entries : List (List Nat × Int)) : ∀ (d : List Nat) (n : Nat),
    dir_wf d → dir_entry_count d = (n : Int) → n + entries.length ≤ MAX_ENTRIES →
    (entries.map Prod.fst).Nodup →
    (∀ e, e ∈ entries → e.1.length ≤ MAX_NAME_LEN ∧ ∀ b, b ∈ e.1 → b ≠ 0) →
    (∀ j e, j < n → e ∈ entries → dir_entry_name d j ≠ e.1) →
    ∃ d3, directory_put_times d entries = some (List.replicate entries.length 0, d3) ∧
      dir_wf d3 ∧ dir_entry_count d3 = (n : Int) + entries.length := by
  induction entries with
  | nil =>
    intro d n hwf hn _ _ _ _
    exact ⟨d, rfl, hwf, by simpa using hn⟩
  | cons e rest ih =>
    intro d n hwf hn hlen hnd hshort hold
    simp only [List.length_cons] at hlen
    simp only [List.map_cons, List.nodup_cons] at hnd
    have hnew : dir_find d e.1 0 n = none :=
      dir_find_eq_none d e.1 n (fun j hj => hold j e hj (List.mem_cons_self _ _))
    obtain ⟨d1, hput, hwf1, hcnt1, hother, hname, _⟩ :=
      directory_put_spec d e.1 e.2 n hwf hn (by omega) hnew
    have he := hshort e (List.mem_cons_self _ _)
    have hname1 : dir_entry_name d1 n = e.1 := by
      rw [hname he.2, List.take_of_length_le he.1]
    obtain ⟨d3, htimes, hwf3, hcnt3⟩ := ih d1 (n + 1) hwf1 (by rw [hcnt1]; push_cast; rfl)
      (by omega) hnd.2 (fun x hx => hshort x (List.mem_cons_of_mem _ hx))
      (fun j x hj hx => by
        by_cases hjn : j = n
        · rw [hjn, hname1]
          intro heq
          exact hnd.1 (List.mem_map.mpr ⟨x, hx, heq.symm⟩)
        · rw [(hother j (by omega) hjn).1]
          exact hold j x (by omega) (List.mem_cons_of_mem _ hx))
    refine ⟨d3, ?_, hwf3, by rw [hcnt3]; simp only [List.length_cons]; push_cast; omega⟩
    unfold directory_put_times
    simp only [hput, htimes, Option.map_some', List.length_cons, List.replicate_succ]

/-- C21: a directory with `entry_count == 32` answers every `directory_put` with
`-ENOSPC` and is left unchanged; and starting from `directory_init`, 32 puts of
pairwise distinct names of at most 27 bytes all return 0, after which every further
put returns `-ENOSPC`. -/
theorem directory_put_up_to_capacity (mem : List Nat) (entries : List (List Nat × Int))
    (hmem : 4 + 32 * MAX_ENTRIES ≤ mem.length) (hlen : entries.length = MAX_ENTRIES)
    (hnd : (entries.map Prod.fst).Nodup)
    (hshort : ∀ e, e ∈ entries → e.1.length ≤ MAX_NAME_LEN ∧ ∀ b, b ∈ e.1 → b ≠ 0) :
    (∀ (d name : List Nat) (inum : Int), dir_entry_count d = MAX_ENTRIES →
      directory_put d name inum = some (-ENOSPC, d)) ∧
    ∃ d3, directory_put_times (directory_init mem) entries = some (List.replicate 32 0, d3) ∧
      ∀ (name : List Nat) (inum : Int), directory_put d3 name inum = some (-ENOSPC, d3) := by
  refine ⟨directory_put_full, ?_⟩
  obtain ⟨hwf, hc, _⟩ := directory_init_wf mem hmem
  obtain ⟨d3, htimes, _, hcnt⟩ := directory_put_times_fresh entries (directory_init mem) 0 hwf
    (by rw [hc]; rfl) (by omega) hnd hshort (fun j e hj _ => by omega)
  rw [hlen] at htimes hcnt
  exact ⟨d3, htimes, fun name inum => directory_put_full d3 name inum (by rw [hcnt]; simp)⟩

theorem directory_put_up_to_capacity_witness :
    ∃ d3, directory_put_times (directory_init (List.replicate 1028 0))
        ((List.range 32).map (fun k => ([65 + k], (k : Int) + 1))) =
          some (List.replicate 32 0, d3) ∧
      ∀ (name : List Nat) (inum : Int), directory_put d3 name inum = some (-ENOSPC, d3) :=
  (directory_put_up_to_capacity (List.replicate 1028 0)
    ((List.range 32).map (fun k => ([65 + k], (k : Int) + 1)))
    (by decide!) (by decide!) (by decide!) (by decide!)).2

/-- C22, as stated, fails: on a directory right after `directory_init`,
`directory_put` with a name of 28 bytes returns 0, not an error, and the directory
then has one entry, whose name is the first 27 bytes. -/
theorem directory_put_accepts_long_name :
    long_name.length = 28 ∧
    (directory_put empty_dir long_name 5).map
      (fun p => (p.1, dir_entry_count p.2, dir_entry_name p.2 0, dir_entry_inum p.2 0)) =
      some (0, 1, long_name.take 27, 5) := by
  decide!

/-- C22, amended: `directory_put` does not reject over-long names.  On a directory
with fewer than 32 entries, for every name longer than 27 bytes it returns 0,
increments `entry_count` and appends an entry that holds the inode number and, as
its name, the first 27 bytes of the name; a `directory_lookup` of the whole name
afterwards returns `-ENOENT`. -/
theorem directory_put_truncates_long_name (d name : List Nat) (inum : Int) (n : Nat)
    (hwf : dir_wf d) (hn : dir_entry_count d = (n : Int)) (h32 : n < MAX_ENTRIES)
    (hlong : MAX_NAME_LEN < name.length) (hnz : ∀ b, b ∈ name → b ≠ 0) :
    ∃ d3, directory_put d name inum = some (0, d3) ∧ dir_entry_count d3 = (n : Int) + 1 ∧
      dir_entry_name d3 n = name.take MAX_NAME_LEN ∧ dir_entry_inum d3 n = toI32 inum ∧
      (∀ j, j < n →
        dir_entry_name d3 j = dir_entry_name d j ∧ dir_entry_inum d3 j = dir_entry_inum d j) ∧
      directory_lookup d3 name = -ENOENT := by
  have hlen_ne : ∀ (m : List Nat) (j : Nat), dir_wf m → j < MAX_ENTRIES →
      dir_entry_name m j ≠ name := by
    intro m j hm hj heq
    have := dir_wf_name_length m j hm hj
    rw [heq] at this
    unfold MAX_NAME_LEN at hlong
    omega
  have hnew : dir_find d name 0 n = none :=
    dir_find_eq_none d name n (fun j hj => hlen_ne d j hwf (by omega))
  obtain ⟨d3, hput, hwf3, hcnt, hother, hname, hinum⟩ :=
    directory_put_spec d name inum n hwf hn h32 hnew
  refine ⟨d3, hput, hcnt, hname hnz, hinum, fun j hj => hother j (by omega) (by omega), ?_⟩
  unfold directory_lookup
  rw [hcnt]
  have : ((n : Int) + 1).toNat = n + 1 := by omega
  rw [this, dir_find_eq_none d3 name (n + 1) (fun j hj => hlen_ne d3 j hwf3 (by omega))]

theorem directory_put_truncates_long_name_witness :
    ∃ d3, directory_put empty_dir long_name 5 = some (0, d3) ∧
      dir_entry_count d3 = ((0 : Nat) : Int) + 1 ∧
      dir_entry_name d3 0 = long_name.take MAX_NAME_LEN ∧ dir_entry_inum d3 0 = toI32 5 ∧
      (∀ j, j < 0 →
        dir_entry_name d3 j = dir_entry_name empty_dir j ∧
        dir_entry_inum d3 j = dir_entry_inum empty_dir j) ∧
      directory_lookup d3 long_name = -ENOENT :=
  directory_put_truncates_long_name empty_dir long_name 5 0 (by decide!) (by decide!)
    (by decide) (by decide) (by decide)

/-- C23: put/lookup round trip.  On a directory with `n < 32` entries, for a name
of at most 27 bytes that no entry has and an inode number `inum >= 0`,
`directory_put` returns 0, `entry_count` becomes `n + 1`, the entries at the
indices below `n` keep their name and inode number, the entry at index `n` holds
the name and `inum`, and `directory_lookup` of the name then returns `inum`. -/
theorem directory_put_then_lookup (d name : List Nat) (inum : Int) (n : Nat)
    (hwf : dir_wf d) (hn : dir_entry_count d = (n : Int)) (h32 : n < MAX_ENTRIES)
    (hlen : name.length ≤ MAX_NAME_LEN) (hnz : ∀ b, b ∈ name → b ≠ 0)
    (hnew : ∀ j, j < n → dir_entry_name d j ≠ name)
    (hinum : 0 ≤ inum ∧ inum < 2147483648) :
    ∃ d3, directory_put d name inum = some (0, d3) ∧ dir_entry_count d3 = (n : Int) + 1 ∧
      (∀ j, j < n →
        dir_entry_name d3 j = dir_entry_name d j ∧ dir_entry_inum d3 j = dir_entry_inum d j) ∧
      dir_entry_name d3 n = name ∧ dir_entry_inum d3 n = inum ∧
      directory_lookup d3 name = inum := by
  obtain ⟨d3, hput, _, hcnt, hother, hname, hin⟩ :=
    directory_put_spec d name inum n hwf hn h32 (dir_find_eq_none d name n hnew)
  have hname' : dir_entry_name d3 n = name := by
    rw [hname hnz, List.take_of_length_le hlen]
  have hin' : dir_entry_inum d3 n = inum := by
    rw [hin, toI32_of_range (by omega) hinum.2]
  refine ⟨d3, hput, hcnt, fun j hj => hother j (by omega) (by omega), hname', hin', ?_⟩
  unfold directory_lookup
  rw [hcnt]
  have : ((n : Int) + 1).toNat = n + 1 := by omega
  rw [this, dir_find_eq_some d3 name (n + 1) n (by omega) hname'
    (fun j hj => by rw [(hother j (by omega) (by omega)).1]; exact hnew j hj)]
  exact hin'

theorem directory_put_then_lookup_witness :
    ∃ d3, directory_put empty_dir (cstr "hello.txt") 3 = some (0, d3) ∧
      dir_entry_count d3 = ((0 : Nat) : Int) + 1 ∧
      (∀ j, j < 0 →
        dir_entry_name d3 j = dir_entry_name empty_dir j ∧
        dir_entry_inum d3 j = dir_entry_inum empty_dir j) ∧
      dir_entry_name d3 0 = cstr "hello.txt" ∧ dir_entry_inum d3 0 = 3 ∧
      directory_lookup d3 (cstr "hello.txt") = 3 :=
  directory_put_then_lookup empty_dir (cstr "hello.txt") 3 0 (by decide!) (by decide!)
    (by decide) (by decide) (by decide) (fun j hj => by omega) (by decide)

theorem directory_lookup_after_delete (d d3 name m : List Nat) (n k : Nat)
    (hn : dir_entry_count d = (n : Int)) (hcnt : dir_entry_count d3 = (n : Int) - 1)
    (hk : k < n) (hname : dir_entry_name d k = name) (hm : m ≠ name)
    (hlow : ∀ j, j < k →
      dir_entry_name d3 j = dir_entry_name d j ∧ dir_entry_inum d3 j = dir_entry_inum d j)
    (hhigh : ∀ j, k ≤ j → j + 1 < n →
      dir_entry_name d3 j = dir_entry_name d (j + 1) ∧
      dir_entry_inum d3 j = dir_entry_inum d (j + 1)) :
    directory_lookup d3 m = directory_lookup d m := by
  unfold directory_lookup
  rw [hn, hcnt]
  have e1 : ((n : Int) - 1).toNat = n - 1 := by omega
  rw [e1, Int.toNat_ofNat]
  cases hf : dir_find d m 0 n with
  | none =>
    have hall := dir_find_none_iff d m n hf
    rw [dir_find_eq_none d3 m (n - 1) (fun j hj => by
      by_cases hjk : j < k
      · rw [(hlow j hjk).1]; exact hall j (by omega)
      · rw [(hhigh j (by omega) (by omega)).1]; exact hall (j + 1) (by omega))]
  | some i =>
    obtain ⟨_, hi, hmi, hfirst⟩ := dir_find_some d m n 0 i hf
    have hik : i ≠ k := by
      intro h
      rw [h, hname] at hmi
      exact hm hmi.symm
    by_cases hlt : i < k
    · rw [dir_find_eq_some d3 m (n - 1) i (by omega) (by rw [(hlow i hlt).1]; exact hmi)
        (fun j hj => by rw [(hlow j (by omega)).1]; exact hfirst j (Nat.zero_le _) hj)]
      exact (hlow i hlt).2
    · rw [dir_find_eq_some d3 m (n - 1) (i - 1) (by omega)
        (by
          rw [(hhigh (i - 1) (by omega) (by omega)).1, show i - 1 + 1 = i by omega]
          exact hmi)
        (fun j hj => by
          by_cases hjk : j < k
          · rw [(hlow j hjk).1]; exact hfirst j (Nat.zero_le _) (by omega)
          · rw [(hhigh j (by omega) (by omega)).1]
            exact hfirst (j + 1) (Nat.zero_le _) (by omega))]
      have := (hhigh (i - 1) (by omega) (by omega)).2
      rw [show i - 1 + 1 = i by omega] at this
      exact this

/-- C24: the function `directory_delete`.  If no entry has the name it returns
`-ENOENT` and the directory is unchanged.  If the first entry with the name is at
index `k` it returns 0, `entry_count` decreases by one, the entries below `k` keep
name and inode number and every entry formerly at an index `j > k` is at index
`j - 1` afterwards; `directory_lookup` of every other name returns what it returned
before, and with unique names `directory_lookup` of the name returns `-ENOENT`. -/
theorem directory_delete_compacts (d name : List Nat) (n : Nat) (hwf : dir_wf d)
    (hn : dir_entry_count d = (n : Int)) :
    ((∀ j, j < n → dir_entry_name d j ≠ name) → directory_delete d name = some (-ENOENT, d)) ∧
    (∀ k, k < n → dir_entry_name d k = name → (∀ j, j < k → dir_entry_name d j ≠ name) →
      ∃ d3, directory_delete d name = some (0, d3) ∧ dir_entry_count d3 = (n : Int) - 1 ∧
        (∀ j, j < k →
          dir_entry_name d3 j = dir_entry_name d j ∧ dir_entry_inum d3 j = dir_entry_inum d j) ∧
        (∀ j, k < j → j < n →
          dir_entry_name d3 (j - 1) = dir_entry_name d j ∧
          dir_entry_inum d3 (j - 1) = dir_entry_inum d j) ∧
        (∀ m, m ≠ name → directory_lookup d3 m = directory_lookup d m) ∧
        ((∀ i j, i < n → j < n → i ≠ j → dir_entry_name d i ≠ dir_entry_name d j) →
          directory_lookup d3 name = -ENOENT)) := by
  constructor
  · intro habs
    exact directory_delete_absent d name (by
      rw [hn, Int.toNat_ofNat]; exact dir_find_eq_none d name n habs)
  · intro k hk hname hfirst
    obtain ⟨d3, hdel, _, hcnt, hlow, hhigh⟩ := directory_delete_spec d name n k hwf hn
      (dir_find_eq_some d name n k hk hname hfirst)
    refine ⟨d3, hdel, hcnt, hlow, fun j hj1 hj2 => ?_, fun m hm => ?_, fun huniq => ?_⟩
    · have := hhigh (j - 1) (by omega) (by omega)
      rw [show j - 1 + 1 = j by omega] at this
      exact this
    · exact directory_lookup_after_delete d d3 name m n k hn hcnt hk hname hm hlow hhigh
    · unfold directory_lookup
      rw [hcnt]
      have e1 : ((n : Int) - 1).toNat = n - 1 := by omega
      rw [e1, dir_find_eq_none d3 name (n - 1) (fun j hj => by
        by_cases hjk : j < k
        · rw [(hlow j hjk).1]; exact hfirst j hjk
        · rw [(hhigh j (by omega) (by omega)).1, ← hname]
          exact huniq (j + 1) k (by omega) hk (by omega))]

theorem directory_delete_compacts_witness :
    ∃ d3, directory_delete two_entry_dir (cstr "a") = some (0, d3) ∧
      dir_entry_count d3 = ((2 : Nat) : Int) - 1 ∧
      (∀ j, j < 0 →
        dir_entry_name d3 j = dir_entry_name two_entry_dir j ∧
        dir_entry_inum d3 j = dir_entry_inum two_entry_dir j) ∧
      (∀ j, 0 < j → j < 2 →
        dir_entry_name d3 (j - 1) = dir_entry_name two_entry_dir j ∧
        dir_entry_inum d3 (j - 1) = dir_entry_inum two_entry_dir j) ∧
      (∀ m, m ≠ cstr "a" → directory_lookup d3 m = directory_lookup two_entry_dir m) ∧
      ((∀ i j, i < 2 → j < 2 → i ≠ j →
          dir_entry_name two_entry_dir i ≠ dir_entry_name two_entry_dir j) →
        directory_lookup d3 (cstr "a") = -ENOENT) :=
  (directory_delete_compacts two_entry_dir (cstr "a") 2 (by decide!) (by decide!)).2 0
    (by decide) (by decide!) (fun j hj => by omega)

theorem dir_list_loop_eq (d : List Nat) (n : Nat) : ∀ (i : Nat) (list : List (List Nat)),
    dir_list_loop d i list n = ((List.range' i n).map (dir_entry_name d)).reverse ++ list := by
  induction n with
  | zero => intro i list; rfl
  | succ n ih =>
    intro i list
    unfold dir_list_loop
    rw [ih (i + 1), List.range'_succ, List.map_cons, List.reverse_cons, List.append_assoc]
    rfl

/-- C25, as stated, fails: for the directory with the entries ("a", 7), ("b", 8)
`directory_list` returns "b", "a": element 0 of the list is the name of entry 1. -/
theorem directory_list_reverses :
    dir_entry_count two_entry_dir = 2 ∧
    dir_entry_name two_entry_dir 0 = cstr "a" ∧ dir_entry_name two_entry_dir 1 = cstr "b" ∧
    directory_list two_entry_dir = [cstr "b", cstr "a"] ∧
    (directory_list two_entry_dir).get? 0 ≠ some (dir_entry_name two_entry_dir 0) := by
  decide!

/-- C25, amended: `directory_list` returns exactly `entry_count` names (the empty
list, NULL, exactly when `entry_count` is not positive) in reverse storage order:
element `j` of the list is `entries[entry_count - 1 - j].name`. -/
theorem directory_list_reverse_order (d : List Nat) :
    (directory_list d).length = (dir_entry_count d).toNat ∧
    (directory_list d = [] ↔ dir_entry_count d ≤ 0) ∧
    ∀ j, j < (dir_entry_count d).toNat →
      (directory_list d).get? j = some (dir_entry_name d ((dir_entry_count d).toNat - 1 - j)) := by
  have e : directory_list d =
      ((List.range' 0 (dir_entry_count d).toNat).map (dir_entry_name d)).reverse := by
    unfold directory_list
    rw [dir_list_loop_eq, List.append_nil]
  refine ⟨by rw [e]; simp, directory_list_eq_nil d, fun j hj => ?_⟩
  rw [e, List.get?_eq_getElem?, List.getElem?_reverse (by simpa using hj)]
  simp only [List.length_map, List.length_range', List.getElem?_map]
  rw [List.getElem?_range' _ _ (by omega)]
  simp

theorem dir_reachable_wf (d : List Nat) (h : DirReachable d) : dir_wf d := by
  induction h with
  | init mem hmem => exact (directory_init_wf mem hmem).1
  | put d name inum p _ hput ih => exact directory_put_wf d name inum p ih hput
  | delete d name p _ hdel ih => exact directory_delete_wf d name p ih hdel

theorem directory_put_keeps_unique (d name : List Nat) (inum : Int) (p : Int × List Nat)
    (hwf : dir_wf d) (hu : dir_unique d) (hlen : name.length ≤ MAX_NAME_LEN)
    (hnz : ∀ b, b ∈ name → b ≠ 0) (h : directory_put d name inum = some p) :
    dir_unique p.2 := by
  rcases directory_put_cases d name inum p h with ⟨e, _⟩ | ⟨e, _⟩ | ⟨_, h0, h32, hnew, _⟩
  · rw [e]; exact hu
  · rw [e]; exact hu
  · obtain ⟨n, hn⟩ : ∃ n : Nat, dir_entry_count d = (n : Int) :=
      ⟨(dir_entry_count d).toNat, by omega⟩
    rw [hn] at hnew h32
    simp only [Int.toNat_ofNat] at hnew
    have hn32 : n < MAX_ENTRIES := by exact_mod_cast h32
    obtain ⟨d3, hput, _, hcnt, hother, hname, _⟩ :=
      directory_put_spec d name inum n hwf hn hn32 hnew
    rw [hput] at h
    simp only [Option.some.injEq] at h
    rw [← h]
    have hname' : dir_entry_name d3 n = name := by
      rw [hname hnz, List.take_of_length_le hlen]
    have hold := dir_find_none_iff d name n hnew
    unfold dir_unique at hu ⊢
    rw [hn, Int.toNat_ofNat] at hu
    simp only [hcnt]
    have e1 : ((n : Int) + 1).toNat = n + 1 := by omega
    rw [e1]
    intro i j hi hj hij
    by_cases hin : i = n
    · rw [hin, hname', (hother j (by omega) (by omega)).1]
      exact fun heq => hold j (by omega) heq.symm
    · by_cases hjn : j = n
      · rw [hjn, hname', (hother i (by omega) hin).1]
        exact hold i (by omega)
      · rw [(hother i (by omega) hin).1, (hother j (by omega) hjn).1]
        exact hu i j (by omega) (by omega) hij

theorem directory_delete_keeps_unique (d name : List Nat) (p : Int × List Nat)
    (hwf : dir_wf d) (hu : dir_unique d) (h : directory_delete d name = some p) :
    dir_unique p.2 := by
  obtain ⟨n, hn⟩ : ∃ n : Nat, dir_entry_count d = (n : Int) :=
    ⟨(dir_entry_count d).toNat, by have := hwf.2.1; omega⟩
  cases hf : dir_find d name 0 n with
  | none =>
    rw [directory_delete_absent d name (by rw [hn]; exact hf)] at h
    simp only [Option.some.injEq] at h
    rw [← h]; exact hu
  | some k =>
    obtain ⟨_, hk, _, _⟩ := dir_find_some d name n 0 k hf
    obtain ⟨d3, hdel, _, hcnt, hlow, hhigh⟩ := directory_delete_spec d name n k hwf hn hf
    rw [hdel] at h
    simp only [Option.some.injEq] at h
    rw [← h]
    unfold dir_unique at hu ⊢
    rw [hn, Int.toNat_ofNat] at hu
    simp only [hcnt]
    have e1 : ((n : Int) - 1).toNat = n - 1 := by omega
    rw [e1]
    intro i j hi hj hij
    by_cases hik : i < k
    · by_cases hjk : j < k
      · rw [(hlow i hik).1, (hlow j hjk).1]
        exact hu i j (by omega) (by omega) hij
      · rw [(hlow i hik).1, (hhigh j (by omega) (by omega)).1]
        exact hu i (j + 1) (by omega) (by omega) (by omega)
    · by_cases hjk : j < k
      · rw [(hhigh i (by omega) (by omega)).1, (hlow j hjk).1]
        exact hu (i + 1) j (by omega) (by omega) (by omega)
      · rw [(hhigh i (by omega) (by omega)).1, (hhigh j (by omega) (by omega)).1]
        exact hu (i + 1) (j + 1) (by omega) (by omega) (by omega)

theorem long_name_twice_eval :
    ((directory_put empty_dir long_name 1).bind (fun p => directory_put p.2 long_name 2)).map
      (fun q => (q.1, dir_entry_count q.2, dir_entry_name q.2 0, dir_entry_name q.2 1)) =
      some (0, 2, long_name.take 27, long_name.take 27) := by
  decide!

/-- C26: the bound `0 <= entry_count <= 32` holds in every directory state reachable
from `directory_init` by `directory_put` and `directory_delete`, and the names stay
pairwise distinct through every `directory_delete` and through every `directory_put`
of a name of at most 27 bytes.  With a longer name the names do not stay distinct:
two calls `directory_put(dir, name, 1)`, `directory_put(dir, name, 2)` with the same
name of 28 bytes on a fresh directory both return 0 and leave two entries with the
same name (the first 27 bytes). -/
theorem directory_names_not_always_unique :
    (∀ d, DirReachable d → 0 ≤ dir_entry_count d ∧ dir_entry_count d ≤ MAX_ENTRIES) ∧
    (∀ d name inum p, DirReachable d → dir_unique d → name.length ≤ MAX_NAME_LEN →
      (∀ b, b ∈ name → b ≠ 0) → directory_put d name inum = some p → dir_unique p.2) ∧
    (∀ d name p, DirReachable d → dir_unique d → directory_delete d name = some p →
      dir_unique p.2) ∧
    ((directory_put empty_dir long_name 1).bind (fun p => directory_put p.2 long_name 2)).map
      (fun q => (q.1, dir_entry_count q.2, dir_entry_name q.2 0, dir_entry_name q.2 1)) =
      some (0, 2, long_name.take 27, long_name.take 27) ∧
    (∃ d, DirReachable d ∧ dir_entry_count d = 2 ∧ dir_entry_name d 0 = dir_entry_name d 1 ∧
      ¬ dir_unique d) := by
  refine ⟨fun d hd => ⟨(dir_reachable_wf d hd).2.1, (dir_reachable_wf d hd).2.2.1⟩,
    fun d name inum p hd hu hlen hnz h =>
      directory_put_keeps_unique d name inum p (dir_reachable_wf d hd) hu hlen hnz h,
    fun d name p hd hu h => directory_delete_keeps_unique d name p (dir_reachable_wf d hd) hu h,
    long_name_twice_eval, ?_⟩
  have hev := long_name_twice_eval
  cases h1 : directory_put empty_dir long_name 1 with
  | none => rw [h1] at hev; simp at hev
  | some p1 =>
    rw [h1] at hev
    simp only [Option.some_bind] at hev
    cases h2 : directory_put p1.2 long_name 2 with
    | none => rw [h2] at hev; simp at hev
    | some p2 =>
      rw [h2] at hev
      simp only [Option.map_some', Option.some.injEq, Prod.mk.injEq] at hev
      have hr : DirReachable p2.2 :=
        DirReachable.put p1.2 long_name 2 p2
          (DirReachable.put empty_dir long_name 1 p1
            (DirReachable.init _ (le_of_eq (List.length_replicate _ _).symm)) h1) h2
      refine ⟨p2.2, hr, hev.2.1, by rw [hev.2.2.1, hev.2.2.2], fun hu => ?_⟩
      have := hu 0 1 (by rw [hev.2.1]; decide) (by rw [hev.2.1]; decide) (by decide)
      rw [hev.2.2.1, hev.2.2.2] at this
      exact this rfl

/-! ## Splitting a string -/

theorem strchr_none (c : Nat) : ∀ s : List Nat, strchr s c = none → c ∉ s := by
  intro s
  induction s with
  | nil => intro _; simp
  | cons b rest ih =>
    intro h
    unfold strchr at h
    by_cases hb : b = c
    · rw [if_pos hb] at h; cases h
    · rw [if_neg hb] at h
      have hr : strchr rest c = none := by
        cases hs : strchr rest c with
        | none => rfl
        | some i => rw [hs] at h; simp at h
      simp only [List.mem_cons, not_or]
      exact ⟨fun e => hb e.symm, ih hr⟩

theorem strchr_some (c : Nat) (hc : c ≠ 0) : ∀ (s : List Nat) (k : Nat), strchr s c = some k →
    k < s.length ∧ c ∉ s.take k ∧ s = s.take k ++ c :: s.drop (k + 1) := by
  intro s
  induction s with
  | nil =>
    intro k h
    unfold strchr at h
    rw [if_neg hc] at h
    cases h
  | cons b rest ih =>
    intro k h
    unfold strchr at h
    by_cases hb : b = c
    · rw [if_pos hb] at h
      simp only [Option.some.injEq] at h
      subst h
      simp [hb]
    · rw [if_neg hb] at h
      cases hs : strchr rest c with
      | none => rw [hs] at h; simp at h
      | some i =>
        rw [hs] at h
        simp only [Option.map_some', Option.some.injEq] at h
        subst h
        obtain ⟨h1, h2, h3⟩ := ih i hs
        refine ⟨by simp only [List.length_cons]; omega, ?_, ?_⟩
        · simp only [List.take_succ_cons, List.mem_cons, not_or]
          exact ⟨fun e => hb e.symm, h2⟩
        · simp only [List.take_succ_cons, List.drop_succ_cons, List.cons_append]
          rw [← h3]

theorem splitOn_of_not_mem (c : Nat) (s : List Nat) (h : c ∉ s) : s.splitOn c = [s] := by
  unfold List.splitOn
  apply List.splitOnP_eq_single
  intro x hx hp
  simp only [beq_iff_eq] at hp
  rw [hp] at hx
  exact h hx

theorem splitOn_first (c : Nat) (pre rest : List Nat) (h : c ∉ pre) :
    (pre ++ c :: rest).splitOn c = pre :: rest.splitOn c := by
  unfold List.splitOn
  apply List.splitOnP_first
  · intro x hx hp
    simp only [beq_iff_eq] at hp
    rw [hp] at hx
    exact h hx
  · simp

theorem s_explode_loop_eq (delimiter : Nat) (hd : delimiter ≠ 0) (fuel : Nat) :
    ∀ (list : List (List Nat)) (start : List Nat), start.length < fuel →
    s_explode_loop delimiter fuel list start =
      some ((start.splitOn delimiter).reverse ++ list) := by
  induction fuel with
  | zero => intro list start h; omega
  | succ fuel ih =>
    intro list start hlen
    unfold s_explode_loop
    cases hs : strchr start delimiter with
    | none =>
      simp only
      rw [splitOn_of_not_mem delimiter start (strchr_none delimiter start hs)]
      rfl
    | some k =>
      obtain ⟨h1, h2, h3⟩ := strchr_some delimiter hd start k hs
      simp only
      rw [if_neg (by omega), ih _ _ (by rw [List.length_drop]; omega)]
      conv_rhs => rw [h3, splitOn_first delimiter _ _ h2]
      simp [s_cons]

theorem s_explode_eq (str : List Nat) (delimiter : Nat) (hd : delimiter ≠ 0) :
    s_explode str delimiter = some (str.splitOn delimiter).reverse := by
  unfold s_explode
  rw [s_explode_loop_eq delimiter hd _ _ _ (by omega), List.append_nil]

theorem splitOn_facts (c : Nat) : ∀ s : List Nat,
    (s.splitOn c).length = s.count c + 1 ∧ ∀ seg, seg ∈ s.splitOn c → c ∉ seg := by
  intro s
  induction s with
  | nil => simp [List.splitOn_nil]
  | cons x xs ih =>
    unfold List.splitOn at ih ⊢
    rw [List.splitOnP_cons]
    by_cases hx : x = c
    · subst hx
      simp only [beq_self_eq_true, if_true, List.length_cons, List.count_cons_self]
      refine ⟨by rw [ih.1], fun seg hseg => ?_⟩
      simp only [List.mem_cons] at hseg
      rcases hseg with h | h
      · rw [h]; simp
      · exact ih.2 seg h
    · have hbeq : (x == c) = false := by simpa using hx
      simp only [hbeq, Bool.false_eq_true, if_false]
      cases hsp : List.splitOnP (fun y => y == c) xs with
      | nil => exact absurd hsp (List.splitOnP_ne_nil _ _)
      | cons hd tl =>
        rw [hsp] at ih
        simp only [List.modifyHead_cons, List.length_cons]
        refine ⟨by rw [List.count_cons_of_ne (fun e => hx e.symm)]; exact ih.1, fun seg hseg => ?_⟩
        simp only [List.mem_cons] at hseg
        rcases hseg with h | h
        · rw [h]
          simp only [List.mem_cons, not_or]
          exact ⟨fun e => hx e.symm, ih.2 hd (List.mem_cons_self _ _)⟩
        · exact ih.2 seg (List.mem_cons_of_mem _ h)

/-- C29: the list that `s_explode` returns has one node per substring, i.e.
(number of delimiters in the string) + 1 nodes, but not in the order of the string:
`s_explode("hello:world:test", ':')` is "test", "world", "hello". -/
theorem s_explode_order_reversed :
    (∀ (str : List Nat) (delimiter : Nat), delimiter ≠ 0 →
      ∃ l, s_explode str delimiter = some l ∧ l.length = str.count delimiter + 1) ∧
    s_explode (cstr "hello:world:test") 58 = some [cstr "test", cstr "world", cstr "hello"] ∧
    s_explode (cstr "hello:world:test") 58 ≠ some [cstr "hello", cstr "world", cstr "test"] := by
  refine ⟨fun str d hd => ⟨_, s_explode_eq str d hd, ?_⟩, by decide, by decide⟩
  rw [List.length_reverse]
  exact (splitOn_facts d str).1

/-- C30, amended: for a delimiter other than NUL, `s_explode(str, delimiter)` returns the
substrings between the delimiters in reverse order of appearance (the reversed
list is the split of the string); none of them contains the delimiter and
joining the reversed list with the delimiter gives `str` back; for the empty
string the list is a single node with the empty string. -/
theorem s_explode_reverse_split (str : List Nat) (delimiter : Nat) (hd : delimiter ≠ 0) :
    ∃ l, s_explode str delimiter = some l ∧ l.reverse = str.splitOn delimiter ∧
      l.length = str.count delimiter + 1 ∧ (∀ seg, seg ∈ l → delimiter ∉ seg) ∧
      List.intercalate [delimiter] l.reverse = str ∧
      s_explode [] delimiter = some [[]] := by
  refine ⟨_, s_explode_eq str delimiter hd, List.reverse_reverse _, ?_, ?_, ?_, ?_⟩
  · rw [List.length_reverse]
    exact (splitOn_facts delimiter str).1
  · intro seg hseg
    exact (splitOn_facts delimiter str).2 seg (List.mem_reverse.mp hseg)
  · rw [List.reverse_reverse]
    exact List.intercalate_splitOn _ _
  · rw [s_explode_eq [] delimiter hd]
    rfl

theorem s_explode_reverse_split_witness :
    ∃ l, s_explode (cstr "a/b//c") 47 = some l ∧ l.reverse = (cstr "a/b//c").splitOn 47 ∧
      l.length = (cstr "a/b//c").count 47 + 1 ∧ (∀ seg, seg ∈ l → 47 ∉ seg) ∧
      List.intercalate [47] l.reverse = cstr "a/b//c" ∧
      s_explode [] 47 = some [[]] :=
  s_explode_reverse_split (cstr "a/b//c") 47 (by decide)

theorem s_explode_nul (str : List Nat) (h : ∀ b, b ∈ str → b ≠ 0) : s_explode str 0 = none := by
  have hs : ∀ s : List Nat, (∀ b, b ∈ s → b ≠ 0) → strchr s 0 = some s.length := by
    intro s
    induction s with
    | nil => intro _; rfl
    | cons b rest ih =>
      intro hnz
      unfold strchr
      rw [if_neg (hnz b (List.mem_cons_self _ _)),
        ih (fun x hx => hnz x (List.mem_cons_of_mem _ hx))]
      rfl
  unfold s_explode s_explode_loop
  rw [hs str h]
  simp

/-! ## Listing a directory -/

/-- C27: the code at the failing input.  On a freshly initialised engine
`storage_mkdir("/d", 0755)` returns 0, makes inode 1 a directory record and
enters "/d" in the root directory, so "/d" is an existing directory with zero
entries; `storage_list("/d")` then returns NULL and `nufs_readdir("/d")` returns
`-ENOENT` and passes no name to `filler`, exactly as for a path that was never
created ("/nope").  In every state `storage_list` returns NULL and `nufs_readdir`
returns `-ENOENT` for every path that `tree_lookup` does not resolve; for a root
record that is a directory with `entry_count == 0` the listing is the NULL of
`directory_list` and `nufs_readdir` returns `-ENOENT` as well: it returns 0 exactly
when the listing has at least one node. -/
theorem nufs_readdir_empty_directory :
    (storage_mkdir (init_state []) (cstr "/d") 0o755).map
        (fun p => (p.1, storage_list p.2 (cstr "/"),
          (p.2.inodes.get? 1).map (fun nd => S_ISDIR nd.mode))) =
      some (0, some [cstr "/d", [0xED, 0x41]], some true) ∧
    (storage_mkdir (init_state []) (cstr "/d") 0o755).map
        (fun p => (storage_list p.2 (cstr "/d"), nufs_readdir p.2 (cstr "/d"),
          nufs_readdir p.2 (cstr "/nope"))) =
      some (none, (-ENOENT, []), (-ENOENT, [])) ∧
    (∀ (s : State) (path : List Nat), tree_lookup path < 0 →
      storage_list s path = none ∧ nufs_readdir s path = (-ENOENT, [])) ∧
    (∀ (s : State) (node : inode_t), get_inode s.inodes 0 = some node →
      S_ISDIR node.mode = true → dir_entry_count (dir_view s.inodes 0) ≤ 0 →
      storage_list s (cstr "/") = some [] ∧ nufs_readdir s (cstr "/") = (-ENOENT, [])) ∧
    (∀ (s : State) (path : List Nat),
      (nufs_readdir s path).1 = 0 ↔ ∃ e rest, storage_list s path = some (e :: rest)) := by
  refine ⟨by decide!, by decide!, fun s path hl => ?_, fun s node hnode hdir hcnt => ?_,
    fun s path => ?_⟩
  · have hn : storage_list s path = none := by
      unfold storage_list
      rw [if_pos hl]
    refine ⟨hn, ?_⟩
    unfold nufs_readdir
    rw [hn]
  · have hl : storage_list s (cstr "/") = some [] := by
      unfold storage_list
      have hroot0 : tree_lookup (cstr "/") = 0 := by decide
      simp only [hroot0, lt_self_iff_false, if_false, hnode, hdir, Bool.not_true,
        Bool.false_eq_true, Int.toNat_zero]
      rw [(directory_list_eq_nil _).mpr hcnt]
    refine ⟨hl, ?_⟩
    unfold nufs_readdir
    rw [hl]
  · unfold nufs_readdir
    cases hl : storage_list s path with
    | none => simp [ENOENT]
    | some l =>
      cases l with
      | nil => simp [ENOENT]
      | cons e rest => simp

/-! ## A create that fails -/

theorem state_alloc_failed (s : State) (ha : (alloc_inode s.inodes).1 < 0) :
    ({ s with inodes := (alloc_inode s.inodes).2 } : State) = s := by
  rw [alloc_inode_failed s.inodes ha]

theorem third_mknod_eval :
    ((storage_mknod (init_state []) (cstr "/a") 0o644).bind
      (fun p => storage_mknod p.2 (cstr "/b") 0o644)).bind
      (fun p => (storage_mknod p.2 (cstr "/b") 0o644).map
        (fun q => (q.1, p.2.inodes.get? 3, q.2.inodes.get? 3))) =
      some (-EEXIST, some inode_zero, some ⟨1, 0o644, 0, 0⟩) := by
  decide!

theorem third_mknod_lists :
    ((storage_mknod (init_state []) (cstr "/a") 0o644).bind
      (fun p => storage_mknod p.2 (cstr "/b") 0o644)).bind
      (fun p => (storage_mknod p.2 (cstr "/b") 0o644).map
        (fun q => (storage_list p.2 (cstr "/"), storage_list q.2 (cstr "/")))) =
      some (some [cstr "/b", [0xA4, 0x01], [0xED, 0x41]],
        some [cstr "/b", [0xA4, 0x01], [0xED, 0x41]]) := by
  decide!

theorem third_mkdir_eval :
    ((storage_mknod (init_state []) (cstr "/a") 0o644).bind
      (fun p => storage_mknod p.2 (cstr "/b") 0o644)).bind
      (fun p => (storage_mkdir p.2 (cstr "/b") 0o755).map
        (fun q => (q.1, p.2.inodes.get? 3, q.2.inodes.get? 3))) =
      some (-EEXIST, some inode_zero, some ⟨1, 0o40755, 0, 0⟩) := by
  decide!

/-- C28: the code at the failing input.  A create that fails before an inode is
allocated (the path resolves: `-EEXIST`; the inode table is full: `-ENOSPC`) leaves
the state unchanged.  A create that fails in `directory_put` does not: on a fresh
engine, after `storage_mknod("/a", 0644)` and `storage_mknod("/b", 0644)`, a second
`storage_mknod("/b", 0644)` returns `-EEXIST` (the root directory lists the same
names before and after) and leaves inode 3, free before the call, allocated with
`refs = 1`; `storage_mkdir("/b", 0755)` does the same. -/
theorem failed_create_leaves_inode :
    (∀ (s : State) (path : List Nat) (mode : Int), 0 ≤ tree_lookup path →
      storage_mknod s path mode = some (-EEXIST, s)) ∧
    (∀ (s : State) (path : List Nat) (mode : Nat), 0 ≤ tree_lookup path →
      storage_mkdir s path mode = some (-EEXIST, s)) ∧
    (∀ (s : State) (path : List Nat) (mode : Int), tree_lookup path < 0 →
      (alloc_inode s.inodes).1 < 0 → storage_mknod s path mode = some (-ENOSPC, s)) ∧
    (∀ (s : State) (path : List Nat) (mode : Nat), tree_lookup path < 0 →
      (alloc_inode s.inodes).1 < 0 → storage_mkdir s path mode = some (-ENOSPC, s)) ∧
    ((storage_mknod (init_state []) (cstr "/a") 0o644).bind
      (fun p => storage_mknod p.2 (cstr "/b") 0o644)).bind
      (fun p => (storage_mknod p.2 (cstr "/b") 0o644).map
        (fun q => (q.1, p.2.inodes.get? 3, q.2.inodes.get? 3))) =
      some (-EEXIST, some inode_zero, some ⟨1, 0o644, 0, 0⟩) ∧
    ((storage_mknod (init_state []) (cstr "/a") 0o644).bind
      (fun p => storage_mknod p.2 (cstr "/b") 0o644)).bind
      (fun p => (storage_mknod p.2 (cstr "/b") 0o644).map
        (fun q => (storage_list p.2 (cstr "/"), storage_list q.2 (cstr "/")))) =
      some (some [cstr "/b", [0xA4, 0x01], [0xED, 0x41]],
        some [cstr "/b", [0xA4, 0x01], [0xED, 0x41]]) ∧
    ((storage_mknod (init_state []) (cstr "/a") 0o644).bind
      (fun p => storage_mknod p.2 (cstr "/b") 0o644)).bind
      (fun p => (storage_mkdir p.2 (cstr "/b") 0o755).map
        (fun q => (q.1, p.2.inodes.get? 3, q.2.inodes.get? 3))) =
      some (-EEXIST, some inode_zero, some ⟨1, 0o40755, 0, 0⟩) := by
  refine ⟨fun s path mode h => ?_, fun s path mode h => ?_, fun s path mode h ha => ?_,
    fun s path mode h ha => ?_, third_mknod_eval, third_mknod_lists, third_mkdir_eval⟩
  · unfold storage_mknod
    rw [if_pos h]
  · unfold storage_mkdir
    rw [if_pos h]
  · unfold storage_mknod
    rw [if_neg (by omega)]
    simp only
    rw [if_pos ha, state_alloc_failed s ha]
  · unfold storage_mkdir
    rw [if_neg (by omega)]
    simp only
    rw [if_pos ha, state_alloc_failed s ha]

/-! ## What a successful `storage_write` stores -/

theorem pwrite_getD (file buf : List Nat) (off q : Nat) :
    (pwrite file buf off).getD q 0 =
      if off ≤ q ∧ q < off + buf.length then buf.getD (q - off) 0 else file.getD q 0 := by
  unfold pwrite
  by_cases hb : buf = []
  · rw [if_pos hb, if_neg (by rw [hb]; simp)]
  · rw [if_neg hb]
    have hpre : ((file ++ List.replicate (off - file.length) 0).take off).length = off := by
      rw [List.length_take, List.length_append, List.length_replicate]
      omega
    by_cases h1 : q < off
    · rw [if_neg (by omega), List.append_assoc, List.getD_append _ _ _ _ (by rw [hpre]; exact h1)]
      simp only [List.getD_eq_getElem?_getD, List.getElem?_take, h1, if_true]
      by_cases h2 : q < file.length
      · rw [List.getElem?_append_left h2]
      · rw [List.getElem?_append_right (by omega), List.getElem?_replicate,
          List.getElem?_eq_none (by omega)]
        split <;> rfl
    · by_cases h2 : q < off + buf.length
      · rw [if_pos ⟨by omega, h2⟩, List.append_assoc,
          List.getD_append_right _ _ _ _ (by rw [hpre]; omega), hpre,
          List.getD_append _ _ _ _ (by omega)]
      · rw [if_neg (by omega), List.getD_append_right _ _ _ _
          (by rw [List.length_append, hpre]; omega), List.length_append, hpre]
        simp only [List.getD_eq_getElem?_getD, List.getElem?_drop]
        congr 2
        omega

theorem write_block_success (s : State) (node : inode_t) (buf : List Nat) (o : Int)
    (wr_ok : Bool) (p : Int × State)
    (hw : write_block s 0 node buf o wr_ok = some p) (hsucc : 0 ≤ p.1) :
    0 ≤ node.block ∧ node.block < BLOCK_COUNT ∧
    0 ≤ node.block * 4096 + o ∧ node.block * 4096 + o + buf.length ≤ 1048576 ∧
    p.1 = (buf.length : Int) ∧
    p.2.inodes = s.inodes.set 0 { node with size := o + buf.length } ∧
    p.2.block_data = memcpy_to s.block_data (node.block * 4096 + o).toNat buf ∧
    p.2.block_bitmap = s.block_bitmap ∧
    p.2.disk = pwrite s.disk buf (node.block * 4096 + o).toNat := by
  unfold write_block at hw
  cases hb : blocks_get_block node.block with
  | none =>
    simp only [hb, EIO, Option.some.injEq] at hw
    subst hw; simp at hsucc
  | some base =>
    have hblk : 0 ≤ node.block ∧ node.block < BLOCK_COUNT ∧ base = node.block.toNat * BLOCK_SIZE := by
      unfold blocks_get_block at hb
      split at hb
      · cases hb
      · simp only [Option.some.injEq] at hb
        exact ⟨by omega, by omega, hb.symm⟩
    obtain ⟨hb0, hb1, hbase⟩ := hblk
    simp only [hb] at hw
    split at hw
    · cases hw
    · rename_i hbound
      have hbt : ((base : Nat) : Int) = node.block * 4096 := by
        rw [hbase]
        unfold BLOCK_SIZE
        push_cast
        rw [Int.toNat_of_nonneg hb0]
      rw [hbt] at hbound hw
      unfold BLOCK_COUNT BLOCK_SIZE at hbound
      unfold BLOCK_COUNT at hb1
      push_cast at hbound hb1
      cases wr_ok with
      | false =>
        simp only [Bool.not_false, if_true, EIO, Option.some.injEq] at hw
        subst hw; simp at hsucc
      | true =>
        simp only [Bool.not_true, Bool.false_eq_true, if_false, Option.some.injEq] at hw
        subst hw
        have e1 : toI32 (buf.length : Int) = buf.length := toI32_of_range (by omega) (by omega)
        have e2 : toI32 (o + buf.length) = o + buf.length := toI32_of_range (by omega) (by omega)
        have e3 : toI32 (node.block * (BLOCK_SIZE : Int)) = node.block * 4096 := by
          unfold BLOCK_SIZE
          exact toI32_of_range (by push_cast; omega) (by push_cast; omega)
        refine ⟨hb0, by unfold BLOCK_COUNT; push_cast; exact hb1, by omega, by omega, e1, ?_, rfl,
          rfl, ?_⟩
        · simp only [Int.toNat_zero, e2]
        · simp only [e3]

theorem storage_write_success (s : State) (path buf : List Nat) (o : Int) (wr_ok : Bool)
    (p : Int × State) (hw : storage_write s path buf o wr_ok = some p) (hsucc : 0 ≤ p.1) :
    tree_lookup path = 0 ∧ path = cstr "/" ∧
    ∃ node node1 : inode_t, s.inodes.get? 0 = some node ∧
      ((node1 = node ∧ p.2.block_bitmap = s.block_bitmap ∧
          (toU64 (o + buf.length) ≤ toU64 node.size ∨ toI32 (o + buf.length) ≤ node.size)) ∨
        (toU64 (o + buf.length) > toU64 node.size ∧ node.size < toI32 (o + buf.length) ∧
          node1 = { node with block := (alloc_block s.block_bitmap).1,
                              size := toI32 (o + buf.length) } ∧
          p.2.block_bitmap = (alloc_block s.block_bitmap).2 ∧
          0 ≤ (alloc_block s.block_bitmap).1)) ∧
      0 ≤ node1.block ∧ node1.block < BLOCK_COUNT ∧
      0 ≤ node1.block * 4096 + o ∧ node1.block * 4096 + o + buf.length ≤ 1048576 ∧
      p.1 = (buf.length : Int) ∧
      p.2.inodes = s.inodes.set 0 { node1 with size := o + buf.length } ∧
      p.2.block_data = memcpy_to s.block_data (node1.block * 4096 + o).toNat buf ∧
      p.2.disk = pwrite s.disk buf (node1.block * 4096 + o).toNat := by
  unfold storage_write at hw
  rcases tree_lookup_cases path with ⟨hpath, hl⟩ | ⟨-, hl⟩
  · refine ⟨hl, hpath, ?_⟩
    simp only [hl, lt_self_iff_false, if_false, get_inode_zero, Int.toNat_zero] at hw
    cases hnode : s.inodes.get? 0 with
    | none =>
      simp only [hnode, EIO, Option.some.injEq] at hw
      subst hw; simp at hsucc
    | some node =>
      simp only [hnode] at hw
      split at hw
      · rename_i hgrow
        by_cases hge : toI32 (o + buf.length) ≤ node.size
        · have hno : grow_inode node (toI32 (o + buf.length)) s.block_bitmap
              = (0, node, s.block_bitmap) := by
            unfold grow_inode
            rw [if_pos hge]
          rw [hno] at hw
          simp only [lt_self_iff_false, if_false] at hw
          obtain ⟨w1, w2, w3, w4, w5, w6, w7, w8, w9⟩ :=
            write_block_success _ node buf o wr_ok p hw hsucc
          simp only at w6 w7 w8 w9
          rw [List.set_set] at w6
          exact ⟨node, node, rfl, Or.inl ⟨rfl, w8, Or.inr hge⟩, w1, w2, w3, w4, w5, w6, w7, w9⟩
        · by_cases hneg : (alloc_block s.block_bitmap).1 < 0
          · have hno : grow_inode node (toI32 (o + buf.length)) s.block_bitmap
                = (-ENOSPC, node, (alloc_block s.block_bitmap).2) := by
              unfold grow_inode
              rw [if_neg hge]
              simp only
              rw [if_pos hneg]
            rw [hno] at hw
            simp only [ENOSPC, Int.reduceNeg, Int.reduceLT, if_true, Option.some.injEq] at hw
            subst hw; simp at hsucc
          · have hyes : grow_inode node (toI32 (o + buf.length)) s.block_bitmap
                = (0, { node with block := (alloc_block s.block_bitmap).1,
                                  size := toI32 (o + buf.length) },
                    (alloc_block s.block_bitmap).2) := by
              unfold grow_inode
              rw [if_neg hge]
              simp only
              rw [if_neg hneg]
            rw [hyes] at hw
            simp only [lt_self_iff_false, if_false] at hw
            obtain ⟨w1, w2, w3, w4, w5, w6, w7, w8, w9⟩ :=
              write_block_success _ _ buf o wr_ok p hw hsucc
            simp only at w1 w2 w3 w4 w6 w7 w8 w9
            rw [List.set_set] at w6
            exact ⟨node, _, rfl, Or.inr ⟨hgrow, by omega, rfl, w8, by omega⟩,
              w1, w2, w3, w4, w5, w6, w7, w9⟩
      · rename_i hnogrow
        obtain ⟨w1, w2, w3, w4, w5, w6, w7, w8, w9⟩ :=
          write_block_success s node buf o wr_ok p hw hsucc
        exact ⟨node, node, rfl, Or.inl ⟨rfl, w8, Or.inl (by omega)⟩, w1, w2, w3, w4, w5, w6, w7, w9⟩
  · simp only [hl] at hw
    simp only [Int.reduceNeg, Int.reduceLT, if_true, ENOENT, Option.some.injEq] at hw
    subst hw; simp at hsucc

/-- C31: every successful `storage_write(path, buf, size, offset)` returns `size`
and leaves the inode with `size` equal to `offset + size`, also when that is less
than the size before the call. -/
theorem storage_write_sets_size (s : State) (path buf : List Nat) (o : Int) (wr_ok : Bool)
    (p : Int × State) (hw : storage_write s path buf o wr_ok = some p) (hsucc : 0 ≤ p.1) :
    p.1 = (buf.length : Int) ∧
    ∃ nd, get_inode p.2.inodes (tree_lookup path) = some nd ∧ nd.size = o + buf.length := by
  obtain ⟨hl, _, node, node1, hnode, _, _, _, _, _, hret, hin, _, _⟩ :=
    storage_write_success s path buf o wr_ok p hw hsucc
  refine ⟨hret, { node1 with size := o + buf.length }, ?_, rfl⟩
  have hne : s.inodes ≠ [] := by
    intro h0; rw [h0] at hnode; simp at hnode
  obtain ⟨x, xs, hx⟩ := List.exists_cons_of_ne_nil hne
  rw [hl, get_inode_zero, hin, hx]
  rfl

theorem storage_write_sets_size_witness :
    storage_write hi_state (cstr "/") (cstr "x") 0 true = some (1, x_state) ∧
    (get_inode hi_state.inodes 0).map (fun nd => nd.size) = some 2 ∧
    ((1 : Int) = ((cstr "x").length : Int) ∧
      ∃ nd, get_inode x_state.inodes (tree_lookup (cstr "/")) = some nd ∧
        nd.size = 0 + ((cstr "x").length : Int)) :=
  ⟨rfl, by decide!,
    storage_write_sets_size hi_state (cstr "/") (cstr "x") 0 true (1, x_state) rfl (by decide)⟩

theorem past_block_write_eval :
    (storage_write (init_state []) (cstr "/") [120] 4096 true).map
      (fun p => (p.1, (p.2.inodes.get? 0).map (fun nd => nd.block), p.2.block_data 4096,
        (init_state []).block_data 4096)) = some (1, some 0, 120, 0) := by
  decide!

/-- C32: what a successful `storage_write(path, buf, size, offset)` stores, `k` being
the block index of the inode after the call.  The file holds `buf` at
`[k * BLOCK_SIZE + offset, k * BLOCK_SIZE + offset + size)` and every other file
byte is unchanged; the block image holds `buf` at the same addresses and every
other byte of the image is unchanged.  For `0 <= offset` and
`offset + size <= BLOCK_SIZE` these addresses lie in block `k`, so that every
other block is unchanged.  Without that bound they do not: on a fresh engine
`storage_write("/", "x", 1, 4096)` succeeds with the inode on block 0 and changes
byte 0 of block 1. -/
theorem storage_write_frame :
    (∀ (s : State) (path buf : List Nat) (o : Int) (wr_ok : Bool) (p : Int × State),
      storage_write s path buf o wr_ok = some p → 0 ≤ p.1 →
      ∃ nd, p.2.inodes.get? 0 = some nd ∧ 0 ≤ nd.block ∧ 0 ≤ nd.block * BLOCK_SIZE + o ∧
        (∀ q, p.2.disk.getD q 0 =
          if (nd.block * BLOCK_SIZE + o).toNat ≤ q ∧
              q < (nd.block * BLOCK_SIZE + o).toNat + buf.length
          then buf.getD (q - (nd.block * BLOCK_SIZE + o).toNat) 0 else s.disk.getD q 0) ∧
        (∀ a, p.2.block_data a =
          if (nd.block * BLOCK_SIZE + o).toNat ≤ a ∧
              a < (nd.block * BLOCK_SIZE + o).toNat + buf.length
          then buf.getD (a - (nd.block * BLOCK_SIZE + o).toNat) 0 else s.block_data a) ∧
        (0 ≤ o → o + buf.length ≤ BLOCK_SIZE →
          (∀ j, j < buf.length →
            p.2.block_data (nd.block.toNat * BLOCK_SIZE + o.toNat + j) = buf.getD j 0) ∧
          (∀ a, a < nd.block.toNat * BLOCK_SIZE ∨ (nd.block.toNat + 1) * BLOCK_SIZE ≤ a →
            p.2.block_data a = s.block_data a))) ∧
    (storage_write (init_state []) (cstr "/") [120] 4096 true).map
      (fun p => (p.1, (p.2.inodes.get? 0).map (fun nd => nd.block), p.2.block_data 4096,
        (init_state []).block_data 4096)) = some (1, some 0, 120, 0) := by
  refine ⟨fun s path buf o wr_ok p hw hsucc => ?_, past_block_write_eval⟩
  obtain ⟨_, _, node, node1, hnode, _, hb0, _, hlo, _, _, hin, hmem, hdisk⟩ :=
    storage_write_success s path buf o wr_ok p hw hsucc
  have hne : s.inodes ≠ [] := by
    intro h0; rw [h0] at hnode; simp at hnode
  obtain ⟨x, xs, hx⟩ := List.exists_cons_of_ne_nil hne
  have hbs : (BLOCK_SIZE : Int) = 4096 := rfl
  refine ⟨{ node1 with size := o + buf.length }, by rw [hin, hx]; rfl, hb0,
    by simp only [hbs]; exact hlo, fun q => ?_, fun a => ?_, fun ho hcap => ⟨fun j hj => ?_, fun a ha => ?_⟩⟩
  · simp only [hbs]
    rw [hdisk, pwrite_getD]
  · simp only [hbs]
    rw [hmem]
    rfl
  · dsimp only
    rw [hmem]
    unfold memcpy_to BLOCK_SIZE
    have e : (node1.block * 4096 + o).toNat = node1.block.toNat * 4096 + o.toNat := by omega
    rw [e, if_pos (by omega)]
    congr 1
    omega
  · dsimp only at ha ⊢
    rw [hmem]
    unfold memcpy_to
    unfold BLOCK_SIZE at ha hcap
    have e : (node1.block * 4096 + o).toNat = node1.block.toNat * 4096 + o.toNat := by omega
    rw [e, if_neg (by push_cast at hcap; omega)]

theorem extending_write_eval :
    (storage_write hi_state (cstr "/") (cstr "x") 2 true).map
      (fun p => (p.1, p.2.inodes.get? 0, bitmap_get hi_state.block_bitmap 1,
        bitmap_get p.2.block_bitmap 1)) = some (1, some ⟨1, 0o40755, 3, 1⟩, 0, 1) ∧
    (storage_write hi_state (cstr "/") (cstr "x") 2 true).bind
      (fun p => storage_read p.2 (cstr "/") 3 0) = some (3, [0, 0, 120]) ∧
    storage_read hi_state (cstr "/") 2 0 = some (2, cstr "hi") := by
  decide!

/-- C33: the call `grow_inode(node, n)` with `n <= node.size` returns 0 and changes
neither the inode nor the bitmap.  But a growing call takes a new block whatever
the inode holds: in every reachable state in which the root inode has `size > 0`,
a successful `storage_write` that extends it
(`old size < offset + size <= BLOCK_SIZE`) gives the inode another block index,
whose bit was clear before and is set afterwards.  On the engine that holds "hi"
in block 0, `storage_write("/", "x", 1, 2)` returns 1, moves the inode to block 1
with size 3, and a read of the 3 bytes then gives 0, 0, "x" instead of "hix". -/
theorem grow_inode_takes_new_block :
    (∀ (node : inode_t) (n : Int) (bm : List Nat), n ≤ node.size →
      grow_inode node n bm = (0, node, bm)) ∧
    (∀ (s : State) (path buf : List Nat) (o : Int) (wr_ok : Bool) (p : Int × State)
      (node : inode_t), Reachable s → s.inodes.get? 0 = some node → 0 < node.size →
      node.size < o + buf.length → o + buf.length ≤ BLOCK_SIZE →
      storage_write s path buf o wr_ok = some p → 0 ≤ p.1 →
      ∃ nd, p.2.inodes.get? 0 = some nd ∧ nd.block ≠ node.block ∧
        bitmap_get s.block_bitmap nd.block.toNat = 0 ∧
        bitmap_get p.2.block_bitmap nd.block.toNat = 1) ∧
    (storage_write hi_state (cstr "/") (cstr "x") 2 true).map
      (fun p => (p.1, p.2.inodes.get? 0, bitmap_get hi_state.block_bitmap 1,
        bitmap_get p.2.block_bitmap 1)) = some (1, some ⟨1, 0o40755, 3, 1⟩, 0, 1) ∧
    (storage_write hi_state (cstr "/") (cstr "x") 2 true).bind
      (fun p => storage_read p.2 (cstr "/") 3 0) = some (3, [0, 0, 120]) ∧
    storage_read hi_state (cstr "/") 2 0 = some (2, cstr "hi") := by
  refine ⟨fun node n bm h => ?_, fun s path buf o wr_ok p node hr hnode hpos hext hcap hw hsucc => ?_,
    extending_write_eval.1, extending_write_eval.2.1, extending_write_eval.2.2⟩
  · unfold grow_inode
    rw [if_pos h]
  · obtain ⟨_, _, node', node1, hnode', hcase, _, _, _, _, _, hin, _, _⟩ :=
      storage_write_success s path buf o wr_ok p hw hsucc
    rw [hnode] at hnode'
    simp only [Option.some.injEq] at hnode'
    subst hnode'
    unfold BLOCK_SIZE at hcap
    push_cast at hcap
    obtain ⟨root, hroot, hwf⟩ := reachable_root_wf s hr
    rw [hnode] at hroot
    simp only [Option.some.injEq] at hroot
    subst hroot
    obtain ⟨hlen, hmark⟩ := reachable_root_marked s hr
    have hm := hmark node hnode
    have hne : s.inodes ≠ [] := by
      intro h0; rw [h0] at hnode; simp at hnode
    obtain ⟨x, xs, hx⟩ := List.exists_cons_of_ne_nil hne
    have e1 : toI32 (o + buf.length) = o + buf.length := toI32_of_range (by omega) (by omega)
    rcases hcase with ⟨_, _, hno⟩ | ⟨_, _, hn1, hbm, ha0⟩
    · exfalso
      rcases hno with hno | hno
      · have u1 := toU64_of_range (x := o + buf.length) (by omega) (by omega)
        have u2 := toU64_of_range (x := node.size) (by omega) (by omega)
        omega
      · omega
    · refine ⟨{ node1 with size := o + buf.length }, by rw [hin, hx]; rfl, ?_, ?_, ?_⟩
      · dsimp only
        rw [hn1]
        dsimp only
        rcases alloc_block_spec s.block_bitmap with ⟨e, _⟩ | ⟨r, e, _, hr0, _⟩
        · rw [e] at ha0; simp at ha0
        · rw [e]
          dsimp only
          intro heq
          rcases hm with hm | ⟨_, hm⟩
          · rw [← heq, Int.toNat_ofNat] at hm
            omega
          · omega
      · dsimp only
        rw [hn1]
        dsimp only
        rcases alloc_block_spec s.block_bitmap with ⟨e, _⟩ | ⟨r, e, _, hr0, _⟩
        · rw [e] at ha0; simp at ha0
        · rw [e]
          dsimp only
          rw [Int.toNat_ofNat]
          exact hr0
      · dsimp only
        rw [hn1, hbm]
        dsimp only
        exact alloc_block_marks s.block_bitmap hlen ha0

theorem unlink_root_eval :
    storage_init none [] true = some (init_state []) ∧
    (get_inode (init_state []).inodes 0).map (fun nd => (nd.refs, S_ISDIR nd.mode)) =
      some (1, true) ∧
    (storage_unlink (init_state []) (cstr "/")).map
      (fun p => (p.1, p.2.inodes.get? 0)) = some (-ENOENT, some inode_zero) ∧
    ((storage_unlink (init_state []) (cstr "/")).bind
      (fun p => storage_mknod p.2 (cstr "/f") 0o100644)).map
      (fun q => (q.1, q.2.inodes.get? 0, (q.2.inodes.get? 0).map (fun nd => S_ISDIR nd.mode))) =
      some (0, some ⟨2, 0o100644, 0, 0⟩, some false) := by
  refine ⟨rfl, by decide!, ?_, ?_⟩
  · rw [storage_unlink_root (init_state []) ⟨1, 0o40755, 0, 0⟩ (List.replicate 127 inode_zero)
      (by decide!)]
    decide!
  · rw [storage_unlink_root (init_state []) ⟨1, 0o40755, 0, 0⟩ (List.replicate 127 inode_zero)
      (by decide!)]
    decide!

/-- C34: the root is not protected.  On a fresh engine, where inode 0 has `refs = 1`
and a directory mode, `storage_unlink("/")` returns `-ENOENT` and leaves inode 0 all
zeros (`refs = 0`, mode 0); a following `storage_mknod("/f", 0100644)` takes
inode 0 for the new file, so that the root record then has the mode of a regular
file.  A successful `storage_write` changes neither `refs` nor `mode` of inode 0. -/
theorem root_inode_can_be_freed :
    storage_init none [] true = some (init_state []) ∧
    (get_inode (init_state []).inodes 0).map (fun nd => (nd.refs, S_ISDIR nd.mode)) =
      some (1, true) ∧
    (storage_unlink (init_state []) (cstr "/")).map
      (fun p => (p.1, p.2.inodes.get? 0)) = some (-ENOENT, some inode_zero) ∧
    ((storage_unlink (init_state []) (cstr "/")).bind
      (fun p => storage_mknod p.2 (cstr "/f") 0o100644)).map
      (fun q => (q.1, q.2.inodes.get? 0, (q.2.inodes.get? 0).map (fun nd => S_ISDIR nd.mode))) =
      some (0, some ⟨2, 0o100644, 0, 0⟩, some false) ∧
    (∃ s, Reachable s ∧ s.inodes.get? 0 = some inode_zero) ∧
    (∀ (s : State) (path buf : List Nat) (o : Int) (wr_ok : Bool) (p : Int × State)
      (node : inode_t), s.inodes.get? 0 = some node →
      storage_write s path buf o wr_ok = some p → 0 ≤ p.1 →
      ∃ nd, p.2.inodes.get? 0 = some nd ∧ nd.refs = node.refs ∧ nd.mode = node.mode) := by
  refine ⟨unlink_root_eval.1, unlink_root_eval.2.1, unlink_root_eval.2.2.1,
    unlink_root_eval.2.2.2, ?_, fun s path buf o wr_ok p node hnode hw hsucc => ?_⟩
  · have hu := storage_unlink_root (init_state []) ⟨1, 0o40755, 0, 0⟩
      (List.replicate 127 inode_zero) (by decide!)
    exact ⟨_, Reachable.unlink (init_state []) (cstr "/") _
      (Reachable.init none [] true (init_state []) rfl) hu, rfl⟩
  · obtain ⟨_, _, node', node1, hnode', hcase, _, _, _, _, _, hin, _, _⟩ :=
      storage_write_success s path buf o wr_ok p hw hsucc
    rw [hnode] at hnode'
    simp only [Option.some.injEq] at hnode'
    subst hnode'
    have hne : s.inodes ≠ [] := by
      intro h0; rw [h0] at hnode; simp at hnode
    obtain ⟨x, xs, hx⟩ := List.exists_cons_of_ne_nil hne
    refine ⟨{ node1 with size := o + buf.length }, by rw [hin, hx]; rfl, ?_, ?_⟩
    · rcases hcase with ⟨h1, _⟩ | ⟨_, _, h1, _⟩ <;> rw [h1]
    · rcases hcase with ⟨h1, _⟩ | ⟨_, _, h1, _⟩ <;> rw [h1]

/-! ## Removing a directory -/

/-- C7, as stated, fails for a request that makes `offset + size` wrap.  On the
reachable state that holds "hi" in "/" (size 2), a read of `2^64 - 1` bytes at
offset 1 is not cut down to `min(n, 2 - 1) = 1` byte: `offset + size` is 0 as an
unsigned 64-bit sum, the test `offset + size > node->size` fails and `memcpy`
is asked for all `2^64 - 1` bytes, which leaves the block image.  With one
byte less requested the sum does not wrap and the read returns the byte "i".
The bytes copied are those of the block image behind the start of the inode's
block, not of that block only: after `storage_write("/", "x", 1, 4096)` on a
fresh engine the root still has block 0 and a read of 1 byte at offset 4096
returns the "x" stored in block 1. -/
theorem storage_read_request_wraps :
    Reachable hi_state ∧
    storage_read hi_state (cstr "/") (2 ^ 64 - 1) 1 = none ∧
    storage_read hi_state (cstr "/") (2 ^ 64 - 2) 1 = some (1, [105]) ∧
    (storage_write (init_state []) (cstr "/") [120] 4096 true).bind
        (fun p => (storage_read p.2 (cstr "/") 1 4096).map
          (fun r => (r.1, r.2, (p.2.inodes.get? 0).map (fun nd => nd.block)))) =
      some (1, [120], some 0) := by
  refine ⟨reachable_hi_state, by decide!, by decide!, by decide!⟩

/-- C30, as stated, fails for the delimiter NUL: `strchr(start, 0)` finds the
terminator of the string, the loop takes it for a delimiter and goes on behind
the end of the string, so `s_explode` has no defined result, neither for the
empty string (where the claim names a single node holding the empty string) nor
for "abc". -/
theorem s_explode_nul_delimiter :
    s_explode [] 0 = none ∧ s_explode (cstr "abc") 0 = none := by
  decide

end Nufs
